import Mathlib

/-! # Starforce simulation core: shallow embedding and verified properties

The C++ extension (`deck.cpp`, `sim_fair.cpp`, `sim_markov.cpp`,
`sim_rigged.cpp`) is embedded as pure Lean functions.

Modelling conventions
* `int` / `long long` are mathematical integers (`Int`); container indices that the
  code only ever sets to non-negative values are `Nat`.  Signed overflow is
  undefined behaviour in C++ and lies outside the model.
* `double` is modelled by exact rationals (`ℚ`); `std::round`, `std::floor`,
  `std::ceil` and the `(int)` cast are the exact functions on `ℚ`.
* `std::mt19937` is a position in an arbitrary stream of raw outputs.  The
  standard distributions are decoded from raw outputs so that exactly the
  values allowed by their contracts can occur; quantifying over the stream
  covers every seed.
* `std::map` is a partial function (`Int → Option _`) or an association list.
-/

namespace Starforce

/-! ## Constants (`deck.h`) -/

/-- Outcome code `S` of deck.h. -/
abbrev S : Int := 0
/-- Outcome code `F` of deck.h. -/
abbrev F : Int := 1
/-- Outcome code `B` of deck.h. -/
abbrev B : Int := 2

/-- Cost table `get_cost_200` of deck.cpp. -/
def get_cost_200 (level : Int) : Int :=
  if level = 12 then 34300000
  else if level = 13 then 55000000
  else if level = 14 then 95000000
  else if level = 15 then 72400000
  else if level = 16 then 100000000
  else if level = 17 then 130400000
  else if level = 18 then 324700000
  else if level = 19 then 584300000
  else if level = 20 then 148000000
  else if level = 21 then 272200000
  else 0

/-! ## Numeric helpers -/

/-- The function `std::round` on doubles: nearest integer, halves away from zero. -/
def cround (x : ℚ) : Int := if 0 ≤ x then ⌊x + 1 / 2⌋ else ⌈x - 1 / 2⌉

/-- The C cast `(int)x` of a double: truncation toward zero. -/
def ctrunc (x : ℚ) : Int := if 0 ≤ x then ⌊x⌋ else ⌈x⌉

/-- The value a 32-bit `int` holds after an arithmetic result `x`: two's
complement wrap-around into `[-2^31, 2^31)`. -/
def wrap32 (x : Int) : Int := (x + 2147483648) % 4294967296 - 2147483648

/-- The value a 64-bit `long long` holds after an arithmetic result `x`. -/
def wrap64 (x : Int) : Int :=
  (x + 9223372036854775808) % 18446744073709551616 - 9223372036854775808

/-- The conversion to `int` of a double whose integral value is `x`: a value
outside the range of `int` converts to `INT_MIN` (the result of the x86-64
conversion instruction the compiled code uses). -/
def cint (x : Int) : Int :=
  if -2147483648 ≤ x ∧ x ≤ 2147483647 then x else -2147483648

/-! ## Random number generation -/

/-- State of a `std::mt19937`: a stream of raw outputs and the read position. -/
structure Mt19937 where
  out : Nat → Nat
  pos : Nat

/-- A seeding function: the raw output stream produced by each integer seed. -/
abbrev Seeder := Int → Nat → Nat

/-- Construction `std::mt19937 rng(seed)`. -/
def Mt19937.seeded (gen : Seeder) (seed : Int) : Mt19937 := ⟨gen seed, 0⟩

/-- One raw output of the generator. -/
def Mt19937.next (g : Mt19937) : Nat × Mt19937 :=
  (g.out g.pos, { g with pos := g.pos + 1 })

/-- Distribution `std::uniform_real_distribution<double>(0.0, 1.0)`: a value in `[0, 1)`.
Two raw outputs `a`, `b` are decoded as `(a mod (b+1)) / (b+1)`, so every
rational of `[0, 1)` can occur. -/
def uniform_real01 (g : Mt19937) : ℚ × Mt19937 :=
  let a := g.out g.pos
  let b := g.out (g.pos + 1)
  (((a % (b + 1) : Nat) : ℚ) / ((b + 1 : Nat) : ℚ), { g with pos := g.pos + 2 })

/-- Distribution `std::uniform_int_distribution<int>(lo, hi)`: a value in `[lo, hi]`. -/
def uniform_int (lo hi : Int) (g : Mt19937) : Int × Mt19937 :=
  (lo + ((g.out g.pos % (hi - lo + 1).toNat : Nat) : Int), { g with pos := g.pos + 1 })

/-- Distribution `std::geometric_distribution<int>(p)`: some integer `≥ 0`. -/
def geometric (_p : ℚ) (g : Mt19937) : Int × Mt19937 :=
  ((g.out g.pos : Int), { g with pos := g.pos + 1 })

/-- Worker of `shuffle`: every element is inserted at a generator-chosen position
among the elements already placed. -/
def shuffle_aux {α : Type} : List α → List α → Mt19937 → List α × Mt19937
  | [], acc, g => (acc, g)
  | x :: xs, acc, g =>
    let u := uniform_int 0 acc.length g
    shuffle_aux xs (acc.insertIdx u.1.toNat x) u.2

/-- Library routine `std::shuffle(first, last, rng)`: rearranges the range into a
permutation chosen by the generator; every permutation can occur. -/
def shuffle {α : Type} (l : List α) (g : Mt19937) : List α × Mt19937 :=
  shuffle_aux l [] g

/-! ## `RunDeckConfig` (`deck.h`) -/

/-- Configuration record `RunDeckConfig` with the defaults of deck.h. -/
structure RunDeckConfig where
  chunk_size : Int := 200000
  chunk_size_by_level : Int → Option Int := fun _ => none
  wrap_random : Bool := true
  corr_length_s : ℚ := 12
  corr_length_f : ℚ := 12
  corr_length_b : ℚ := 12
  tail_strength_s : ℚ := 1 / 20
  tail_strength_f : ℚ := 1 / 20
  tail_strength_b : ℚ := 1 / 20
  cap_s : Int := 0
  cap_f : Int := 0
  cap_b : Int := 0
  box_size : Int := 0
  mix_rate : ℚ := 0
  mix_corr_mult : ℚ := 1
  mix_tail_mult : ℚ := 1
  mix_cap_mult : ℚ := 1
  anti_cluster_mode : Bool := false
  fixed_length_mode : Bool := true
  bias : ℚ := 0

/-! ## `RunDeck::_sample_run_lengths` -/

/-- The line `bool use_mix = (config.mix_rate > 0 && dist(rng) < config.mix_rate);`
(the generator is read only when `mix_rate > 0`). -/
def use_mix_draw (cfg : RunDeckConfig) (g : Mt19937) : Bool × Mt19937 :=
  if cfg.mix_rate > 0 then
    (decide ((uniform_real01 g).1 < cfg.mix_rate), (uniform_real01 g).2)
  else (false, g)

/-- The length drawn by one iteration of the `while` loop of `_sample_run_lengths`
(the block from `int length = 0;` up to the two clamps) for the active
`mean_used`, `tail_used`, `cap_used`. -/
def sample_len (cfg : RunDeckConfig) (mean_used tail_used : ℚ) (cap_used : Int)
    (g1 : Mt19937) : Int × Mt19937 :=
  if tail_used ≤ 0 then
    if cfg.fixed_length_mode then
      let base0 : Int := max 1 (cint ⌊mean_used⌋)
      let top0 : Int := max 1 (cint ⌈mean_used⌉)
      let base : Int := if cap_used > 0 then min base0 cap_used else base0
      let top : Int := if cap_used > 0 then min top0 cap_used else top0
      if base ≥ top then (base, g1)
      else
        let p_top : ℚ := (mean_used - base) / ((top - base : Int) : ℚ)
        let u := uniform_real01 g1
        (if u.1 < p_top then top else base, u.2)
    else
      let p : ℚ := 1 / mean_used
      let r := geometric p g1
      (r.1 + 1, r.2)
  else
    let p : ℚ := 1 / mean_used
    let u := uniform_real01 g1
    if u.1 < tail_used then
      let tail_min : Int := max 2 (cint (ctrunc (mean_used * 2)))
      let tail_max0 : Int := max tail_min (cint (ctrunc (mean_used * 4)))
      let tail_max : Int := if cap_used > 0 then min tail_max0 cap_used else tail_max0
      if tail_min ≥ tail_max then (tail_min, u.2)
      else uniform_int tail_min tail_max u.2
    else
      let r := geometric p u.2
      (r.1 + 1, r.2)

/-- The value `cap_used` of one iteration. -/
def cap_used_of (cfg : RunDeckConfig) (cap : Int) (use_mix : Bool) : Int :=
  if cap > 0 ∧ use_mix = true then cround ((cap : ℚ) * cfg.mix_cap_mult) else cap

/-- One iteration of the `while (remaining > 0)` loop of `_sample_run_lengths`:
the length pushed onto `runs` (after the cap clamp and the budget clamp). -/
def sample_step (cfg : RunDeckConfig) (mean_len tail_strength : ℚ) (cap remaining : Int)
    (g : Mt19937) : Int × Mt19937 :=
  let m := use_mix_draw cfg g
  let use_mix := m.1
  let mean_used : ℚ := max 1 (mean_len * (if use_mix then cfg.mix_corr_mult else 1))
  let tail_used : ℚ := min 1 (max 0 (tail_strength * (if use_mix then cfg.mix_tail_mult else 1)))
  let cap_used : Int := cap_used_of cfg cap use_mix
  let r := sample_len cfg mean_used tail_used cap_used m.2
  let length1 := if cap_used > 0 then min r.1 cap_used else r.1
  let length2 := if length1 > remaining then remaining else length1
  (length2, r.2)

/-- The `while (remaining > 0)` loop of `_sample_run_lengths`.  Every iteration
lowers `remaining` by at least one, so `fuel = remaining` iterations suffice
(`sample_loop_fuel`). -/
def sample_loop (cfg : RunDeckConfig) (mean_len tail_strength : ℚ) (cap : Int) :
    Nat → Int → List Int → Mt19937 → List Int × Mt19937
  | 0, _, runs, g => (runs, g)
  | fuel + 1, remaining, runs, g =>
    if remaining > 0 then
      let r := sample_step cfg mean_len tail_strength cap remaining g
      sample_loop cfg mean_len tail_strength cap fuel (remaining - r.1) (runs ++ [r.1]) r.2
    else (runs, g)

/-- Method `RunDeck::_sample_run_lengths(count, mean_len, tail_strength, cap)`. -/
def _sample_run_lengths (cfg : RunDeckConfig) (count : Int) (mean_len tail_strength : ℚ)
    (cap : Int) (g : Mt19937) : List Int × Mt19937 :=
  if count ≤ 0 then ([], g)
  else
    let r := sample_loop cfg mean_len tail_strength cap count.toNat count [] g
    shuffle r.1 r.2

/-! ## `RunDeck::_build_block_runs` -/

/-- Local variables of the interleaving loop of `_build_block_runs`. -/
structure BlockState where
  r_s : Int
  r_f : Int
  r_b : Int
  idx_s : Nat
  idx_f : Nat
  idx_b : Nat
  prev_type : Int
  all_runs : List (Int × Int)
  rng : Mt19937

/-- The candidate list built at the top of each iteration. -/
def block_candidates (s_runs f_runs b_runs : List Int) (st : BlockState) : List Int :=
  (if st.idx_s < s_runs.length then [S] else []) ++
  (if st.idx_f < f_runs.length then [F] else []) ++
  (if st.idx_b < b_runs.length then [B] else [])

/-- The weighted scan `for i: acc += weights[i]; if (r < acc) chosen = candidates[i]`,
with `-1` when no candidate is hit. -/
def pick_weighted : List Int → List ℚ → ℚ → ℚ → Int
  | c :: cs, w :: ws, r, acc => if r < acc + w then c else pick_weighted cs ws r (acc + w)
  | _, _, _, _ => -1

/-- The choice of the next outcome type among `candidates` (after the anti-cluster filter). -/
def block_choose (candidates : List Int) (st : BlockState) : Int × Mt19937 :=
  let weights : List ℚ :=
    candidates.map (fun t => (((if t = S then st.r_s else if t = F then st.r_f else st.r_b) : Int) : ℚ))
  let w_sum : ℚ := weights.sum
  if w_sum ≤ 0 then
    let u := uniform_int 0 ((candidates.length : Int) - 1) st.rng
    (candidates.getD u.1.toNat (-1), u.2)
  else
    let u := uniform_real01 st.rng
    let r : ℚ := u.1 * w_sum
    let chosen := pick_weighted candidates weights r 0
    (if chosen = -1 then candidates.getLastD (-1) else chosen, u.2)

/-- The anti-cluster filter: with more than one candidate, the previous type is
erased from the candidate list. -/
def block_filter (cfg : RunDeckConfig) (prev_type : Int) (c0 : List Int) : List Int :=
  if cfg.anti_cluster_mode = true ∧ prev_type ≠ -1 ∧ c0.length > 1 then c0.erase prev_type
  else c0

/-- One iteration of the `for (k < max_ops)` loop; `none` is the `break`. -/
def block_step (cfg : RunDeckConfig) (s_runs f_runs b_runs : List Int) (st : BlockState) :
    Option BlockState :=
  let c0 := block_candidates s_runs f_runs b_runs st
  if c0 = [] then none
  else
    let candidates := block_filter cfg st.prev_type c0
    let ch := block_choose candidates st
    let chosen := ch.1
    if chosen = S then
      let length := s_runs.getD st.idx_s 0
      some { st with idx_s := st.idx_s + 1, r_s := st.r_s - length,
                     all_runs := st.all_runs ++ [(chosen, length)], prev_type := chosen, rng := ch.2 }
    else if chosen = F then
      let length := f_runs.getD st.idx_f 0
      some { st with idx_f := st.idx_f + 1, r_f := st.r_f - length,
                     all_runs := st.all_runs ++ [(chosen, length)], prev_type := chosen, rng := ch.2 }
    else
      let length := b_runs.getD st.idx_b 0
      some { st with idx_b := st.idx_b + 1, r_b := st.r_b - length,
                     all_runs := st.all_runs ++ [(chosen, length)], prev_type := chosen, rng := ch.2 }

/-- The loop `for (int k = 0; k < max_ops; k++)`, the argument counting the
iterations still to run. -/
def block_loop (cfg : RunDeckConfig) (s_runs f_runs b_runs : List Int) :
    Nat → BlockState → BlockState
  | 0, st => st
  | n + 1, st =>
    match block_step cfg s_runs f_runs b_runs st with
    | none => st
    | some st1 => block_loop cfg s_runs f_runs b_runs n st1

/-- Method `RunDeck::_build_block_runs`. -/
def _build_block_runs (cfg : RunDeckConfig) (s f b : Int) (cs cf cb ts tf tb : ℚ)
    (caps capf capb : Int) (g : Mt19937) : List (Int × Int) × Mt19937 :=
  let rs := _sample_run_lengths cfg s cs ts caps g
  let rf := _sample_run_lengths cfg f cf tf capf rs.2
  let rb := _sample_run_lengths cfg b cb tb capb rf.2
  let max_ops := rs.1.length + rf.1.length + rb.1.length
  let st := block_loop cfg rs.1 rf.1 rb.1 max_ops
    { r_s := s, r_f := f, r_b := b, idx_s := 0, idx_f := 0, idx_b := 0,
      prev_type := -1, all_runs := [], rng := rb.2 }
  (st.all_runs, st.rng)

/-! ## `RunDeck::_alloc_block_counts` -/

/-- Method `RunDeck::_alloc_block_counts`; the result is `(out_s, out_f, out_b)`. -/
def _alloc_block_counts (size rem_s rem_f rem_b : Int) : Int × Int × Int :=
  let total : Int := rem_s + rem_f + rem_b
  if total ≤ 0 then (0, 0, 0)
  else
    let out_s0 : Int := cround ((size : ℚ) * (rem_s : ℚ) / (total : ℚ))
    let out_b0 : Int := cround ((size : ℚ) * (rem_b : ℚ) / (total : ℚ))
    let out_s1 : Int := if out_s0 > rem_s then rem_s else out_s0
    let out_b1 : Int := if out_b0 > rem_b then rem_b else out_b0
    let out_f1 : Int := size - out_s1 - out_b1
    if out_f1 > rem_f then
      let excess : Int := out_f1 - rem_f
      let reduce_s : Int := min excess out_s1
      let out_s2 : Int := out_s1 - reduce_s
      let excess2 : Int := excess - reduce_s
      let out_b2 : Int := if excess2 > 0 then out_b1 - min excess2 out_b1 else out_b1
      (out_s2, size - out_s2 - out_b2, out_b2)
    else (out_s1, out_f1, out_b1)

/-! ## `RunDeck` -/

/-- Class `RunDeck` of deck.h. -/
structure RunDeck where
  s_cnt : Int
  f_cnt : Int
  b_cnt : Int
  config : RunDeckConfig
  sequence : List (Int × Int)
  idx : Nat
  offset : Int
  builds : Int
  wraps : Int
  draws : Int
  rng : Mt19937
  prefix_sum : List Int
  total_len : Int

/-- Shorthand for the call of `_build_block_runs` with the configured parameters. -/
def build_block (cfg : RunDeckConfig) (s f b : Int) (g : Mt19937) :
    List (Int × Int) × Mt19937 :=
  _build_block_runs cfg s f b cfg.corr_length_s cfg.corr_length_f cfg.corr_length_b
    cfg.tail_strength_s cfg.tail_strength_f cfg.tail_strength_b cfg.cap_s cfg.cap_f cfg.cap_b g

/-- The loop `while (remaining > 0)` of the segmented branch of `_build`.  In that
branch `box_size > 0`, every iteration lowers `remaining` by at least one and
`fuel = remaining` iterations suffice. -/
def build_blocks (cfg : RunDeckConfig) :
    Nat → Int → Int → Int → Int → List (List (Int × Int)) → Mt19937 →
      List (List (Int × Int)) × Mt19937
  | 0, _, _, _, _, blocks, g => (blocks, g)
  | fuel + 1, remaining, cur_s, cur_f, cur_b, blocks, g =>
    if remaining > 0 then
      let size := min remaining cfg.box_size
      let a := _alloc_block_counts size cur_s cur_f cur_b
      let blk := build_block cfg a.1 a.2.1 a.2.2 g
      build_blocks cfg fuel (remaining - size) (cur_s - a.1) (cur_f - a.2.1) (cur_b - a.2.2)
        (blocks ++ [blk.1]) blk.2
    else (blocks, g)

/-- The exchange `std::swap(blk[0], blk[1])`. -/
def swap01 : List (Int × Int) → List (Int × Int)
  | a :: b :: t => b :: a :: t
  | l => l

/-- The loop `for (auto &blk : blocks)` of `_build` that concatenates the blocks. -/
def join_blocks : List (List (Int × Int)) → Int → List (Int × Int) → List (Int × Int)
  | [], _, seq => seq
  | [] :: rest, prev_token, seq => join_blocks rest prev_token seq
  | (r :: blk) :: rest, prev_token, seq =>
    let blk1 :=
      if prev_token ≠ -1 ∧ (r :: blk).length > 1 ∧ r.1 = prev_token then swap01 (r :: blk)
      else r :: blk
    let seq1 := seq ++ blk1
    join_blocks rest (seq1.getLastD (-1, 0)).1 seq1

/-- The run sequence computed by `_build` and the generator afterwards. -/
def build_sequence (cfg : RunDeckConfig) (s_cnt f_cnt b_cnt : Int) (g : Mt19937) :
    List (Int × Int) × Mt19937 :=
  let total := s_cnt + f_cnt + b_cnt
  if cfg.box_size ≤ 0 ∨ cfg.box_size ≥ total then
    build_block cfg s_cnt f_cnt b_cnt g
  else
    let bl := build_blocks cfg total.toNat total s_cnt f_cnt b_cnt [] g
    let sh := shuffle bl.1 bl.2
    (join_blocks sh.1 (-1) [], sh.2)

/-- The running totals pushed onto `prefix_sum` by the last loop of `_build`. -/
def prefix_sums : List (Int × Int) → Int → List Int
  | [], _ => []
  | p :: rest, acc => (acc + p.2) :: prefix_sums rest (acc + p.2)

/-- Method `RunDeck::_build`. -/
def RunDeck._build (d : RunDeck) : RunDeck :=
  let r := build_sequence d.config d.s_cnt d.f_cnt d.b_cnt d.rng
  { d with
    sequence := r.1
    idx := 0
    offset := 0
    builds := d.builds + 1
    total_len := (r.1.map Prod.snd).sum
    prefix_sum := prefix_sums r.1 0
    rng := r.2 }

/-- Constructor `RunDeck::RunDeck(s, f, b, cfg, seed)`. -/
def RunDeck.new (gen : Seeder) (s f b : Int) (cfg : RunDeckConfig) (seed : Int) : RunDeck :=
  RunDeck._build
    { s_cnt := s, f_cnt := f, b_cnt := b, config := cfg, sequence := [], idx := 0, offset := 0,
      builds := 0, wraps := 0, draws := 0, rng := Mt19937.seeded gen seed, prefix_sum := [],
      total_len := 0 }

/-- The cursor update of `jump_random` once the position `pos` has been drawn:
`std::upper_bound` on the (increasing) prefix sums is the first index whose
prefix sum exceeds `pos`. -/
def RunDeck.jump_to (d : RunDeck) (pos : Int) : RunDeck :=
  let i0 : Nat := d.prefix_sum.findIdx (fun x => decide (pos < x))
  let i : Nat := if i0 ≥ d.sequence.length then d.sequence.length - 1 else i0
  let prev_end : Int := if i > 0 then d.prefix_sum.getD (i - 1) 0 else 0
  { d with idx := i, offset := pos - prev_end }

/-- Method `RunDeck::jump_random`. -/
def RunDeck.jump_random (d : RunDeck) : RunDeck :=
  if d.sequence = [] ∨ d.total_len ≤ 0 then d
  else
    let u := uniform_int 0 (d.total_len - 1) d.rng
    RunDeck.jump_to { d with rng := u.2 } u.1

/-- The wrap handling at the top of `RunDeck::draw`. -/
def RunDeck.wrap (d : RunDeck) : RunDeck :=
  if d.idx ≥ d.sequence.length then
    if d.config.wrap_random then RunDeck.jump_random { d with wraps := d.wraps + 1 }
    else { d with wraps := d.wraps + 1, idx := 0, offset := 0 }
  else d

/-- Method `RunDeck::draw`: the token and the deck afterwards. -/
def RunDeck.draw (d : RunDeck) : Int × RunDeck :=
  if d.sequence = [] then (S, d)
  else
    let d1 := RunDeck.wrap d
    let p := d1.sequence.getD d1.idx (0, 0)
    let token := p.1
    if d1.offset + 1 ≥ p.2 then
      (token, { d1 with draws := d1.draws + 1, idx := d1.idx + 1, offset := 0 })
    else
      (token, { d1 with draws := d1.draws + 1, offset := d1.offset + 1 })

/-- The tokens returned by `n` successive calls of `draw`, and the deck afterwards. -/
def RunDeck.draw_n : Nat → RunDeck → List Int × RunDeck
  | 0, d => ([], d)
  | n + 1, d =>
    let r := RunDeck.draw d
    let rest := RunDeck.draw_n n r.2
    (r.1 :: rest.1, rest.2)

/-- The flattened token sequence of a list of runs. -/
def expand : List (Int × Int) → List Int
  | [] => []
  | p :: rest => List.replicate p.2.toNat p.1 ++ expand rest

/-- Sum of the lengths of the runs of outcome type `t`. -/
def type_sum (t : Int) (seq : List (Int × Int)) : Int :=
  ((seq.filter (fun p => p.1 = t)).map Prod.snd).sum

/-! ## `RunDeckManager` -/

/-- The probability table `std::map<int, std::tuple<double, double, double>>`. -/
abbrev ProbTable := Int → Option (ℚ × ℚ × ℚ)

/-- Class `RunDeckManager` of deck.h; `decks` is kept in key order. -/
structure RunDeckManager where
  prob : ProbTable
  config : RunDeckConfig
  rng : Mt19937
  decks : List (Int × RunDeck)
  randomize_on_create : Bool

/-- Constructor `RunDeckManager::RunDeckManager(p, c, seed)`. -/
def RunDeckManager.new (gen : Seeder) (p : ProbTable) (c : RunDeckConfig) (seed : Int) :
    RunDeckManager :=
  { prob := p, config := c, rng := Mt19937.seeded gen seed, decks := [],
    randomize_on_create := false }

/-- Lookup `decks.find(level)`. -/
def decks_find (level : Int) : List (Int × RunDeck) → Option RunDeck
  | [] => none
  | (k, v) :: rest => if level = k then some v else decks_find level rest

/-- Assignment `decks[level] = d` (also the write-back of a deck mutated through
the pointer that `get_deck` returns). -/
def decks_set (level : Int) (d : RunDeck) : List (Int × RunDeck) → List (Int × RunDeck)
  | [] => [(level, d)]
  | (k, v) :: rest =>
    if level = k then (level, d) :: rest
    else if level < k then (level, d) :: (k, v) :: rest
    else (k, v) :: decks_set level d rest

/-- The counts `(s_cnt, f_cnt, b_cnt)` that `get_deck` derives for a chunk of `size`
tokens from the triple `p` and the bias. -/
def deck_counts (size : Int) (p : ℚ × ℚ × ℚ) (bias : ℚ) : Int × Int × Int :=
  let p_s : ℚ := max 0 (min (99 / 100) (p.1 + bias))
  let s_cnt : Int := cround ((size : ℚ) * p_s)
  let b_cnt : Int := cround ((size : ℚ) * p.2.2)
  let f_cnt0 : Int := size - s_cnt - b_cnt
  let total : Int := s_cnt + f_cnt0 + b_cnt
  let f_cnt : Int := if total ≠ size then f_cnt0 + (size - total) else f_cnt0
  (s_cnt, f_cnt, b_cnt)

/-- Method `RunDeckManager::get_deck`: the deck (`none` is the null pointer) and
the manager afterwards. -/
def RunDeckManager.get_deck (gen : Seeder) (m : RunDeckManager) (level : Int) :
    Option RunDeck × RunDeckManager :=
  match decks_find level m.decks with
  | some d => (some d, m)
  | none =>
    match m.prob level with
    | none => (none, m)
    | some p =>
      let size : Int :=
        match m.config.chunk_size_by_level level with
        | some n => n
        | none => m.config.chunk_size
      let c := deck_counts size p m.config.bias
      let u := uniform_int 0 1000000 m.rng
      let d0 := RunDeck.new gen c.1 c.2.1 c.2.2 m.config u.1
      let d := if m.randomize_on_create then RunDeck.jump_random d0 else d0
      (some d, { m with rng := u.2, decks := decks_set level d m.decks })

/-- Method `RunDeckManager::draw`. -/
def RunDeckManager.draw (gen : Seeder) (m : RunDeckManager) (level : Int) :
    Int × RunDeckManager :=
  let r := RunDeckManager.get_deck gen m level
  match r.1 with
  | none => (S, r.2)
  | some d =>
    let t := RunDeck.draw d
    (t.1, { r.2 with decks := decks_set level t.2 r.2.decks })

/-- Method `RunDeckManager::start_run`. -/
def RunDeckManager.start_run (m : RunDeckManager) (mode : String) : RunDeckManager :=
  if mode = "random" then
    { m with decks := m.decks.map (fun kv => (kv.1, RunDeck.jump_random kv.2)),
             randomize_on_create := true }
  else { m with randomize_on_create := false }

/-- Method `RunDeckManager::stats`: `(draws, builds, wraps)` summed over the decks
in three `int` accumulators.  The counters of the single decks are kept exact in
this development; reducing their sum to 32 bits gives the value that the `int`
additions of the code give, whether or not a counter of a deck has wrapped. -/
def RunDeckManager.stats (m : RunDeckManager) : Int × Int × Int :=
  (wrap32 (m.decks.map (fun kv => kv.2.draws)).sum,
   wrap32 (m.decks.map (fun kv => kv.2.builds)).sum,
   wrap32 (m.decks.map (fun kv => kv.2.wraps)).sum)

/-! ## Trial bookkeeping shared by the drivers -/

/-- Struct `SimResult` of deck.h: `cost` is a `long long`, `clicks` and the entries
of `streaks`, `b_streaks` and `lvl_stats` are `int`s.  The fields hold the values
of those machine integers; the arithmetic on them wraps where it is done
(`wrap32`, `wrap64`). -/
structure SimResult where
  streaks : List Int
  b_streaks : List Int
  lvl_stats : List (List Int)
  cost : Int
  clicks : Int
deriving DecidableEq

/-- What a driver returns: the results and the manager statistics. -/
structure SimOutput where
  results : List SimResult
  draws : Int
  builds : Int
  wraps : Int
deriving DecidableEq

/-- The ways a run of the model can fail to produce the program's result:
undefined behaviour, a loop that outlasts its fuel, and a `std::length_error`
thrown by a vector. -/
inductive Fault where
  | undefined_behaviour
  | out_of_fuel
  | length_error
deriving DecidableEq

/-- The table `std::vector<std::vector<int>>(10, std::vector<int>(4, 0))`. -/
def lvl_stats_zero : List (List Int) := List.replicate 10 (List.replicate 4 0)

/-- The increment `stats[i][j]++` of a cell of type `int`. -/
def bump (stats : List (List Int)) (i j : Nat) : List (List Int) :=
  List.modify (fun row => List.modify (fun x => wrap32 (x + 1)) j row) i stats

/-- The guarded per-level update `if (idx >= 0 && idx < 10) ...` of one click. -/
def lvl_update (stats : List (List Int)) (curr token : Int) : List (List Int) :=
  let idx := curr - 12
  if idx ≥ 0 ∧ idx < 10 then
    let s1 := bump stats idx.toNat 0
    if token = S then bump s1 idx.toNat 1
    else if token = F then bump s1 idx.toNat 2
    else bump s1 idx.toNat 3
  else stats

/-- The transition rule of one click. -/
def next_level (curr token : Int) : Int :=
  if token = S then (if curr < 22 then curr + 1 else curr)
  else if token = B then 12
  else curr

/-- The code `(token == S) ? 0 : (token == F ? 1 : 2)`. -/
def type_code (token : Int) : Int := if token = S then 0 else if token = F then 1 else 2

/-- The flush `if (curr_len > 0) push_back(...)` of the running streak. -/
def push_streak (streaks b_streaks : List Int) (curr_type curr_len : Int) :
    List Int × List Int :=
  if curr_len > 0 then
    if curr_type = 0 then (streaks ++ [curr_len], b_streaks)
    else if curr_type = 1 then (streaks ++ [-curr_len], b_streaks)
    else (streaks, b_streaks ++ [curr_len])
  else (streaks, b_streaks)

/-! ## Sequential drivers (`sim_fair.cpp`, `sim_markov.cpp`, `sim_rigged.cpp`)

The three sequential loops have the same text except for the lines that
produce the token; these lines are the `Source`. -/

/-- A token source: from its state, the current level and `prev_token`, the token
and the new state. -/
abbrev Source (σ : Type) := σ → Int → Int → Except Fault (Int × σ)

/-- Variables of the sequential loops: the user's `res`, the locals of one run
(`prev_token` exists in sim_markov.cpp only) and the state of the source. -/
structure SeqState (σ : Type) where
  res : SimResult
  curr : Int
  clicks_run : Int
  curr_type : Int
  curr_len : Int
  prev_token : Int
  src : σ

/-- The body of `while (curr < 22 && clicks_run < 5000)` once the token is known;
`res.cost +=` is a `long long` addition, the counters of the run stay below 5000. -/
def seq_click {σ : Type} (st : SeqState σ) (token : Int) (s1 : σ) : SeqState σ :=
  let tc := type_code token
  let fl :=
    if tc = st.curr_type then (st.res.streaks, st.res.b_streaks)
    else push_streak st.res.streaks st.res.b_streaks st.curr_type st.curr_len
  { res :=
      { st.res with
        cost := wrap64 (st.res.cost + get_cost_200 st.curr)
        lvl_stats := lvl_update st.res.lvl_stats st.curr token
        streaks := fl.1
        b_streaks := fl.2 }
    curr := next_level st.curr token
    clicks_run := st.clicks_run + 1
    curr_type := tc
    curr_len := if tc = st.curr_type then st.curr_len + 1 else 1
    prev_token := tc
    src := s1 }

/-- The loop `while (curr < 22 && clicks_run < 5000)`.  The click cap bounds the
iterations by 5000, the fuel the loop is started with. -/
def trial_loop {σ : Type} (src : Source σ) : Nat → SeqState σ → Except Fault (SeqState σ)
  | 0, st => if st.curr < 22 ∧ st.clicks_run < 5000 then .error .out_of_fuel else .ok st
  | fuel + 1, st =>
    if st.curr < 22 ∧ st.clicks_run < 5000 then
      match src st.src st.curr st.prev_token with
      | .error e => .error e
      | .ok r => trial_loop src fuel (seq_click st r.1 r.2)
    else .ok st

/-- One iteration of `for (int r = 0; r < runs_per_user; ++r)`; the final
`res.clicks += clicks_run` is an `int` addition. -/
def seq_run {σ : Type} (src : Source σ) (rs : SimResult × σ) : Except Fault (SimResult × σ) :=
  match trial_loop src 5000
      { res := rs.1, curr := 12, clicks_run := 0, curr_type := -1, curr_len := 0,
        prev_token := -1, src := rs.2 } with
  | .error e => .error e
  | .ok st =>
    let fl := push_streak st.res.streaks st.res.b_streaks st.curr_type st.curr_len
    .ok ({ st.res with
            streaks := fl.1, b_streaks := fl.2, clicks := wrap32 (st.res.clicks + st.clicks_run) },
         st.src)

/-- The loop `for (int r = 0; r < runs_per_user; ++r)`. -/
def seq_runs {σ : Type} (src : Source σ) : Nat → SimResult × σ → Except Fault (SimResult × σ)
  | 0, rs => .ok rs
  | n + 1, rs =>
    match seq_run src rs with
    | .error e => .error e
    | .ok rs1 => seq_runs src n rs1

/-- The loop `for (int i = 0; i < users; ++i)`: one `SimResult` is pushed per user. -/
def seq_users {σ : Type} (src : Source σ) (runs_per_user : Nat) :
    Nat → List SimResult × σ → Except Fault (List SimResult × σ)
  | 0, acc => .ok acc
  | n + 1, acc =>
    match seq_runs src runs_per_user
        ({ streaks := [], b_streaks := [], lvl_stats := lvl_stats_zero, cost := 0, clicks := 0 },
         acc.2) with
    | .error e => .error e
    | .ok rs => seq_users src runs_per_user n (acc.1 ++ [rs.1], rs.2)

/-- The call `all_results.reserve(users * runs_per_user)` at the top of each
driver throws `std::length_error`: the `int` product (a 32-bit value like the
other `int` arithmetic here) is negative, so its conversion to `size_t` is beyond
`max_size()`.  (A non-negative product is reserved; running out of memory is
outside the model.) -/
def reserve_throws (users runs_per_user : Int) : Prop := wrap32 (users * runs_per_user) < 0

instance (users runs_per_user : Int) : Decidable (reserve_throws users runs_per_user) := by
  unfold reserve_throws
  infer_instance

/-- Token lines of sim_fair.cpp (`prob[curr]` of an absent level is the zero triple). -/
def fair_source (prob : ProbTable) : Source Mt19937 := fun g curr _ =>
  let p := (prob curr).getD (0, 0, 0)
  let p_s := p.1
  let p_b := p.2.2
  let u := uniform_real01 g
  .ok (if u.1 < p_s then S else if u.1 < p_s + (1 - p_s - p_b) then F else B, u.2)

/-- Function `simulate_fair_cpp`. -/
def simulate_fair_cpp (gen : Seeder) (users runs_per_user : Int) (prob : ProbTable)
    (seed : Int) : Except Fault SimOutput :=
  if reserve_throws users runs_per_user then .error .length_error
  else
    match seq_users (fair_source prob) runs_per_user.toNat users.toNat
        ([], Mt19937.seeded gen seed) with
    | .error e => .error e
    | .ok r => .ok { results := r.1, draws := 0, builds := 0, wraps := 0 }

/-- The clamp `if (val < 0) val = 0; if (val > 1) val = 1;`. -/
def clamp01 (val : ℚ) : ℚ :=
  let v1 := if val < 0 then 0 else val
  if v1 > 1 then 1 else v1

/-- Row `i` of the transition matrix that sim_markov.cpp builds from `pi = {p_s, p_f, p_b}`. -/
def markov_row (rho : ℚ) (pi : List ℚ) (i : Nat) : List ℚ :=
  let r : ℚ := if i = 1 ∧ rho > 4 / 5 then 4 / 5 else rho
  let vals : List ℚ :=
    (List.range 3).map (fun j => clamp01 ((1 - r) * pi.getD j 0 + r * (if i = j then 1 else 0)))
  let row_sum : ℚ := vals.sum
  if row_sum > 1 / 1000000 then vals.map (fun v => v / row_sum) else pi

/-- The matrix `T` stored in `transitions[level]` for the triple `p_tuple`. -/
def markov_matrix (rho : ℚ) (p_tuple : ℚ × ℚ × ℚ) : List (List ℚ) :=
  let p_s := p_tuple.1
  let p_b := p_tuple.2.2
  let p_f := 1 - p_s - p_b
  (List.range 3).map (fun i => markov_row rho [p_s, p_f, p_b] i)

/-- The map `transitions`; `transitions[curr]` of an absent level is an empty vector. -/
def markov_transitions (rho : ℚ) (prob : ProbTable) (level : Int) : List (List ℚ) :=
  match prob level with
  | some p => markov_matrix rho p
  | none => []

/-- Token lines of sim_markov.cpp.  An index outside `T` or outside a row of `T`
is undefined behaviour. -/
def markov_source (rho : ℚ) (prob : ProbTable) : Source Mt19937 := fun g curr prev_token =>
  let eff : Except Fault (ℚ × ℚ × ℚ) :=
    if prev_token = -1 then
      let p := (prob curr).getD (0, 0, 0)
      .ok (p.1, 1 - p.1 - p.2.2, p.2.2)
    else
      let T := markov_transitions rho prob curr
      if prev_token < 0 then .error .undefined_behaviour
      else
        match T.get? prev_token.toNat with
        | none => .error .undefined_behaviour
        | some row =>
          match row.get? 0, row.get? 1, row.get? 2 with
          | some a, some b, some c => .ok (a, b, c)
          | _, _, _ => .error .undefined_behaviour
  match eff with
  | .error e => .error e
  | .ok (p_s_eff, p_f_eff, _) =>
    let u := uniform_real01 g
    .ok (if u.1 < p_s_eff then S else if u.1 < p_s_eff + p_f_eff then F else B, u.2)

/-- Function `simulate_markov_cpp`. -/
def simulate_markov_cpp (gen : Seeder) (users runs_per_user : Int) (prob : ProbTable)
    (rho : ℚ) (seed : Int) : Except Fault SimOutput :=
  if reserve_throws users runs_per_user then .error .length_error
  else
    match seq_users (markov_source rho prob) runs_per_user.toNat users.toNat
        ([], Mt19937.seeded gen seed) with
    | .error e => .error e
    | .ok r => .ok { results := r.1, draws := 0, builds := 0, wraps := 0 }

/-- Token line `manager.draw(curr)` of sim_rigged.cpp. -/
def rigged_source (gen : Seeder) : Source RunDeckManager := fun m curr _ =>
  .ok (RunDeckManager.draw gen m curr)

/-! ## Interleaved driver (`sim_rigged.cpp`, `sequential == false`)

The parallel per-user vectors are grouped into one record per user. -/

/-- Entry `i` of the per-user vectors of the interleaved loop. -/
structure UserState where
  curr : Int
  clicks : Int
  cost : Int
  runs_done : Int
  lvl_stats : List (List Int)
  u_streaks : List Int
  u_b_streaks : List Int
  u_curr_type : Int
  u_curr_len : Int

/-- The variables shared by all users in the interleaved loop. -/
structure Shared where
  manager : RunDeckManager
  all_results : List SimResult
  active : Int

/-- The initial entry of the per-user vectors. -/
def UserState.init : UserState :=
  { curr := 12, clicks := 0, cost := 0, runs_done := 0, lvl_stats := lvl_stats_zero,
    u_streaks := [], u_b_streaks := [], u_curr_type := -1, u_curr_len := 0 }

/-- The updates of one click of user `i` (cost, clicks, per-level table, level,
running streak) once the token is known; `costs[i] +=` is a `long long` addition
and `clicks[i]++` an `int` increment. -/
def user_click (u : UserState) (token : Int) : UserState :=
  let curr := u.curr
  let tc := type_code token
  let fl :=
    if tc = u.u_curr_type then (u.u_streaks, u.u_b_streaks)
    else push_streak u.u_streaks u.u_b_streaks u.u_curr_type u.u_curr_len
  { u with
    cost := wrap64 (u.cost + get_cost_200 curr)
    clicks := wrap32 (u.clicks + 1)
    lvl_stats := lvl_update u.lvl_stats curr token
    curr := next_level curr token
    u_streaks := fl.1
    u_b_streaks := fl.2
    u_curr_type := tc
    u_curr_len := if tc = u.u_curr_type then u.u_curr_len + 1 else 1 }

/-- The block `if (finished) { ... }` of the interleaved loop for a user whose
click made it finish: the pushed result, the user afterwards and the change
of `active`. -/
def user_finish (runs_per_user : Int) (u1 : UserState) : SimResult × UserState × Int :=
  let fl2 := push_streak u1.u_streaks u1.u_b_streaks u1.u_curr_type u1.u_curr_len
  let res : SimResult :=
    { streaks := fl2.1, b_streaks := fl2.2, lvl_stats := u1.lvl_stats, cost := u1.cost,
      clicks := u1.clicks }
  let u2 : UserState :=
    { u1 with u_streaks := fl2.1, u_b_streaks := fl2.2, runs_done := u1.runs_done + 1 }
  if u2.runs_done < runs_per_user then
    (res, { UserState.init with runs_done := u2.runs_done }, 0)
  else (res, u2, -1)

/-- The body of `for (int i = 0; i < users; ++i)` for one user. -/
def inter_user (gen : Seeder) (runs_per_user : Int) (u : UserState) (sh : Shared) :
    UserState × Shared :=
  if u.runs_done ≥ runs_per_user then (u, sh)
  else
    let d := RunDeckManager.draw gen sh.manager u.curr
    let u1 := user_click u d.1
    if u1.curr ≥ 22 ∨ u1.clicks ≥ 5000 then
      let fin := user_finish runs_per_user u1
      (fin.2.1,
       { manager := d.2, all_results := sh.all_results ++ [fin.1], active := sh.active + fin.2.2 })
    else (u1, { sh with manager := d.2 })

/-- One pass of `for (int i = 0; i < users; ++i)` over the users, in order. -/
def inter_pass (gen : Seeder) (runs_per_user : Int) :
    List UserState → Shared → List UserState × Shared
  | [], sh => ([], sh)
  | u :: us, sh =>
    let r := inter_user gen runs_per_user u sh
    let rest := inter_pass gen runs_per_user us r.2
    (r.1 :: rest.1, rest.2)

/-- The loop `while (active > 0)`; `fuel` bounds the number of passes. -/
def inter_loop (gen : Seeder) (runs_per_user : Int) :
    Nat → List UserState → Shared → Except Fault Shared
  | 0, _, sh => if sh.active > 0 then .error .out_of_fuel else .ok sh
  | fuel + 1, us, sh =>
    if sh.active > 0 then
      let r := inter_pass gen runs_per_user us sh
      inter_loop gen runs_per_user fuel r.1 r.2
    else .ok sh

/-- Function `simulate_rigged_cpp`.  The argument `fuel` bounds the passes of the
interleaved `while (active > 0)` loop and is not used by the sequential branch.
In the interleaved branch the per-user vectors `std::vector<int> currs(users, 12)`
throw `std::length_error` for a negative `users`. -/
def simulate_rigged_cpp (gen : Seeder) (fuel : Nat) (users runs_per_user : Int)
    (prob : ProbTable) (config : RunDeckConfig) (start_mode : String) (seed : Int)
    (sequential : Bool) : Except Fault SimOutput :=
  if reserve_throws users runs_per_user then .error .length_error
  else
    let manager := RunDeckManager.start_run (RunDeckManager.new gen prob config seed) start_mode
    if sequential then
      match seq_users (rigged_source gen) runs_per_user.toNat users.toNat ([], manager) with
      | .error e => .error e
      | .ok r =>
        .ok { results := r.1, draws := (RunDeckManager.stats r.2).1,
              builds := (RunDeckManager.stats r.2).2.1, wraps := (RunDeckManager.stats r.2).2.2 }
    else if users < 0 then .error .length_error
    else
      match inter_loop gen runs_per_user fuel (List.replicate users.toNat UserState.init)
          { manager := manager, all_results := [], active := users } with
      | .error e => .error e
      | .ok sh =>
        .ok { results := sh.all_results, draws := (RunDeckManager.stats sh.manager).1,
              builds := (RunDeckManager.stats sh.manager).2.1,
              wraps := (RunDeckManager.stats sh.manager).2.2 }


/-! ## Specification vocabulary -/

/-- All runs have length at least one. -/
def RunsPos (seq : List (Int × Int)) : Prop := ∀ p ∈ seq, 1 ≤ p.2

/-- All runs carry one of the three outcome codes. -/
def RunsTyped (seq : List (Int × Int)) : Prop := ∀ p ∈ seq, p.1 = S ∨ p.1 = F ∨ p.1 = B

/-- The lengths of the runs of outcome type `t`, in sequence order. -/
def runs_of (t : Int) (seq : List (Int × Int)) : List Int :=
  (seq.filter (fun p => p.1 = t)).map Prod.snd

/-- Number of pre-sampled runs not yet consumed by the interleaving loop. -/
def block_rem (s_runs f_runs b_runs : List Int) (st : BlockState) : Nat :=
  (s_runs.length - st.idx_s) + (f_runs.length - st.idx_f) + (b_runs.length - st.idx_b)

/-- Invariant of the interleaving loop: the runs of each type appended so far are
the consumed initial segment of that type's pre-sampled list. -/
def BlockInv (s_runs f_runs b_runs : List Int) (st : BlockState) : Prop :=
  st.idx_s ≤ s_runs.length ∧ st.idx_f ≤ f_runs.length ∧ st.idx_b ≤ b_runs.length ∧
  runs_of S st.all_runs = s_runs.take st.idx_s ∧
  runs_of F st.all_runs = f_runs.take st.idx_f ∧
  runs_of B st.all_runs = b_runs.take st.idx_b ∧
  RunsTyped st.all_runs

/-- The tokens still to come in the current pass, for the cursor `(idx, offset)`. -/
def rest_tokens (seq : List (Int × Int)) (idx : Nat) (offset : Int) : List Int :=
  match seq.drop idx with
  | [] => []
  | p :: t => List.replicate (p.2 - offset).toNat p.1 ++ expand t

/-- The tokens a deck still returns before its cursor reaches the end. -/
def RunDeck.rest (d : RunDeck) : List Int := rest_tokens d.sequence d.idx d.offset

/-- The cursor predicate: `idx` is at most the number of runs; if it is smaller,
`0 ≤ offset < length of run idx`, else `offset = 0`. -/
def CursorOk (d : RunDeck) : Prop :=
  d.idx ≤ d.sequence.length ∧
  (d.idx < d.sequence.length → 0 ≤ d.offset ∧ d.offset < (d.sequence.getD d.idx (0, 0)).2) ∧
  (¬ d.idx < d.sequence.length → d.offset = 0)

/-- The derived fields `prefix_sum` and `total_len` are those `_build` computes
from `sequence`. -/
def RunDeck.Built (d : RunDeck) : Prop :=
  d.prefix_sum = prefix_sums d.sequence 0 ∧ d.total_len = (d.sequence.map Prod.snd).sum

/-- Sum of the lengths of the runs before run `i`. -/
def before (seq : List (Int × Int)) (i : Nat) : Int := ((seq.take i).map Prod.snd).sum

/-- Total length of the recorded streaks: `Σ |streaks| + Σ b_streaks`. -/
def streak_total (streaks b_streaks : List Int) : Int :=
  (streaks.map (fun x => |x|)).sum + b_streaks.sum

/-- The quantity `Σ |streaks| + Σ b_streaks` of a result. -/
def SimResult.streak_clicks (r : SimResult) : Int := streak_total r.streaks r.b_streaks

/-- Loop invariant of the trial loops: the flushed streaks plus the running
streak account for every click made so far; `c0` is the `clicks` field and `t0`
the streak total of the result before the run. -/
def SeqBalanced {σ : Type} (c0 t0 : Int) (st : SeqState σ) : Prop :=
  0 ≤ st.curr_len ∧ 0 ≤ st.clicks_run ∧ st.clicks_run ≤ 5000 ∧ st.res.clicks = c0 ∧
  streak_total st.res.streaks st.res.b_streaks + st.curr_len = t0 + st.clicks_run

/-- What holds of every result of a sequential driver with `n` runs per user:
`clicks` is the 32-bit value of the streak total, which is between 0 and `5000 * n`. -/
def SeqResultOk (n : Nat) (r : SimResult) : Prop :=
  r.clicks = wrap32 r.streak_clicks ∧ 0 ≤ r.streak_clicks ∧ r.streak_clicks ≤ 5000 * (n : Int)

/-- A source that never fails on the arguments a trial passes to it: a level in
`12..21` and a previous type code in `-1..2`. -/
def SourceTotal {σ : Type} (src : Source σ) : Prop :=
  ∀ s curr prev, 12 ≤ curr → curr < 22 → (prev = -1 ∨ prev = 0 ∨ prev = 1 ∨ prev = 2) →
    ∃ r, src s curr prev = .ok r

/-- The level and the previous type code stay in the ranges of a trial. -/
def SeqInRange {σ : Type} (st : SeqState σ) : Prop :=
  12 ≤ st.curr ∧ st.curr ≤ 22 ∧
  (st.prev_token = -1 ∨ st.prev_token = 0 ∨ st.prev_token = 1 ∨ st.prev_token = 2)

/-- The results a driver returned (none when the run failed). -/
def results_of (o : Except Fault SimOutput) : List SimResult :=
  match o with
  | .ok out => out.results
  | .error _ => []

/-- Invariant of one entry of the per-user vectors: while the user is still in
rotation its click count is below the cap and its streaks account for its clicks. -/
def UserInv (rpu : Int) (u : UserState) : Prop :=
  0 ≤ u.runs_done ∧ (0 ≤ rpu → u.runs_done ≤ rpu) ∧
  (u.runs_done < rpu → 0 ≤ u.clicks ∧ u.clicks < 5000 ∧ 0 ≤ u.u_curr_len ∧
    streak_total u.u_streaks u.u_b_streaks + u.u_curr_len = u.clicks)

/-- An upper bound on the clicks a user can still take. -/
def user_budget (rpu : Int) (u : UserState) : Nat :=
  if u.runs_done < rpu then ((rpu - u.runs_done) * 5000 - u.clicks).toNat else 0

/-- 1 for a user still in rotation, else 0. -/
def user_active (rpu : Int) (u : UserState) : Int := if u.runs_done < rpu then 1 else 0

/-- Number of users still in rotation. -/
def active_count (rpu : Int) (us : List UserState) : Int := (us.map (user_active rpu)).sum

/-- Number of runs finished by all users. -/
def done_sum (us : List UserState) : Int := (us.map (fun u => u.runs_done)).sum

/-- What holds of every result pushed by the interleaved loop. -/
def ResultOk (r : SimResult) : Prop :=
  r.streak_clicks = r.clicks ∧ 0 ≤ r.clicks ∧ r.clicks ≤ 5000

/-! ## `ClusterDeck` (`deck.cpp`) -/

/-- Class `ClusterDeck` of deck.h. -/
structure ClusterDeck where
  deck : List Int
  idx : Nat
  rng : Mt19937
  rho : ℚ

/-- Local variables of the loop `for (int i = 0; i < total; ++i)` of the
`ClusterDeck` constructor. -/
structure ClusterState where
  rem_s : Int
  rem_f : Int
  rem_b : Int
  prev_token : Int
  deck : List Int
  rng : Mt19937

/-- One iteration of the loop of the `ClusterDeck` constructor. -/
def cluster_step (bias_mult : ℚ) (st : ClusterState) : ClusterState :=
  let w_s : ℚ :=
    if st.prev_token ≠ -1 ∧ st.prev_token = S then (st.rem_s : ℚ) * bias_mult else (st.rem_s : ℚ)
  let w_f : ℚ :=
    if st.prev_token ≠ -1 ∧ st.prev_token ≠ S ∧ st.prev_token = F then (st.rem_f : ℚ) * bias_mult
    else (st.rem_f : ℚ)
  let w_b : ℚ :=
    if st.prev_token ≠ -1 ∧ st.prev_token ≠ S ∧ st.prev_token ≠ F ∧ st.prev_token = B then
      (st.rem_b : ℚ) * bias_mult
    else (st.rem_b : ℚ)
  let w_total : ℚ := w_s + w_f + w_b
  let u := uniform_real01 st.rng
  let val : ℚ := u.1 * w_total
  if val < w_s then
    { st with rem_s := st.rem_s - 1, deck := st.deck ++ [S], prev_token := S, rng := u.2 }
  else if val < w_s + w_f then
    { st with rem_f := st.rem_f - 1, deck := st.deck ++ [F], prev_token := F, rng := u.2 }
  else
    { st with rem_b := st.rem_b - 1, deck := st.deck ++ [B], prev_token := B, rng := u.2 }

/-- The state after `n` iterations of the loop of the `ClusterDeck` constructor. -/
def cluster_loop (bias_mult : ℚ) : Nat → ClusterState → ClusterState
  | 0, st => st
  | n + 1, st => cluster_loop bias_mult n (cluster_step bias_mult st)

/-- The clamp `if (x < 0) x = 0;` of the `ClusterDeck` constructor. -/
def clamp_count (x : Int) : Int := if x < 0 then 0 else x

/-- The loop state the `ClusterDeck` constructor ends with (the loop runs
`total` times; for `total == 0` the constructor returns before the loop). -/
def cluster_build (gen : Seeder) (s_cnt f_cnt b_cnt : Int) (clumping_factor : ℚ) (seed : Int) :
    ClusterState :=
  let s := clamp_count s_cnt
  let f := clamp_count f_cnt
  let b := clamp_count b_cnt
  let total := s + f + b
  let st0 : ClusterState :=
    { rem_s := s, rem_f := f, rem_b := b, prev_token := -1, deck := [],
      rng := Mt19937.seeded gen seed }
  if total = 0 then st0
  else cluster_loop (1 + clumping_factor * 100) total.toNat st0

/-- Constructor `ClusterDeck::ClusterDeck(s_cnt, f_cnt, b_cnt, clumping_factor, seed)`. -/
def ClusterDeck.new (gen : Seeder) (s_cnt f_cnt b_cnt : Int) (clumping_factor : ℚ)
    (seed : Int) : ClusterDeck :=
  let st := cluster_build gen s_cnt f_cnt b_cnt clumping_factor seed
  { deck := st.deck, idx := 0, rng := st.rng, rho := clumping_factor }

/-- Method `ClusterDeck::draw`. -/
def ClusterDeck.draw (d : ClusterDeck) : Int × ClusterDeck :=
  if d.deck = [] then (F, d)
  else
    let i := if d.idx ≥ d.deck.length then 0 else d.idx
    (d.deck.getD i 0, { d with idx := i + 1 })

/-! ## Vocabulary for the manager and the per-level table -/

/-- Every level that has a deck has an entry in the probability table (decks
are only ever created by `get_deck`, for levels of the table). -/
def ManagerOk (m : RunDeckManager) : Prop :=
  ∀ level, decks_find level m.decks ≠ none → m.prob level ≠ none

/-- Entry `stats[i][j]` of a per-level table. -/
def cell (stats : List (List Int)) (i j : Nat) : Int := (stats.getD i []).getD j 0

/-- The table has ten rows of four entries. -/
def StatsShape (stats : List (List Int)) : Prop :=
  stats.length = 10 ∧ ∀ row ∈ stats, row.length = 4

/-- The sum over the ten level slots of `lvl_stats[i][0] * get_cost_200(12 + i)`. -/
def cost_of_stats (stats : List (List Int)) : Int :=
  ((List.range 10).map (fun i => cell stats i 0 * get_cost_200 (12 + (i : Int)))).sum

/-- The attempts summed over the ten level slots. -/
def attempts_sum (stats : List (List Int)) : Int :=
  ((List.range 10).map (fun i => cell stats i 0)).sum

/-- In every level slot `attempts = successes + fails + booms`. -/
def RowsBalanced (stats : List (List Int)) : Prop :=
  ∀ i, i < 10 → cell stats i 0 = cell stats i 1 + cell stats i 2 + cell stats i 3

/-- Entry `T[i][j]` of a transition matrix. -/
def cellq (T : List (List ℚ)) (i j : Nat) : ℚ := (T.getD i []).getD j 0

/-- The column of the per-level table that a token is counted in. -/
def token_col (token : Int) : Nat := if token = S then 1 else if token = F then 2 else 3

/-- No entry of the table is negative. -/
def CellsNonneg (stats : List (List Int)) : Prop := ∀ i j, 0 ≤ cell stats i j

/-- A per-level table that accounts for a cost and a number `n` of clicks: ten
rows of four non-negative entries, the cost is the attempts weighted by the
level costs, every row is balanced and the attempts sum to `n`. -/
def StatsOk (stats : List (List Int)) (cost n : Int) : Prop :=
  StatsShape stats ∧ CellsNonneg stats ∧ cost = cost_of_stats stats ∧ RowsBalanced stats ∧
  attempts_sum stats = n

/-- What the per-level table of a result satisfies: ten rows of four entries,
the cost is the attempts weighted by the level costs, every row is balanced
and the attempts sum to the clicks. -/
def ResStat (r : SimResult) : Prop :=
  StatsShape r.lvl_stats ∧ r.cost = cost_of_stats r.lvl_stats ∧ RowsBalanced r.lvl_stats ∧
  attempts_sum r.lvl_stats = r.clicks

/-- Invariant of a user of the interleaved loop for the level and the per-level
table: a user still in rotation is at a level `12..21`, has made fewer than 5000
clicks, its table accounts for its clicks and its cost, and it has made at least
one click per level it has climbed. -/
def UserStat (rpu : Int) (u : UserState) : Prop :=
  u.runs_done < rpu →
    12 ≤ u.curr ∧ u.curr ≤ 21 ∧ 0 ≤ u.clicks ∧ u.clicks < 5000 ∧
    StatsOk u.lvl_stats u.cost u.clicks ∧ u.curr - 12 ≤ u.clicks

/-- The states a sequential trial passes through: the state it starts in and,
from a state in which the loop condition holds, the state after the click. -/
inductive TrialReach {σ : Type} (src : Source σ) (st0 : SeqState σ) : SeqState σ → Prop
  | start : TrialReach src st0 st0
  | click (st : SeqState σ) (r : Int × σ) :
      TrialReach src st0 st → (st.curr < 22 ∧ st.clicks_run < 5000) →
      src st.src st.curr st.prev_token = .ok r → TrialReach src st0 (seq_click st r.1 r.2)

/-- The states the interleaved loop passes through: the initial vectors and,
while `active > 0`, the vectors after one more pass over the users. -/
inductive InterReach (gen : Seeder) (rpu : Int) (us0 : List UserState) (sh0 : Shared) :
    List UserState → Shared → Prop
  | start : InterReach gen rpu us0 sh0 us0 sh0
  | pass (us : List UserState) (sh : Shared) :
      InterReach gen rpu us0 sh0 us sh → sh.active > 0 →
      InterReach gen rpu us0 sh0 (inter_pass gen rpu us sh).1 (inter_pass gen rpu us sh).2

/-- The transition rule of the claims: from a level `L` in `12..21` Success
leads to `L + 1`, Boom to 12 and Fail to `L`. -/
def LevelRule : Prop :=
  ∀ L : Int, 12 ≤ L → L ≤ 21 →
    next_level L S = L + 1 ∧ next_level L B = 12 ∧ next_level L F = L

/-- What holds in a state `st` of a sequential trial: the level is in `12..22`
and at most 5000 clicks were made; when the loop condition holds the level is in
`12..21`, the click leads to the level given by `next_level`, which is in
`12..22`, and the loop goes on from the state after the click; the loop
condition fails exactly when the level is 22 or 5000 clicks were made, and then
the loop returns `st`. -/
def TrialStepOk {σ : Type} (src : Source σ) (st : SeqState σ) : Prop :=
  12 ≤ st.curr ∧ st.curr ≤ 22 ∧ 0 ≤ st.clicks_run ∧ st.clicks_run ≤ 5000 ∧
  ((st.curr < 22 ∧ st.clicks_run < 5000) →
    st.curr ≤ 21 ∧
    (∀ tok s1, (seq_click st tok s1).curr = next_level st.curr tok ∧
      12 ≤ (seq_click st tok s1).curr ∧ (seq_click st tok s1).curr ≤ 22 ∧
      (seq_click st tok s1).clicks_run = st.clicks_run + 1) ∧
    (∀ fuel r, src st.src st.curr st.prev_token = .ok r →
      trial_loop src (fuel + 1) st = trial_loop src fuel (seq_click st r.1 r.2))) ∧
  (¬ (st.curr < 22 ∧ st.clicks_run < 5000) ↔ (st.curr = 22 ∨ st.clicks_run = 5000)) ∧
  ((st.curr = 22 ∨ st.clicks_run = 5000) → ∀ fuel, trial_loop src fuel st = .ok st)

/-- What holds for a user `u` of the interleaved loop that is still in rotation:
its level is in `12..21` and it made fewer than 5000 clicks; its click leads to
the level given by `next_level`, which is in `12..22`; and its turn pushes a
result exactly when after the click the level is 22 or 5000 clicks were made. -/
def UserStepOk (gen : Seeder) (rpu : Int) (u : UserState) : Prop :=
  12 ≤ u.curr ∧ u.curr ≤ 21 ∧ 0 ≤ u.clicks ∧ u.clicks < 5000 ∧
  (∀ tok, (user_click u tok).curr = next_level u.curr tok ∧
    12 ≤ (user_click u tok).curr ∧ (user_click u tok).curr ≤ 22 ∧
    (user_click u tok).clicks = u.clicks + 1) ∧
  ∀ sh : Shared,
    (inter_user gen rpu u sh).2.all_results =
      if (user_click u (RunDeckManager.draw gen sh.manager u.curr).1).curr = 22 ∨
          (user_click u (RunDeckManager.draw gen sh.manager u.curr).1).clicks = 5000 then
        sh.all_results ++
          [(user_finish rpu (user_click u (RunDeckManager.draw gen sh.manager u.curr).1)).1]
      else sh.all_results

/-- The sum of `draws` over the decks, the first component of `stats()`. -/
def draws_sum (decks : List (Int × RunDeck)) : Int := (decks.map (fun kv => kv.2.draws)).sum

/-- The sum of `clicks` over a list of results. -/
def clicks_sum (rs : List SimResult) : Int := (rs.map (fun r => r.clicks)).sum

/-- The number of clicks a list of results accounts for: the sum of
`Σ |streaks| + Σ b_streaks` over the results. -/
def streak_sum (rs : List SimResult) : Int := (rs.map (fun r => r.streak_clicks)).sum

/-- The probability table has an entry for every level `12..21`. -/
def TableComplete (prob : ProbTable) : Prop :=
  ∀ level : Int, 12 ≤ level → level ≤ 21 → prob level ≠ none

/-- Every deck that a manager with table `prob` and configuration `config` builds
for a level `12..21` has a non-empty run sequence. -/
def DecksNonEmpty (gen : Seeder) (prob : ProbTable) (config : RunDeckConfig) : Prop :=
  ∀ (rng : Mt19937) (roc : Bool) (level : Int) (d : RunDeck), 12 ≤ level → level ≤ 21 →
    (RunDeckManager.get_deck gen
      { prob := prob, config := config, rng := rng, decks := [], randomize_on_create := roc }
      level).1 = some d →
    d.sequence ≠ []

/-- The map `decks` in key order, without a repeated key. -/
def DecksSorted (decks : List (Int × RunDeck)) : Prop := decks.Pairwise (fun a b => a.1 < b.1)

/-- Invariant of the manager of a run: table and configuration are the ones it
was created with, and every deck it holds is non-empty. -/
def ManagerInv (prob : ProbTable) (config : RunDeckConfig) (m : RunDeckManager) : Prop :=
  m.prob = prob ∧ m.config = config ∧ DecksSorted m.decks ∧ ∀ kv ∈ m.decks, kv.2.sequence ≠ []

/-- The clicks of the trial in progress of a user still in rotation. -/
def act_clicks (rpu : Int) (u : UserState) : Int := if u.runs_done < rpu then u.clicks else 0

/-- The clicks of the trials in progress of all users. -/
def act_sum (rpu : Int) (us : List UserState) : Int := (us.map (act_clicks rpu)).sum

/-- A table with an entry for every level except 12. -/
def table_without_12 : ProbTable := fun l => if l = 12 then none else some (1 / 2, 1 / 4, 1 / 4)

/-- A table with the same triple for every level. -/
def table_all_success : ProbTable := fun _ => some (1, 0, 0)

/-- A manager over `table_all_success` with chunks of ten tokens whose decks hold
runs of type `S` only. -/
def AllSuccess (m : RunDeckManager) : Prop :=
  m.prob = table_all_success ∧ m.config = { chunk_size := 10 } ∧
  ∀ kv ∈ m.decks, ∀ p ∈ kv.2.sequence, p.1 = S

/-- In a block, two consecutive runs of one type are followed by runs of that
type only: the second of them was chosen when no other type had runs left. -/
def NoCluster (seq : List (Int × Int)) : Prop :=
  ∀ (l1 : List (Int × Int)) (p q : Int × Int) (l2 : List (Int × Int)),
    seq = l1 ++ p :: q :: l2 → p.1 = q.1 → ∀ r ∈ l2, r.1 = q.1

/-- Invariant of the interleaving loop: `prev_type` is the type of the run
appended last (`-1` before the first run). -/
def LastInv (st : BlockState) : Prop :=
  (st.prev_type = -1 ∧ st.all_runs = []) ∨
    ∃ (l : List (Int × Int)) (p : Int × Int), st.all_runs = l ++ [p] ∧ p.1 = st.prev_type

/-- Invariant of the interleaving loop in anti-cluster mode: after two
consecutive runs of one type, all later runs are of that type and no other type
is a candidate any more. -/
def ClusterInv (s_runs f_runs b_runs : List Int) (st : BlockState) : Prop :=
  ∀ (l1 : List (Int × Int)) (p q : Int × Int) (l2 : List (Int × Int)),
    st.all_runs = l1 ++ p :: q :: l2 → p.1 = q.1 →
      (∀ r ∈ l2, r.1 = q.1) ∧ ∀ c ∈ block_candidates s_runs f_runs b_runs st, c = q.1

/-- A probability table with an entry for level 12 only. -/
def table_level12 : ProbTable := fun l => if l = 12 then some (1 / 2, 1 / 4, 1 / 4) else none

/-- A fresh manager over `table_level12` with chunks of ten tokens. -/
def manager_level12 : RunDeckManager :=
  RunDeckManager.new (fun _ _ => 0) table_level12 { chunk_size := 10 } 42

theorem uniform_int_ge (lo hi : Int) (g : Mt19937) : lo ≤ (uniform_int lo hi g).1 := by
  unfold uniform_int
  simp only
  omega

theorem uniform_int_le (lo hi : Int) (g : Mt19937) (h : lo ≤ hi) :
    (uniform_int lo hi g).1 ≤ hi := by
  unfold uniform_int
  simp only
  have hpos : 0 < (hi - lo + 1).toNat := by omega
  have := Nat.mod_lt (g.out g.pos) hpos
  omega

theorem uniform_real01_nonneg (g : Mt19937) : 0 ≤ (uniform_real01 g).1 := by
  unfold uniform_real01
  simp only
  positivity

theorem uniform_real01_lt_one (g : Mt19937) : (uniform_real01 g).1 < 1 := by
  unfold uniform_real01
  simp only
  rw [div_lt_one (by positivity)]
  exact_mod_cast Nat.mod_lt _ (Nat.succ_pos _)

theorem shuffle_aux_perm {α : Type} (l acc : List α) (g : Mt19937) :
    (shuffle_aux l acc g).1.Perm (l ++ acc) := by
  induction l generalizing acc g with
  | nil => simp [shuffle_aux]
  | cons x xs ih =>
    simp only [shuffle_aux]
    refine (ih _ _).trans ?_
    have hk : (uniform_int 0 (acc.length : Int) g).1.toNat ≤ acc.length := by
      have := uniform_int_le 0 (acc.length : Int) g (by omega)
      omega
    have hp := List.perm_insertIdx x acc hk
    exact (List.Perm.append_left xs hp).trans List.perm_middle

theorem shuffle_perm {α : Type} (l : List α) (g : Mt19937) : (shuffle l g).1.Perm l := by
  simpa [shuffle] using shuffle_aux_perm l [] g

/-! ## `_sample_run_lengths`: lengths are positive and sum to the count -/

theorem geometric_nonneg (p : ℚ) (g : Mt19937) : 0 ≤ (geometric p g).1 := by
  unfold geometric
  simp

theorem sample_len_pos (cfg : RunDeckConfig) (mean_used tail_used : ℚ) (cap_used : Int)
    (g1 : Mt19937) : 1 ≤ (sample_len cfg mean_used tail_used cap_used g1).1 := by
  have hg := fun p g => geometric_nonneg p g
  have hu := fun lo hi g => uniform_int_ge lo hi g
  unfold sample_len
  simp only []
  repeat' split
  all_goals try simp only []
  all_goals first
    | omega
    | (have hh := hg (1 / mean_used) g1; omega)
    | (have hh := hg (1 / mean_used) (uniform_real01 g1).2; omega)
    | (have hh := hu (max 2 (cint (ctrunc (mean_used * 2))))
        (min (max (max 2 (cint (ctrunc (mean_used * 2)))) (cint (ctrunc (mean_used * 4))))
          cap_used)
        (uniform_real01 g1).2
       omega)
    | (have hh := hu (max 2 (cint (ctrunc (mean_used * 2))))
        (max (max 2 (cint (ctrunc (mean_used * 2)))) (cint (ctrunc (mean_used * 4))))
        (uniform_real01 g1).2
       omega)

theorem sample_step_bounds (cfg : RunDeckConfig) (mean_len tail_strength : ℚ)
    (cap remaining : Int) (g : Mt19937) (h : 1 ≤ remaining) :
    1 ≤ (sample_step cfg mean_len tail_strength cap remaining g).1 ∧
      (sample_step cfg mean_len tail_strength cap remaining g).1 ≤ remaining := by
  unfold sample_step
  simp only []
  generalize hr : sample_len cfg _ _ _ _ = r
  have h0 : 1 ≤ r.1 := hr ▸ sample_len_pos _ _ _ _ _
  split_ifs <;> omega

/-- The loop appends to `runs` positive lengths whose sum is `remaining`. -/
theorem sample_loop_spec (cfg : RunDeckConfig) (mean_len tail_strength : ℚ) (cap : Int)
    (fuel : Nat) (remaining : Int) (runs : List Int) (g : Mt19937)
    (h0 : 0 ≤ remaining) (hf : remaining ≤ fuel) :
    ∃ new : List Int,
      (sample_loop cfg mean_len tail_strength cap fuel remaining runs g).1 = runs ++ new ∧
      (∀ x ∈ new, 1 ≤ x) ∧ new.sum = remaining := by
  induction fuel generalizing remaining runs g with
  | zero =>
    refine ⟨[], ?_, ?_, ?_⟩
    · simp [sample_loop]
    · simp
    · simp at hf ⊢
      omega
  | succ n ih =>
    unfold sample_loop
    split_ifs with hr
    · have hb := sample_step_bounds cfg mean_len tail_strength cap remaining g (by omega)
      obtain ⟨new, h1, h2, h3⟩ := ih
        (remaining - (sample_step cfg mean_len tail_strength cap remaining g).1)
        (runs ++ [(sample_step cfg mean_len tail_strength cap remaining g).1])
        (sample_step cfg mean_len tail_strength cap remaining g).2 (by omega)
        (by push_cast at hf ⊢; omega)
      refine ⟨(sample_step cfg mean_len tail_strength cap remaining g).1 :: new, ?_, ?_, ?_⟩
      · simp only [h1, List.append_assoc, List.singleton_append]
      · intro x hx
        rcases List.mem_cons.1 hx with rfl | hx
        · exact hb.1
        · exact h2 x hx
      · simp [h3]
    · refine ⟨[], by simp, by simp, ?_⟩
      simp
      omega

theorem sample_run_lengths_pos (cfg : RunDeckConfig) (count : Int) (mean_len tail_strength : ℚ)
    (cap : Int) (g : Mt19937) :
    ∀ x ∈ (_sample_run_lengths cfg count mean_len tail_strength cap g).1, 1 ≤ x := by
  unfold _sample_run_lengths
  split_ifs with hc
  · simp
  · obtain ⟨new, h1, h2, _⟩ := sample_loop_spec cfg mean_len tail_strength cap count.toNat count []
      g (by omega) (by omega)
    intro x hx
    have hp := (shuffle_perm _ _).mem_iff.1 hx
    rw [h1] at hp
    exact h2 x (by simpa using hp)

theorem sample_run_lengths_sum (cfg : RunDeckConfig) (count : Int) (mean_len tail_strength : ℚ)
    (cap : Int) (g : Mt19937) :
    (_sample_run_lengths cfg count mean_len tail_strength cap g).1.sum = max 0 count := by
  unfold _sample_run_lengths
  split_ifs with hc
  · simp
    omega
  · obtain ⟨new, h1, _, h3⟩ := sample_loop_spec cfg mean_len tail_strength cap count.toNat count []
      g (by omega) (by omega)
    rw [(shuffle_perm _ _).sum_eq, h1]
    simp [h3]
    omega


/-! ## `_build_block_runs`: every pre-sampled run is placed exactly once -/

theorem pick_weighted_mem (cs : List Int) (ws : List ℚ) (r acc : ℚ) :
    pick_weighted cs ws r acc ∈ cs ∨ pick_weighted cs ws r acc = -1 := by
  induction cs generalizing ws acc with
  | nil => right; simp [pick_weighted]
  | cons c cs ih =>
    cases ws with
    | nil => right; simp [pick_weighted]
    | cons w ws =>
      simp only [pick_weighted]
      split_ifs
      · left; simp
      · rcases ih ws (acc + w) with h | h
        · left; exact List.mem_cons_of_mem _ h
        · right; exact h

theorem getLastD_mem (cs : List Int) (d : Int) (h : cs ≠ []) : cs.getLastD d ∈ cs := by
  cases cs with
  | nil => exact absurd rfl h
  | cons c cs =>
    rw [List.getLastD_cons, ← List.getLast_eq_getLastD c cs (List.cons_ne_nil c cs)]
    exact List.getLast_mem _

theorem block_choose_mem (cands : List Int) (st : BlockState) (h : cands ≠ []) :
    (block_choose cands st).1 ∈ cands := by
  unfold block_choose
  simp only []
  split_ifs with h1 h2
  · have hlen : 0 < cands.length := List.length_pos.2 h
    have hge := uniform_int_ge 0 ((cands.length : Int) - 1) st.rng
    have hle := uniform_int_le 0 ((cands.length : Int) - 1) st.rng (by omega)
    have hlt : (uniform_int 0 ((cands.length : Int) - 1) st.rng).1.toNat < cands.length := by omega
    rw [List.getD_eq_getElem _ _ hlt]
    exact List.getElem_mem _
  · exact getLastD_mem _ _ h
  · rcases pick_weighted_mem cands
      (cands.map (fun t => (((if t = S then st.r_s else if t = F then st.r_f else st.r_b) : Int) : ℚ)))
      ((uniform_real01 st.rng).1 * (cands.map (fun t => (((if t = S then st.r_s else if t = F then st.r_f else st.r_b) : Int) : ℚ))).sum) 0 with hm | hm
    · exact hm
    · exact absurd hm h2

theorem block_candidates_typed (s_runs f_runs b_runs : List Int) (st : BlockState) :
    ∀ t ∈ block_candidates s_runs f_runs b_runs st, t = S ∨ t = F ∨ t = B := by
  intro t ht
  unfold block_candidates at ht
  simp only [List.mem_append] at ht
  rcases ht with (ht | ht) | ht <;> split_ifs at ht <;> simp at ht <;> simp [ht]

theorem block_candidates_S (s_runs f_runs b_runs : List Int) (st : BlockState)
    (h : S ∈ block_candidates s_runs f_runs b_runs st) : st.idx_s < s_runs.length := by
  unfold block_candidates at h
  simp only [List.mem_append] at h
  rcases h with (h | h) | h <;> split_ifs at h <;> simp at h <;> assumption

theorem block_candidates_F (s_runs f_runs b_runs : List Int) (st : BlockState)
    (h : F ∈ block_candidates s_runs f_runs b_runs st) : st.idx_f < f_runs.length := by
  unfold block_candidates at h
  simp only [List.mem_append] at h
  rcases h with (h | h) | h <;> split_ifs at h <;> simp at h <;> assumption

theorem block_candidates_B (s_runs f_runs b_runs : List Int) (st : BlockState)
    (h : B ∈ block_candidates s_runs f_runs b_runs st) : st.idx_b < b_runs.length := by
  unfold block_candidates at h
  simp only [List.mem_append] at h
  rcases h with (h | h) | h <;> split_ifs at h <;> simp at h <;> assumption

theorem block_candidates_nil (s_runs f_runs b_runs : List Int) (st : BlockState) :
    block_candidates s_runs f_runs b_runs st = [] ↔
      ¬ st.idx_s < s_runs.length ∧ ¬ st.idx_f < f_runs.length ∧ ¬ st.idx_b < b_runs.length := by
  unfold block_candidates
  split_ifs <;> simp_all

/-- The candidate list after the anti-cluster filter is a non-empty sublist. -/
theorem block_filter_ok (cfg : RunDeckConfig) (c0 : List Int) (prev_type : Int) (h : c0 ≠ []) :
    block_filter cfg prev_type c0 ≠ [] ∧ block_filter cfg prev_type c0 ⊆ c0 := by
  unfold block_filter
  split_ifs with hc
  · refine ⟨?_, List.erase_subset _ _⟩
    intro he
    have hl := List.length_erase prev_type c0
    rw [he] at hl
    simp only [List.length_nil] at hl
    split_ifs at hl <;> omega
  · exact ⟨h, fun _ hx => hx⟩

theorem take_succ_getD (l : List Int) (n : Nat) (d : Int) (h : n < l.length) :
    l.take (n + 1) = l.take n ++ [l.getD n d] := by
  rw [List.take_succ, List.getD_eq_getElem _ _ h, List.getElem?_eq_getElem h]
  rfl

theorem runs_of_append_single (t c len : Int) (l : List (Int × Int)) :
    runs_of t (l ++ [(c, len)]) = runs_of t l ++ (if c = t then [len] else []) := by
  unfold runs_of
  by_cases h : c = t <;> simp [List.filter_append, List.filter_cons, h]

theorem block_step_none (cfg : RunDeckConfig) (s_runs f_runs b_runs : List Int)
    (st : BlockState) (h : block_step cfg s_runs f_runs b_runs st = none) :
    block_rem s_runs f_runs b_runs st = 0 := by
  unfold block_step at h
  simp only [] at h
  split_ifs at h with hc
  have := (block_candidates_nil s_runs f_runs b_runs st).1 hc
  unfold block_rem
  omega

theorem block_step_some (cfg : RunDeckConfig) (s_runs f_runs b_runs : List Int)
    (st st1 : BlockState) (hinv : BlockInv s_runs f_runs b_runs st)
    (h : block_step cfg s_runs f_runs b_runs st = some st1) :
    BlockInv s_runs f_runs b_runs st1 ∧
      block_rem s_runs f_runs b_runs st1 + 1 = block_rem s_runs f_runs b_runs st := by
  obtain ⟨is, iF, ib, hs, hf, hb, hty⟩ := hinv
  unfold block_step at h
  simp only [] at h
  by_cases hc : block_candidates s_runs f_runs b_runs st = []
  · simp [hc] at h
  rw [if_neg hc] at h
  have hflt := block_filter_ok cfg _ st.prev_type hc
  have hmem := hflt.2 (block_choose_mem _ st hflt.1)
  generalize block_choose (block_filter cfg st.prev_type
    (block_candidates s_runs f_runs b_runs st)) st = ch at h hmem
  split_ifs at h with hS hF
  · -- chosen = S
    rw [hS] at hmem
    have hlt := block_candidates_S _ _ _ _ hmem
    have h1 := Option.some.inj h
    subst h1
    refine ⟨⟨by simp only []; omega, iF, ib, ?_, ?_, ?_, ?_⟩, ?_⟩
    · simp only [hS, runs_of_append_single, hs, if_true, take_succ_getD _ _ 0 hlt]
    · simp only [hS, runs_of_append_single, hf]; simp
    · simp only [hS, runs_of_append_single, hb]; simp
    · intro p hp
      simp only [List.mem_append, List.mem_singleton] at hp
      rcases hp with hp | hp
      · exact hty p hp
      · left; rw [hp]; exact hS
    · unfold block_rem; simp only []; omega
  · -- chosen = F
    rw [hF] at hmem
    have hlt := block_candidates_F _ _ _ _ hmem
    have h1 := Option.some.inj h
    subst h1
    refine ⟨⟨is, by simp only []; omega, ib, ?_, ?_, ?_, ?_⟩, ?_⟩
    · simp only [hF, runs_of_append_single, hs]; simp
    · simp only [hF, runs_of_append_single, hf, if_true, take_succ_getD _ _ 0 hlt]
    · simp only [hF, runs_of_append_single, hb]; simp
    · intro p hp
      simp only [List.mem_append, List.mem_singleton] at hp
      rcases hp with hp | hp
      · exact hty p hp
      · right; left; rw [hp]; exact hF
    · unfold block_rem; simp only []; omega
  · -- chosen = B
    have hB : ch.1 = B := by
      rcases block_candidates_typed _ _ _ _ _ hmem with h1 | h1 | h1
      · exact absurd h1 hS
      · exact absurd h1 hF
      · exact h1
    rw [hB] at hmem
    have hlt := block_candidates_B _ _ _ _ hmem
    have h1 := Option.some.inj h
    subst h1
    refine ⟨⟨is, iF, by simp only []; omega, ?_, ?_, ?_, ?_⟩, ?_⟩
    · simp only [hB, runs_of_append_single, hs]; simp
    · simp only [hB, runs_of_append_single, hf]; simp
    · simp only [hB, runs_of_append_single, hb, if_true, take_succ_getD _ _ 0 hlt]
    · intro p hp
      simp only [List.mem_append, List.mem_singleton] at hp
      rcases hp with hp | hp
      · exact hty p hp
      · right; right; rw [hp]; exact hB
    · unfold block_rem; simp only []; omega

theorem block_loop_spec (cfg : RunDeckConfig) (s_runs f_runs b_runs : List Int) (n : Nat)
    (st : BlockState) (hinv : BlockInv s_runs f_runs b_runs st)
    (hn : block_rem s_runs f_runs b_runs st ≤ n) :
    BlockInv s_runs f_runs b_runs (block_loop cfg s_runs f_runs b_runs n st) ∧
      block_rem s_runs f_runs b_runs (block_loop cfg s_runs f_runs b_runs n st) = 0 := by
  induction n generalizing st with
  | zero => exact ⟨hinv, by simpa [block_loop] using hn⟩
  | succ n ih =>
    unfold block_loop
    cases hstep : block_step cfg s_runs f_runs b_runs st with
    | none => exact ⟨hinv, block_step_none _ _ _ _ _ hstep⟩
    | some st1 =>
      obtain ⟨h1, h2⟩ := block_step_some _ _ _ _ _ _ hinv hstep
      exact ih st1 h1 (by omega)

theorem build_block_runs_spec (cfg : RunDeckConfig) (s f b : Int) (cs cf cb ts tf tb : ℚ)
    (caps capf capb : Int) (g : Mt19937) :
    ∃ s_runs f_runs b_runs : List Int,
      (∀ x ∈ s_runs, 1 ≤ x) ∧ (∀ x ∈ f_runs, 1 ≤ x) ∧ (∀ x ∈ b_runs, 1 ≤ x) ∧
      s_runs.sum = max 0 s ∧ f_runs.sum = max 0 f ∧ b_runs.sum = max 0 b ∧
      runs_of S (_build_block_runs cfg s f b cs cf cb ts tf tb caps capf capb g).1 = s_runs ∧
      runs_of F (_build_block_runs cfg s f b cs cf cb ts tf tb caps capf capb g).1 = f_runs ∧
      runs_of B (_build_block_runs cfg s f b cs cf cb ts tf tb caps capf capb g).1 = b_runs ∧
      RunsTyped (_build_block_runs cfg s f b cs cf cb ts tf tb caps capf capb g).1 := by
  unfold _build_block_runs
  simp only []
  generalize hrs : _sample_run_lengths cfg s cs ts caps g = rs
  generalize hrf : _sample_run_lengths cfg f cf tf capf rs.2 = rf
  generalize hrb : _sample_run_lengths cfg b cb tb capb rf.2 = rb
  have hinv0 : BlockInv rs.1 rf.1 rb.1
      { r_s := s, r_f := f, r_b := b, idx_s := 0, idx_f := 0, idx_b := 0,
        prev_type := -1, all_runs := [], rng := rb.2 } := by
    refine ⟨Nat.zero_le _, Nat.zero_le _, Nat.zero_le _, ?_, ?_, ?_, ?_⟩ <;>
      simp [runs_of, RunsTyped]
  obtain ⟨⟨i1, i2, i3, h1, h2, h3, h4⟩, hrem⟩ := block_loop_spec cfg rs.1 rf.1 rb.1
    (rs.1.length + rf.1.length + rb.1.length) _ hinv0 (by unfold block_rem; simp only []; omega)
  unfold block_rem at hrem
  refine ⟨rs.1, rf.1, rb.1, ?_, ?_, ?_, ?_, ?_, ?_, ?_, ?_, ?_, h4⟩
  · rw [← hrs]; exact sample_run_lengths_pos _ _ _ _ _ _
  · rw [← hrf]; exact sample_run_lengths_pos _ _ _ _ _ _
  · rw [← hrb]; exact sample_run_lengths_pos _ _ _ _ _ _
  · rw [← hrs]; exact sample_run_lengths_sum _ _ _ _ _ _
  · rw [← hrf]; exact sample_run_lengths_sum _ _ _ _ _ _
  · rw [← hrb]; exact sample_run_lengths_sum _ _ _ _ _ _
  · rw [h1, List.take_of_length_le (by omega)]
  · rw [h2, List.take_of_length_le (by omega)]
  · rw [h3, List.take_of_length_le (by omega)]

theorem type_sum_eq_runs_of (t : Int) (seq : List (Int × Int)) :
    type_sum t seq = (runs_of t seq).sum := rfl

theorem runs_pos_of_runs_of (seq : List (Int × Int)) (hty : RunsTyped seq)
    (hs : ∀ x ∈ runs_of S seq, 1 ≤ x) (hf : ∀ x ∈ runs_of F seq, 1 ≤ x)
    (hb : ∀ x ∈ runs_of B seq, 1 ≤ x) : RunsPos seq := by
  intro p hp
  have key : ∀ t, p.1 = t → p.2 ∈ runs_of t seq := by
    intro t ht
    unfold runs_of
    exact List.mem_map.2 ⟨p, List.mem_filter.2 ⟨hp, by simpa using ht⟩, rfl⟩
  rcases hty p hp with h | h | h
  · exact hs _ (key S h)
  · exact hf _ (key F h)
  · exact hb _ (key B h)

theorem build_block_pos (cfg : RunDeckConfig) (s f b : Int) (g : Mt19937) :
    RunsPos (build_block cfg s f b g).1 ∧ RunsTyped (build_block cfg s f b g).1 := by
  unfold build_block
  obtain ⟨sr, fr, br, p1, p2, p3, _, _, _, e1, e2, e3, hty⟩ :=
    build_block_runs_spec cfg s f b cfg.corr_length_s cfg.corr_length_f cfg.corr_length_b
      cfg.tail_strength_s cfg.tail_strength_f cfg.tail_strength_b cfg.cap_s cfg.cap_f cfg.cap_b g
  exact ⟨runs_pos_of_runs_of _ hty (e1 ▸ p1) (e2 ▸ p2) (e3 ▸ p3), hty⟩

theorem build_block_type_sum (cfg : RunDeckConfig) (s f b : Int) (g : Mt19937) :
    type_sum S (build_block cfg s f b g).1 = max 0 s ∧
    type_sum F (build_block cfg s f b g).1 = max 0 f ∧
    type_sum B (build_block cfg s f b g).1 = max 0 b := by
  unfold build_block
  obtain ⟨sr, fr, br, _, _, _, s1, s2, s3, e1, e2, e3, _⟩ :=
    build_block_runs_spec cfg s f b cfg.corr_length_s cfg.corr_length_f cfg.corr_length_b
      cfg.tail_strength_s cfg.tail_strength_f cfg.tail_strength_b cfg.cap_s cfg.cap_f cfg.cap_b g
  simp only [type_sum_eq_runs_of, e1, e2, e3, s1, s2, s3, and_self]

/-! ## The flattened sequence -/

theorem expand_length (seq : List (Int × Int)) (h : RunsPos seq) :
    ((expand seq).length : Int) = (seq.map Prod.snd).sum := by
  induction seq with
  | nil => simp [expand]
  | cons p t ih =>
    have hp : 1 ≤ p.2 := h p (List.mem_cons_self _ _)
    have ht : RunsPos t := fun q hq => h q (List.mem_cons_of_mem _ hq)
    simp only [expand, List.length_append, List.length_replicate, List.map_cons, List.sum_cons,
      Nat.cast_add, ih ht]
    omega

theorem map_snd_sum_eq (seq : List (Int × Int)) (h : RunsTyped seq) :
    (seq.map Prod.snd).sum = type_sum S seq + type_sum F seq + type_sum B seq := by
  induction seq with
  | nil => simp [type_sum]
  | cons p r ih =>
    have hr : RunsTyped r := fun q hq => h q (List.mem_cons_of_mem _ hq)
    have ih1 := ih hr
    unfold type_sum at ih1 ⊢
    simp only [List.map_cons, List.sum_cons, ih1, List.filter_cons]
    rcases h p (List.mem_cons_self _ _) with hp | hp | hp <;> simp [hp] <;> ring

theorem expand_ne_nil (seq : List (Int × Int)) (h : RunsPos seq) (hne : seq ≠ []) :
    expand seq ≠ [] := by
  cases seq with
  | nil => exact absurd rfl hne
  | cons p t =>
    have hp : 1 ≤ p.2 := h p (List.mem_cons_self _ _)
    intro he
    have := congrArg List.length he
    simp [expand] at this
    omega

/-! ## `RunDeck::draw` without wrap -/

theorem rest_tokens_zero (seq : List (Int × Int)) : rest_tokens seq 0 0 = expand seq := by
  unfold rest_tokens
  cases seq <;> simp [expand]

theorem rest_tokens_end (seq : List (Int × Int)) (idx : Nat) (offset : Int)
    (h : seq.length ≤ idx) : rest_tokens seq idx offset = [] := by
  unfold rest_tokens
  rw [List.drop_eq_nil_of_le h]

theorem rest_tokens_next (seq : List (Int × Int)) (idx : Nat) :
    rest_tokens seq (idx + 1) 0 = expand (seq.drop (idx + 1)) := by
  unfold rest_tokens
  cases seq.drop (idx + 1) <;> simp [expand]

theorem rest_tokens_lt (seq : List (Int × Int)) (idx : Nat) (offset : Int)
    (h : idx < seq.length) :
    rest_tokens seq idx offset =
      List.replicate ((seq.getD idx (0, 0)).2 - offset).toNat (seq.getD idx (0, 0)).1 ++
        expand (seq.drop (idx + 1)) := by
  unfold rest_tokens
  rw [List.drop_eq_getElem_cons h, List.getD_eq_getElem _ _ h]

theorem wrap_of_lt (d : RunDeck) (h : d.idx < d.sequence.length) : RunDeck.wrap d = d := by
  unfold RunDeck.wrap
  rw [if_neg (by omega)]

/-- One call of `draw` at a cursor inside the sequence: the token is the head of
the remaining tokens, the cursor stays valid and no wrap is counted. -/
theorem draw_step (d : RunDeck) (hpos : RunsPos d.sequence) (hc : CursorOk d)
    (hlt : d.idx < d.sequence.length) :
    d.rest = (RunDeck.draw d).1 :: (RunDeck.draw d).2.rest ∧ CursorOk (RunDeck.draw d).2 ∧
      (RunDeck.draw d).2.sequence = d.sequence ∧ (RunDeck.draw d).2.wraps = d.wraps ∧
      (RunDeck.draw d).2.config = d.config ∧ (RunDeck.draw d).2.prefix_sum = d.prefix_sum ∧
      (RunDeck.draw d).2.total_len = d.total_len ∧ (RunDeck.draw d).2.draws = d.draws + 1 := by
  have hne : d.sequence ≠ [] := by
    intro h; rw [h] at hlt; simp at hlt
  obtain ⟨h1, h2, h3⟩ := hc
  obtain ⟨ho0, ho1⟩ := h2 hlt
  unfold RunDeck.draw
  rw [if_neg hne]
  simp only [wrap_of_lt d hlt]
  have hrest := rest_tokens_lt d.sequence d.idx d.offset hlt
  generalize hp : d.sequence.getD d.idx (0, 0) = p at ho1 hrest
  split_ifs with hge
  · -- the run is finished
    have hone : (p.2 - d.offset).toNat = 1 := by omega
    refine ⟨?_, ⟨?_, ?_, ?_⟩, rfl, rfl, rfl, rfl, rfl, rfl⟩
    · show rest_tokens d.sequence d.idx d.offset = p.1 :: rest_tokens d.sequence (d.idx + 1) 0
      rw [hrest, hone, rest_tokens_next]
      rfl
    · show d.idx + 1 ≤ d.sequence.length
      omega
    · intro hlt2
      show (0 : Int) ≤ 0 ∧ (0 : Int) < (d.sequence.getD (d.idx + 1) (0, 0)).2
      have hlt3 : d.idx + 1 < d.sequence.length := hlt2
      have := hpos _ (List.getElem_mem hlt3)
      rw [List.getD_eq_getElem _ _ hlt3]
      omega
    · intro _
      rfl
  · -- the run goes on
    have hsucc : (p.2 - d.offset).toNat = (p.2 - (d.offset + 1)).toNat + 1 := by omega
    refine ⟨?_, ⟨?_, ?_, ?_⟩, rfl, rfl, rfl, rfl, rfl, rfl⟩
    · show rest_tokens d.sequence d.idx d.offset = p.1 :: rest_tokens d.sequence d.idx (d.offset + 1)
      rw [hrest, rest_tokens_lt d.sequence d.idx (d.offset + 1) hlt, hp, hsucc]
      rfl
    · exact h1
    · intro _
      show 0 ≤ d.offset + 1 ∧ d.offset + 1 < (d.sequence.getD d.idx (0, 0)).2
      rw [hp]
      omega
    · intro hn
      exact absurd hlt hn

theorem rest_ne_nil_of_lt (d : RunDeck) (hc : CursorOk d) (hlt : d.idx < d.sequence.length) :
    d.rest ≠ [] := by
  obtain ⟨_, h2, _⟩ := hc
  obtain ⟨_, ho1⟩ := h2 hlt
  unfold RunDeck.rest
  rw [rest_tokens_lt _ _ _ hlt]
  intro he
  have := congrArg List.length he
  simp only [List.length_append, List.length_replicate, List.length_nil] at this
  omega

theorem new_fields (gen : Seeder) (s f b : Int) (cfg : RunDeckConfig) (seed : Int) :
    (RunDeck.new gen s f b cfg seed).sequence =
        (build_sequence cfg s f b (Mt19937.seeded gen seed)).1 ∧
      (RunDeck.new gen s f b cfg seed).idx = 0 ∧ (RunDeck.new gen s f b cfg seed).offset = 0 ∧
      (RunDeck.new gen s f b cfg seed).wraps = 0 ∧ (RunDeck.new gen s f b cfg seed).config = cfg ∧
      (RunDeck.new gen s f b cfg seed).draws = 0 ∧ (RunDeck.new gen s f b cfg seed).builds = 1 ∧
      (RunDeck.new gen s f b cfg seed).Built :=
  ⟨rfl, rfl, rfl, rfl, rfl, rfl, rfl, rfl, rfl⟩

theorem cursor_ok_start (d : RunDeck) (hpos : RunsPos d.sequence) (hi : d.idx = 0)
    (ho : d.offset = 0) : CursorOk d := by
  refine ⟨by omega, ?_, ?_⟩
  · intro hlt
    rw [hi] at hlt
    have := hpos _ (List.getElem_mem hlt)
    rw [hi, ho, List.getD_eq_getElem _ _ hlt]
    omega
  · intro _; exact ho

theorem build_sequence_unsegmented (cfg : RunDeckConfig) (s f b : Int) (g : Mt19937)
    (hseg : cfg.box_size ≤ 0 ∨ cfg.box_size ≥ s + f + b) :
    build_sequence cfg s f b g = build_block cfg s f b g := by
  unfold build_sequence
  simp only []
  rw [if_pos hseg]

theorem before_zero (seq : List (Int × Int)) : before seq 0 = 0 := by
  simp [before]

theorem before_cons_succ (p : Int × Int) (t : List (Int × Int)) (i : Nat) :
    before (p :: t) (i + 1) = p.2 + before t i := by
  simp [before]

/-- The search of `jump_random` in the prefix sums finds the run that owns `pos`. -/
theorem prefix_search (seq : List (Int × Int)) (acc pos : Int) (hpos : RunsPos seq)
    (h1 : acc ≤ pos) (h2 : pos < acc + (seq.map Prod.snd).sum) :
    (prefix_sums seq acc).findIdx (fun x => decide (pos < x)) < seq.length ∧
    acc + before seq ((prefix_sums seq acc).findIdx (fun x => decide (pos < x))) ≤ pos ∧
    pos < acc + before seq ((prefix_sums seq acc).findIdx (fun x => decide (pos < x))) +
      (seq.getD ((prefix_sums seq acc).findIdx (fun x => decide (pos < x))) (0, 0)).2 ∧
    (0 < (prefix_sums seq acc).findIdx (fun x => decide (pos < x)) →
      (prefix_sums seq acc).getD
        ((prefix_sums seq acc).findIdx (fun x => decide (pos < x)) - 1) 0 =
      acc + before seq ((prefix_sums seq acc).findIdx (fun x => decide (pos < x)))) := by
  induction seq generalizing acc with
  | nil =>
    simp at h2
    omega
  | cons p t ih =>
    have ht : RunsPos t := fun q hq => hpos q (List.mem_cons_of_mem _ hq)
    simp only [prefix_sums, List.findIdx_cons]
    by_cases hlt : pos < acc + p.2
    · simp only [hlt, decide_True, cond_true, before_zero]
      refine ⟨by simp, by omega, ?_, ?_⟩
      · simpa using hlt
      · intro h; omega
    · simp only [hlt, decide_False, cond_false]
      have h2' : pos < acc + p.2 + (t.map Prod.snd).sum := by
        simp only [List.map_cons, List.sum_cons] at h2
        omega
      obtain ⟨i1, i2, i3, i4⟩ := ih (acc + p.2) ht (by omega) h2'
      generalize (prefix_sums t (acc + p.2)).findIdx (fun x => decide (pos < x)) = i at i1 i2 i3 i4
      refine ⟨by simp; omega, ?_, ?_, ?_⟩
      · rw [before_cons_succ]; omega
      · rw [before_cons_succ]
        simp only [List.getD_cons_succ]
        omega
      · intro _
        rw [before_cons_succ]
        simp only [Nat.add_sub_cancel]
        cases i with
        | zero => simp [before_zero]
        | succ j =>
          have := i4 (by omega)
          simp only [Nat.add_sub_cancel] at this
          simp only [List.getD_cons_succ, this]
          omega

theorem jump_to_spec (d : RunDeck) (pos : Int) (hb : d.Built) (hpos : RunsPos d.sequence)
    (h0 : 0 ≤ pos) (h1 : pos < d.total_len) :
    (RunDeck.jump_to d pos).idx < d.sequence.length ∧
      0 ≤ (RunDeck.jump_to d pos).offset ∧
      (RunDeck.jump_to d pos).offset <
        (d.sequence.getD (RunDeck.jump_to d pos).idx (0, 0)).2 ∧
      before d.sequence (RunDeck.jump_to d pos).idx + (RunDeck.jump_to d pos).offset = pos := by
  obtain ⟨hp, ht⟩ := hb
  rw [ht] at h1
  obtain ⟨i1, i2, i3, i4⟩ := prefix_search d.sequence 0 pos hpos h0 (by omega)
  unfold RunDeck.jump_to
  simp only [hp]
  generalize (prefix_sums d.sequence 0).findIdx (fun x => decide (pos < x)) = i at i1 i2 i3 i4
  rw [if_neg (by omega)]
  by_cases hi : i > 0
  · rw [if_pos hi, i4 hi]
    refine ⟨i1, by omega, by omega, by omega⟩
  · rw [if_neg hi]
    have hi0 : i = 0 := by omega
    subst hi0
    rw [before_zero] at i2 i3 ⊢
    refine ⟨i1, by omega, by omega, by omega⟩

theorem jump_to_fields (d : RunDeck) (pos : Int) :
    (RunDeck.jump_to d pos).sequence = d.sequence ∧ (RunDeck.jump_to d pos).config = d.config ∧
      (RunDeck.jump_to d pos).prefix_sum = d.prefix_sum ∧
      (RunDeck.jump_to d pos).total_len = d.total_len ∧
      (RunDeck.jump_to d pos).wraps = d.wraps ∧ (RunDeck.jump_to d pos).draws = d.draws :=
  ⟨rfl, rfl, rfl, rfl, rfl, rfl⟩

theorem build_blocks_pos (cfg : RunDeckConfig) (fuel : Nat) (remaining cur_s cur_f cur_b : Int)
    (blocks : List (List (Int × Int))) (g : Mt19937)
    (h : ∀ blk ∈ blocks, RunsPos blk ∧ RunsTyped blk) :
    ∀ blk ∈ (build_blocks cfg fuel remaining cur_s cur_f cur_b blocks g).1,
      RunsPos blk ∧ RunsTyped blk := by
  induction fuel generalizing remaining cur_s cur_f cur_b blocks g with
  | zero => simpa [build_blocks] using h
  | succ n ih =>
    unfold build_blocks
    split_ifs with hr
    · simp only []
      apply ih
      intro blk hblk
      rcases List.mem_append.1 hblk with hb | hb
      · exact h blk hb
      · rw [List.mem_singleton.1 hb]
        exact build_block_pos _ _ _ _ _
    · exact h

theorem swap01_mem (l : List (Int × Int)) (p : Int × Int) : p ∈ swap01 l ↔ p ∈ l := by
  unfold swap01
  split
  · simp only [List.mem_cons]
    tauto
  · rfl

theorem join_blocks_mem (bl : List (List (Int × Int))) (prev : Int) (seq : List (Int × Int))
    (p : Int × Int) (hp : p ∈ join_blocks bl prev seq) : p ∈ seq ∨ ∃ blk ∈ bl, p ∈ blk := by
  induction bl generalizing prev seq with
  | nil => left; simpa [join_blocks] using hp
  | cons blk rest ih =>
    cases blk with
    | nil =>
      simp only [join_blocks] at hp
      rcases ih _ _ hp with h | ⟨b, hb, hpb⟩
      · left; exact h
      · right; exact ⟨b, List.mem_cons_of_mem _ hb, hpb⟩
    | cons r blk =>
      simp only [join_blocks] at hp
      rcases ih _ _ hp with h | ⟨b, hb, hpb⟩
      · rcases List.mem_append.1 h with h | h
        · left; exact h
        · right
          refine ⟨r :: blk, List.mem_cons_self _ _, ?_⟩
          split_ifs at h
          · exact (swap01_mem _ _).1 h
          · exact h
      · right; exact ⟨b, List.mem_cons_of_mem _ hb, hpb⟩

theorem build_sequence_pos (cfg : RunDeckConfig) (s f b : Int) (g : Mt19937) :
    RunsPos (build_sequence cfg s f b g).1 ∧ RunsTyped (build_sequence cfg s f b g).1 := by
  unfold build_sequence
  simp only []
  split_ifs with hseg
  · exact build_block_pos _ _ _ _ _
  · have hbl := build_blocks_pos cfg (s + f + b).toNat (s + f + b) s f b [] g (by simp)
    have key : ∀ p ∈ join_blocks
        (shuffle (build_blocks cfg (s + f + b).toNat (s + f + b) s f b [] g).1
          (build_blocks cfg (s + f + b).toNat (s + f + b) s f b [] g).2).1 (-1) [],
        1 ≤ p.2 ∧ (p.1 = S ∨ p.1 = F ∨ p.1 = B) := by
      intro p hp
      rcases join_blocks_mem _ _ _ _ hp with h | ⟨blk, hblk, hpb⟩
      · simp at h
      · have hmem := (shuffle_perm _ _).mem_iff.1 hblk
        exact ⟨(hbl blk hmem).1 p hpb, (hbl blk hmem).2 p hpb⟩
    exact ⟨fun p hp => (key p hp).1, fun p hp => (key p hp).2⟩

theorem new_runs_pos (gen : Seeder) (s f b : Int) (cfg : RunDeckConfig) (seed : Int) :
    RunsPos (RunDeck.new gen s f b cfg seed).sequence ∧
      RunsTyped (RunDeck.new gen s f b cfg seed).sequence :=
  build_sequence_pos cfg s f b (Mt19937.seeded gen seed)

theorem total_len_pos (d : RunDeck) (hne : d.sequence ≠ []) (hpos : RunsPos d.sequence)
    (hb : d.Built) : 0 < d.total_len := by
  rw [hb.2, ← expand_length _ hpos]
  have := List.length_pos.2 (expand_ne_nil _ hpos hne)
  omega

/-- On a non-empty deck with `total_len > 0`, `jump_random` draws a position in
`[0, total_len)` and sets the cursor for it. -/
theorem jump_random_eq_jump_to (d : RunDeck) (hne : d.sequence ≠ []) (htl : 0 < d.total_len) :
    RunDeck.jump_random d =
        RunDeck.jump_to { d with rng := (uniform_int 0 (d.total_len - 1) d.rng).2 }
          (uniform_int 0 (d.total_len - 1) d.rng).1 ∧
      0 ≤ (uniform_int 0 (d.total_len - 1) d.rng).1 ∧
      (uniform_int 0 (d.total_len - 1) d.rng).1 < d.total_len := by
  have hge := uniform_int_ge 0 (d.total_len - 1) d.rng
  have hle := uniform_int_le 0 (d.total_len - 1) d.rng (by omega)
  refine ⟨?_, hge, by omega⟩
  unfold RunDeck.jump_random
  rw [if_neg (by simp only [not_or]; exact ⟨hne, by omega⟩)]

theorem jump_random_spec (d : RunDeck) (hne : d.sequence ≠ []) (hpos : RunsPos d.sequence)
    (hb : d.Built) :
    CursorOk (RunDeck.jump_random d) ∧
      (RunDeck.jump_random d).idx < (RunDeck.jump_random d).sequence.length ∧
      (RunDeck.jump_random d).sequence = d.sequence ∧
      (RunDeck.jump_random d).config = d.config ∧ (RunDeck.jump_random d).Built ∧
      (RunDeck.jump_random d).wraps = d.wraps ∧ (RunDeck.jump_random d).draws = d.draws := by
  have htl := total_len_pos d hne hpos hb
  unfold RunDeck.jump_random
  rw [if_neg (by simp only [not_or]; exact ⟨hne, by omega⟩)]
  simp only []
  have hge := uniform_int_ge 0 (d.total_len - 1) d.rng
  have hle := uniform_int_le 0 (d.total_len - 1) d.rng (by omega)
  generalize uniform_int 0 (d.total_len - 1) d.rng = u at hge hle
  have hb1 : RunDeck.Built { d with rng := u.2 } := hb
  obtain ⟨i1, i2, i3, i4⟩ := jump_to_spec { d with rng := u.2 } u.1 hb1 hpos hge
    (by show u.1 < d.total_len; omega)
  exact ⟨⟨Nat.le_of_lt i1, fun _ => ⟨i2, i3⟩, fun hn => absurd i1 hn⟩, i1, rfl, rfl, hb, rfl, rfl⟩

theorem wrap_spec (d : RunDeck) (hne : d.sequence ≠ []) (hpos : RunsPos d.sequence)
    (hb : d.Built) (hc : CursorOk d) :
    CursorOk (RunDeck.wrap d) ∧ (RunDeck.wrap d).idx < (RunDeck.wrap d).sequence.length ∧
      (RunDeck.wrap d).sequence = d.sequence ∧ (RunDeck.wrap d).config = d.config ∧
      (RunDeck.wrap d).Built := by
  unfold RunDeck.wrap
  split_ifs with h1 h2
  · have hb1 : RunDeck.Built { d with wraps := d.wraps + 1 } := hb
    obtain ⟨j1, j2, j3, j4, j5, _, _⟩ := jump_random_spec { d with wraps := d.wraps + 1 } hne hpos hb1
    exact ⟨j1, j2, j3, j4, j5⟩
  · have hlen : 0 < d.sequence.length := List.length_pos.2 hne
    refine ⟨cursor_ok_start _ hpos rfl rfl, hlen, rfl, rfl, hb⟩
  · exact ⟨hc, by omega, rfl, rfl, hb⟩

theorem draw_via_wrap (d : RunDeck) (hne : d.sequence ≠ [])
    (hs : (RunDeck.wrap d).sequence = d.sequence)
    (h : (RunDeck.wrap d).idx < (RunDeck.wrap d).sequence.length) :
    RunDeck.draw d = RunDeck.draw (RunDeck.wrap d) := by
  have hne2 : (RunDeck.wrap d).sequence ≠ [] := by rw [hs]; exact hne
  unfold RunDeck.draw
  simp only [if_neg hne, if_neg hne2, wrap_of_lt _ h]

/-- One call of `draw` on a non-empty deck, in terms of the deck after the wrap
handling. -/
theorem draw_spec (d : RunDeck) (hne : d.sequence ≠ []) (hpos : RunsPos d.sequence)
    (hb : d.Built) (hc : CursorOk d) :
    (RunDeck.wrap d).rest = (RunDeck.draw d).1 :: (RunDeck.draw d).2.rest ∧
      CursorOk (RunDeck.draw d).2 ∧ (RunDeck.draw d).2.sequence = d.sequence ∧
      (RunDeck.draw d).2.config = d.config ∧ (RunDeck.draw d).2.Built := by
  obtain ⟨w1, w2, w3, w4, w5⟩ := wrap_spec d hne hpos hb hc
  rw [draw_via_wrap d hne w3 w2]
  obtain ⟨e1, e2, e3, _, e5, e6, e7, _⟩ := draw_step (RunDeck.wrap d) (w3 ▸ hpos) w1 w2
  refine ⟨e1, e2, e3.trans w3, e5.trans w4, ?_, ?_⟩
  · rw [e6, e3]; exact w5.1
  · rw [e7, e3]; exact w5.2

/-- State of a deck after `k` draws in sequential-wrap mode: the remaining
tokens are the flattened sequence `e` from a position `q ≡ k (mod |e|)` on. -/
theorem seq_wrap_step (seq : List (Int × Int)) (d : RunDeck) (k : Nat)
    (hne : seq ≠ []) (hpos : RunsPos seq) (hs : d.sequence = seq) (hb : d.Built)
    (hw : d.config.wrap_random = false) (hc : CursorOk d)
    (hq : ∃ q, q ≤ (expand seq).length ∧ d.rest = (expand seq).drop q ∧
      q % (expand seq).length = k % (expand seq).length) :
    (expand seq)[k % (expand seq).length]? = some (RunDeck.draw d).1 ∧
      (RunDeck.draw d).2.sequence = seq ∧ (RunDeck.draw d).2.Built ∧
      (RunDeck.draw d).2.config.wrap_random = false ∧ CursorOk (RunDeck.draw d).2 ∧
      ∃ q, q ≤ (expand seq).length ∧ (RunDeck.draw d).2.rest = (expand seq).drop q ∧
        q % (expand seq).length = (k + 1) % (expand seq).length := by
  subst hs
  obtain ⟨q, hq1, hq2, hq3⟩ := hq
  have hL : 0 < (expand d.sequence).length := List.length_pos.2 (expand_ne_nil _ hpos hne)
  obtain ⟨e1, e2, e3, e4, e5⟩ := draw_spec d hne hpos hb hc
  -- the remaining tokens after the wrap handling
  have hwrap : ∃ q1, q1 < (expand d.sequence).length ∧
      (RunDeck.wrap d).rest = (expand d.sequence).drop q1 ∧
      q1 % (expand d.sequence).length = k % (expand d.sequence).length := by
    by_cases hlt : d.idx < d.sequence.length
    · refine ⟨q, ?_, by rw [wrap_of_lt d hlt]; exact hq2, hq3⟩
      have hne1 := rest_ne_nil_of_lt d hc hlt
      rw [hq2] at hne1
      by_contra hge
      exact hne1 (List.drop_eq_nil_of_le (by omega))
    · have hq0 : q = (expand d.sequence).length := by
        have hnil : d.rest = [] := rest_tokens_end _ _ _ (by omega)
        rw [hq2] at hnil
        have := congrArg List.length hnil
        simp at this
        omega
      refine ⟨0, hL, ?_, ?_⟩
      · unfold RunDeck.wrap
        rw [if_pos (by omega), hw]
        simp only [Bool.false_eq_true, if_false, List.drop_zero]
        exact rest_tokens_zero _
      · rw [← hq3, hq0]; simp
  obtain ⟨q1, r1, r2, r3⟩ := hwrap
  rw [r2] at e1
  have hget : (expand d.sequence)[q1]? = some (RunDeck.draw d).1 := by
    have := congrArg List.head? e1
    rw [List.head?_drop] at this
    simpa using this
  have hrest : (RunDeck.draw d).2.rest = (expand d.sequence).drop (q1 + 1) := by
    have := congrArg List.tail e1
    rw [List.tail_drop] at this
    simpa using this.symm
  refine ⟨?_, e3, e5, by rw [e4]; exact hw, e2, q1 + 1, by omega, hrest, ?_⟩
  · rw [← r3, Nat.mod_eq_of_lt r1]; exact hget
  · rw [Nat.add_mod, r3, ← Nat.add_mod]

theorem seq_wrap_draw_n (seq : List (Int × Int)) (n : Nat) (d : RunDeck) (k : Nat)
    (hne : seq ≠ []) (hpos : RunsPos seq) (hs : d.sequence = seq) (hb : d.Built)
    (hw : d.config.wrap_random = false) (hc : CursorOk d)
    (hq : ∃ q, q ≤ (expand seq).length ∧ d.rest = (expand seq).drop q ∧
      q % (expand seq).length = k % (expand seq).length) :
    (RunDeck.draw_n n d).2.sequence = seq ∧ (RunDeck.draw_n n d).2.Built ∧
      (RunDeck.draw_n n d).2.config.wrap_random = false ∧ CursorOk (RunDeck.draw_n n d).2 ∧
      ∃ q, q ≤ (expand seq).length ∧ (RunDeck.draw_n n d).2.rest = (expand seq).drop q ∧
        q % (expand seq).length = (k + n) % (expand seq).length := by
  induction n generalizing d k with
  | zero => exact ⟨hs, hb, hw, hc, hq⟩
  | succ n ih =>
    obtain ⟨_, s2, s3, s4, s5, s6⟩ := seq_wrap_step seq d k hne hpos hs hb hw hc hq
    have := ih (RunDeck.draw d).2 (k + 1) s2 s3 s4 s5 s6
    simp only [RunDeck.draw_n]
    rw [show k + (n + 1) = k + 1 + n by omega]
    exact this

/-- C7: with `wrap_random = false`, the `(k+1)`-th call of `draw` on a freshly
built non-empty deck returns the token at absolute position `k mod L` of the
flattened run sequence, `L` being its length. -/
theorem sequential_wrap_replays (gen : Seeder) (s f b : Int) (cfg : RunDeckConfig) (seed : Int)
    (k : Nat) (hw : cfg.wrap_random = false)
    (hne : (RunDeck.new gen s f b cfg seed).sequence ≠ []) :
    (expand (RunDeck.new gen s f b cfg seed).sequence)[
        k % (expand (RunDeck.new gen s f b cfg seed).sequence).length]? =
      some (RunDeck.draw (RunDeck.draw_n k (RunDeck.new gen s f b cfg seed)).2).1 := by
  obtain ⟨_, hi, ho, _, hcfg, _, _, hb⟩ := new_fields gen s f b cfg seed
  obtain ⟨hpos, _⟩ := new_runs_pos gen s f b cfg seed
  generalize RunDeck.new gen s f b cfg seed = d at *
  have hc := cursor_ok_start d hpos hi ho
  have hq0 : ∃ q, q ≤ (expand d.sequence).length ∧ d.rest = (expand d.sequence).drop q ∧
      q % (expand d.sequence).length = 0 % (expand d.sequence).length := by
    refine ⟨0, Nat.zero_le _, ?_, rfl⟩
    unfold RunDeck.rest
    rw [hi, ho, rest_tokens_zero, List.drop_zero]
  obtain ⟨n1, n2, n3, n4, n5⟩ := seq_wrap_draw_n d.sequence k d 0 hne hpos rfl hb
    (by rw [hcfg]; exact hw) hc hq0
  have := (seq_wrap_step d.sequence (RunDeck.draw_n k d).2 (0 + k) hne hpos n1 n2 n3 n4 n5).1
  simpa using this

/-- Witness of C7: the eleventh call on a deck of six tokens. -/
theorem sequential_wrap_replays_witness :
    (expand (RunDeck.new (fun _ _ => 0) 3 2 1 { wrap_random := false } 42).sequence)[
        10 % (expand (RunDeck.new (fun _ _ => 0) 3 2 1 { wrap_random := false } 42).sequence).length]? =
      some (RunDeck.draw (RunDeck.draw_n 10
        (RunDeck.new (fun _ _ => 0) 3 2 1 { wrap_random := false } 42)).2).1 :=
  sequential_wrap_replays (fun _ _ => 0) 3 2 1 { wrap_random := false } 42 10 rfl (by decide!)

/-! ## Segmented builds -/

/-- C2 (code defect): for `s = 1`, `f = 0`, `b = 1` and `box_size = 1` the first
block is allocated `(1, -1, 1)` by `_alloc_block_counts`, and the deck that
`_build` produces has three runs, one of them a Fail run, so the Fail lengths
sum to 1 instead of 0 and `total_len` is 3 instead of 2.  The manager builds
this deck for the triple `(1/2, 0, 1/2)` with `chunk_size = 2`. -/
theorem segmented_build_overfills :
    _alloc_block_counts 1 1 0 1 = (1, -1, 1) ∧
      (RunDeck.new (fun _ _ => 0) 1 0 1 { box_size := 1 } 42).sequence =
        [(1, 1), (0, 1), (2, 1)] ∧
      type_sum S (RunDeck.new (fun _ _ => 0) 1 0 1 { box_size := 1 } 42).sequence = 1 ∧
      type_sum F (RunDeck.new (fun _ _ => 0) 1 0 1 { box_size := 1 } 42).sequence = 1 ∧
      type_sum B (RunDeck.new (fun _ _ => 0) 1 0 1 { box_size := 1 } 42).sequence = 1 ∧
      (RunDeck.new (fun _ _ => 0) 1 0 1 { box_size := 1 } 42).total_len = 3 ∧
      (RunDeckManager.get_deck (fun _ _ => 0)
          (RunDeckManager.new (fun _ _ => 0) (fun _ => some (1 / 2, 0, 1 / 2))
            { chunk_size := 2, box_size := 1 } 42) 12).1.map
        (fun d => (d.s_cnt, d.f_cnt, d.b_cnt, d.total_len)) = some (1, 0, 1, 3) := by
  decide!

/-! ## Markov transition matrices -/

theorem clamp01_id (v : ℚ) (h0 : 0 ≤ v) (h1 : v ≤ 1) : clamp01 v = v := by
  unfold clamp01
  simp only []
  rw [if_neg (not_lt.2 h0), if_neg (not_lt.2 h1)]

theorem markov_row_spec (rho a b c : ℚ) (i : Nat) (ha : 0 ≤ a) (hb : 0 ≤ b) (hc : 0 ≤ c)
    (hsum : a + b + c = 1) (hr0 : 0 ≤ rho) (hr1 : rho ≤ 1) (hi : i < 3) :
    (markov_row rho [a, b, c] i).length = 3 ∧ (∀ x ∈ markov_row rho [a, b, c] i, 0 ≤ x) ∧
      (markov_row rho [a, b, c] i).sum = 1 := by
  unfold markov_row
  simp only []
  generalize hr : (if i = 1 ∧ rho > 4 / 5 then (4 / 5 : ℚ) else rho) = r
  have hr0' : 0 ≤ r := by rw [← hr]; split_ifs <;> linarith
  have hr1' : r ≤ 1 := by rw [← hr]; split_ifs <;> linarith
  have h1r : 0 ≤ 1 - r := by linarith
  have e : ∀ (x δ : ℚ), 0 ≤ x → x ≤ 1 → (δ = 0 ∨ δ = 1) →
      clamp01 ((1 - r) * x + r * δ) = (1 - r) * x + r * δ := by
    intro x δ hx0 hx1 hδ
    apply clamp01_id
    · rcases hδ with h | h <;> rw [h] <;> nlinarith
    · rcases hδ with h | h <;> rw [h] <;> nlinarith
  have ha1 : a ≤ 1 := by linarith
  have hb1 : b ≤ 1 := by linarith
  have hc1 : c ≤ 1 := by linarith
  have hvals : (List.range 3).map
      (fun j => clamp01 ((1 - r) * [a, b, c].getD j 0 + r * (if i = j then 1 else 0))) =
      [(1 - r) * a + r * (if i = 0 then 1 else 0), (1 - r) * b + r * (if i = 1 then 1 else 0),
       (1 - r) * c + r * (if i = 2 then 1 else 0)] := by
    simp only [List.range, List.range.loop, List.map_cons, List.map_nil, List.getD_cons_zero,
      List.getD_cons_succ]
    rw [e a _ ha ha1 (by split_ifs <;> simp), e b _ hb hb1 (by split_ifs <;> simp),
      e c _ hc hc1 (by split_ifs <;> simp)]
  rw [hvals]
  have hs : ([(1 - r) * a + r * (if i = 0 then 1 else 0), (1 - r) * b + r * (if i = 1 then 1 else 0),
       (1 - r) * c + r * (if i = 2 then 1 else 0)] : List ℚ).sum = 1 := by
    have hd : ((if i = 0 then 1 else 0) + (if i = 1 then 1 else 0) + (if i = 2 then 1 else 0) : ℚ)
        = 1 := by
      interval_cases i <;> simp
    simp only [List.sum_cons, List.sum_nil, add_zero]
    have : (1 - r) * a + r * (if i = 0 then 1 else 0) + ((1 - r) * b + r * (if i = 1 then 1 else 0) +
        ((1 - r) * c + r * (if i = 2 then 1 else 0))) =
        (1 - r) * (a + b + c) + r * ((if i = 0 then 1 else 0) + (if i = 1 then 1 else 0) +
          (if i = 2 then 1 else 0)) := by ring
    rw [this, hd, hsum]
    ring
  rw [hs, if_pos (by norm_num)]
  refine ⟨by simp, ?_, ?_⟩
  · intro x hx
    simp only [List.map_cons, List.map_nil, div_one, List.mem_cons, List.mem_singleton,
      List.not_mem_nil, or_false] at hx
    rcases hx with h | h | h <;> rw [h] <;> split_ifs <;> nlinarith
  · simpa using hs

/-- C10: for a probability triple with `p_success ≥ 0`, `p_boom ≥ 0`,
`p_success + p_boom ≤ 1` and `0 ≤ rho ≤ 1`, the transition matrix stored for a
level has three rows of three non-negative entries, each row summing to exactly 1. -/
theorem markov_rows_stochastic (rho : ℚ) (prob : ProbTable) (level : Int) (p : ℚ × ℚ × ℚ)
    (hp : prob level = some p) (hs : 0 ≤ p.1) (hb : 0 ≤ p.2.2) (hsb : p.1 + p.2.2 ≤ 1)
    (hr0 : 0 ≤ rho) (hr1 : rho ≤ 1) :
    (markov_transitions rho prob level).length = 3 ∧
      ∀ row ∈ markov_transitions rho prob level,
        row.length = 3 ∧ (∀ x ∈ row, 0 ≤ x) ∧ row.sum = 1 := by
  unfold markov_transitions
  rw [hp]
  simp only []
  unfold markov_matrix
  simp only []
  refine ⟨by simp, ?_⟩
  intro row hrow
  obtain ⟨i, hi, rfl⟩ := List.mem_map.1 hrow
  exact markov_row_spec rho p.1 (1 - p.1 - p.2.2) p.2.2 i hs (by linarith) hb (by ring) hr0 hr1
    (List.mem_range.1 hi)

/-- Witness of C10: the triple `(1/2, 1/4, 1/4)` at level 12 with `rho = 9/10`. -/
theorem markov_rows_stochastic_witness :
    (markov_transitions (9 / 10) (fun _ => some (1 / 2, 1 / 4, 1 / 4)) 12).length = 3 ∧
      ∀ row ∈ markov_transitions (9 / 10) (fun _ => some (1 / 2, 1 / 4, 1 / 4)) 12,
        row.length = 3 ∧ (∀ x ∈ row, 0 ≤ x) ∧ row.sum = 1 :=
  markov_rows_stochastic (9 / 10) (fun _ => some (1 / 2, 1 / 4, 1 / 4)) 12 (1 / 2, 1 / 4, 1 / 4)
    rfl (by norm_num) (by norm_num) (by norm_num) (by norm_num) (by norm_num)

/-- Extra fuel does not change the result of the block loop of a segmented build. -/
theorem build_blocks_fuel (cfg : RunDeckConfig) (hbox : 0 < cfg.box_size) (fuel extra : Nat)
    (remaining cur_s cur_f cur_b : Int) (blocks : List (List (Int × Int))) (g : Mt19937)
    (hf : remaining ≤ fuel) :
    build_blocks cfg (fuel + extra) remaining cur_s cur_f cur_b blocks g =
      build_blocks cfg fuel remaining cur_s cur_f cur_b blocks g := by
  induction fuel generalizing remaining cur_s cur_f cur_b blocks g with
  | zero =>
    have hr : ¬ remaining > 0 := by simp at hf; omega
    cases extra with
    | zero => rfl
    | succ e =>
      simp only [Nat.zero_add]
      rw [build_blocks, build_blocks]
      simp [hr]
  | succ n ih =>
    rw [show n + 1 + extra = (n + extra) + 1 by omega]
    rw [build_blocks, build_blocks]
    split_ifs with hr
    · exact ih _ _ _ _ _ _ (by push_cast at hf ⊢; omega)
    · rfl

/-! ## Sequential drivers: streak accounting, click cap and result count -/

theorem push_streak_total (streaks b_streaks : List Int) (curr_type curr_len : Int)
    (h : 0 ≤ curr_len) :
    streak_total (push_streak streaks b_streaks curr_type curr_len).1
        (push_streak streaks b_streaks curr_type curr_len).2 =
      streak_total streaks b_streaks + curr_len := by
  unfold push_streak streak_total
  split_ifs with h1 h2 h3
  · simp [abs_of_nonneg h]; ring
  · simp [abs_of_nonneg h]; ring
  · simp; ring
  · have : curr_len = 0 := by omega
    simp [this]

theorem wrap32_id (x : Int) (h0 : -2147483648 ≤ x) (h1 : x ≤ 2147483647) : wrap32 x = x := by
  unfold wrap32
  omega

theorem wrap32_add (a b : Int) : wrap32 (wrap32 a + b) = wrap32 (a + b) := by
  unfold wrap32
  omega

theorem wrap64_id (x : Int) (h0 : -9223372036854775808 ≤ x) (h1 : x ≤ 9223372036854775807) :
    wrap64 x = x := by
  unfold wrap64
  omega

theorem seq_click_balanced {σ : Type} (c0 t0 : Int) (st : SeqState σ) (token : Int) (s1 : σ)
    (h : SeqBalanced c0 t0 st) (hlt : st.clicks_run < 5000) :
    SeqBalanced c0 t0 (seq_click st token s1) := by
  obtain ⟨h1, h2, h3, h4, h5⟩ := h
  unfold seq_click SeqBalanced
  by_cases htc : type_code token = st.curr_type
  · simp only [htc, if_true]
    exact ⟨by omega, by omega, by omega, h4, by omega⟩
  · simp only [htc, if_false]
    refine ⟨by omega, by omega, by omega, h4, ?_⟩
    rw [push_streak_total _ _ _ _ h1]
    omega

theorem trial_loop_inv {σ : Type} (src : Source σ) (P : SeqState σ → Prop)
    (hP : ∀ st tok s1, P st → st.clicks_run < 5000 → P (seq_click st tok s1))
    (fuel : Nat) (st st1 : SeqState σ) (h0 : P st) (h : trial_loop src fuel st = .ok st1) :
    P st1 := by
  induction fuel generalizing st with
  | zero =>
    unfold trial_loop at h
    split_ifs at h
    cases h
    exact h0
  | succ n ih =>
    unfold trial_loop at h
    split_ifs at h with hg
    · cases hsrc : src st.src st.curr st.prev_token with
      | error e => rw [hsrc] at h; cases h
      | ok r =>
        rw [hsrc] at h
        exact ih _ (hP st r.1 r.2 h0 hg.2) h
    · cases h
      exact h0

theorem type_code_range (token : Int) :
    type_code token = 0 ∨ type_code token = 1 ∨ type_code token = 2 := by
  unfold type_code
  split_ifs <;> simp

theorem seq_click_in_range {σ : Type} (st : SeqState σ) (token : Int) (s1 : σ)
    (h : SeqInRange st) (hlt : st.curr < 22) : SeqInRange (seq_click st token s1) := by
  obtain ⟨h1, h2, _⟩ := h
  unfold seq_click SeqInRange
  dsimp only
  refine ⟨?_, ?_, Or.inr (type_code_range token)⟩
  · unfold next_level
    split_ifs <;> omega
  · unfold next_level
    split_ifs <;> omega

theorem trial_loop_total {σ : Type} (src : Source σ) (hsrc : SourceTotal src) (fuel : Nat)
    (st : SeqState σ) (hr : SeqInRange st) (hf : 5000 ≤ st.clicks_run + fuel) :
    ∃ st1, trial_loop src fuel st = .ok st1 := by
  induction fuel generalizing st with
  | zero =>
    unfold trial_loop
    rw [if_neg (by intro hg; simp at hf; omega)]
    exact ⟨st, rfl⟩
  | succ n ih =>
    unfold trial_loop
    split_ifs with hg
    · obtain ⟨r, hr1⟩ := hsrc st.src st.curr st.prev_token hr.1 hg.1 hr.2.2
      rw [hr1]
      apply ih _ (seq_click_in_range st r.1 r.2 hr hg.1)
      show 5000 ≤ st.clicks_run + 1 + (n : Int)
      push_cast at hf
      omega
    · exact ⟨st, rfl⟩

/-- One run of a sequential driver adds the clicks of the run, between 0 and
5000, to the streak total of the result and, as an `int` addition, to `clicks`. -/
theorem seq_run_spec {σ : Type} (src : Source σ) (rs rs1 : SimResult × σ)
    (h : seq_run src rs = .ok rs1) :
    ∃ st, trial_loop src 5000
        { res := rs.1, curr := 12, clicks_run := 0, curr_type := -1, curr_len := 0,
          prev_token := -1, src := rs.2 } = .ok st ∧
      0 ≤ st.clicks_run ∧ st.clicks_run ≤ 5000 ∧
      rs1.1.streak_clicks = rs.1.streak_clicks + st.clicks_run ∧
      rs1.1.clicks = wrap32 (rs.1.clicks + st.clicks_run) := by
  unfold seq_run at h
  cases hl : trial_loop src 5000
      { res := rs.1, curr := 12, clicks_run := 0, curr_type := -1, curr_len := 0,
        prev_token := -1, src := rs.2 } with
  | error e => rw [hl] at h; cases h
  | ok st =>
    rw [hl] at h
    have hinv : SeqBalanced rs.1.clicks rs.1.streak_clicks st := by
      refine trial_loop_inv src (SeqBalanced rs.1.clicks rs.1.streak_clicks)
        (fun st tok s1 hst hlt => seq_click_balanced _ _ st tok s1 hst hlt) 5000 _ st ?_ hl
      refine ⟨le_refl _, le_refl _, by norm_num, rfl, ?_⟩
      simp [SimResult.streak_clicks]
    obtain ⟨h1, h2, h3, h4, h5⟩ := hinv
    simp only [] at h
    cases h
    refine ⟨st, rfl, h2, h3, ?_, ?_⟩
    · simp only [SimResult.streak_clicks] at h5 ⊢
      rw [push_streak_total _ _ _ _ h1]
      omega
    · show wrap32 (st.res.clicks + st.clicks_run) = wrap32 (rs.1.clicks + st.clicks_run)
      rw [h4]

theorem seq_run_total {σ : Type} (src : Source σ) (hsrc : SourceTotal src)
    (rs : SimResult × σ) : ∃ rs1, seq_run src rs = .ok rs1 := by
  unfold seq_run
  obtain ⟨st, hst⟩ := trial_loop_total src hsrc 5000
    { res := rs.1, curr := 12, clicks_run := 0, curr_type := -1, curr_len := 0,
      prev_token := -1, src := rs.2 } ⟨by norm_num, by norm_num, Or.inl rfl⟩ (by norm_num)
  rw [hst]
  exact ⟨_, rfl⟩

theorem seq_runs_spec {σ : Type} (src : Source σ) (n : Nat) (rs rs1 : SimResult × σ)
    (h : seq_runs src n rs = .ok rs1) (hb : rs.1.clicks = wrap32 rs.1.streak_clicks) :
    rs1.1.clicks = wrap32 rs1.1.streak_clicks ∧
      rs.1.streak_clicks ≤ rs1.1.streak_clicks ∧
      rs1.1.streak_clicks ≤ rs.1.streak_clicks + 5000 * n := by
  induction n generalizing rs with
  | zero =>
    unfold seq_runs at h
    cases h
    exact ⟨hb, le_refl _, by simp⟩
  | succ n ih =>
    unfold seq_runs at h
    cases hr : seq_run src rs with
    | error e => rw [hr] at h; cases h
    | ok rs2 =>
      rw [hr] at h
      obtain ⟨st, _, a1, a2, a3, a4⟩ := seq_run_spec src rs rs2 hr
      have hb2 : rs2.1.clicks = wrap32 rs2.1.streak_clicks := by
        rw [a4, a3, hb, wrap32_add]
      obtain ⟨b1, b2, b3⟩ := ih rs2 h hb2
      refine ⟨b1, by omega, ?_⟩
      push_cast
      omega

theorem seq_runs_total {σ : Type} (src : Source σ) (hsrc : SourceTotal src) (n : Nat)
    (rs : SimResult × σ) : ∃ rs1, seq_runs src n rs = .ok rs1 := by
  induction n generalizing rs with
  | zero => exact ⟨rs, rfl⟩
  | succ n ih =>
    unfold seq_runs
    obtain ⟨rs2, h2⟩ := seq_run_total src hsrc rs
    rw [h2]
    exact ih rs2

/-- The per-user loop of a sequential driver pushes one result per user; in each
result `clicks` is the 32-bit value of `Σ |streaks| + Σ b_streaks`, a total of at
most `5000 * runs_per_user`. -/
theorem seq_users_spec {σ : Type} (src : Source σ) (rpu n : Nat)
    (acc out : List SimResult × σ) (h : seq_users src rpu n acc = .ok out) :
    out.1.length = acc.1.length + n ∧ ∀ r ∈ out.1, r ∈ acc.1 ∨ SeqResultOk rpu r := by
  induction n generalizing acc with
  | zero =>
    unfold seq_users at h
    cases h
    exact ⟨rfl, fun r hr => Or.inl hr⟩
  | succ n ih =>
    unfold seq_users at h
    cases hr : seq_runs src rpu
        ({ streaks := [], b_streaks := [], lvl_stats := lvl_stats_zero, cost := 0, clicks := 0 },
         acc.2) with
    | error e => rw [hr] at h; cases h
    | ok rs =>
      rw [hr] at h
      obtain ⟨a1, a2, a3⟩ := seq_runs_spec src rpu _ rs hr
        (by simp [SimResult.streak_clicks, streak_total, wrap32])
      obtain ⟨b1, b2⟩ := ih _ h
      refine ⟨?_, ?_⟩
      · rw [b1]; simp; omega
      · intro r hr1
        rcases b2 r hr1 with hm | hq
        · rcases List.mem_append.1 hm with hm | hm
          · exact Or.inl hm
          · right
            rw [List.mem_singleton.1 hm]
            have e0 : SimResult.streak_clicks
                { streaks := [], b_streaks := [], lvl_stats := lvl_stats_zero, cost := 0,
                  clicks := 0 } = 0 := by
              simp [SimResult.streak_clicks, streak_total]
            simp only [e0] at a2 a3
            exact ⟨a1, a2, by simpa using a3⟩
        · exact Or.inr hq

theorem seq_users_total {σ : Type} (src : Source σ) (hsrc : SourceTotal src) (rpu n : Nat)
    (acc : List SimResult × σ) : ∃ out, seq_users src rpu n acc = .ok out := by
  induction n generalizing acc with
  | zero => exact ⟨acc, rfl⟩
  | succ n ih =>
    unfold seq_users
    obtain ⟨rs, h2⟩ := seq_runs_total src hsrc rpu
      ({ streaks := [], b_streaks := [], lvl_stats := lvl_stats_zero, cost := 0, clicks := 0 },
       acc.2)
    rw [h2]
    exact ih _

theorem fair_source_total (prob : ProbTable) : SourceTotal (fair_source prob) :=
  fun _ _ _ _ _ _ => ⟨_, rfl⟩

theorem rigged_source_total (gen : Seeder) : SourceTotal (rigged_source gen) :=
  fun _ _ _ _ _ _ => ⟨_, rfl⟩

theorem markov_row_length (rho : ℚ) (a b c : ℚ) (i : Nat) :
    (markov_row rho [a, b, c] i).length = 3 := by
  unfold markov_row
  simp only []
  split_ifs <;> simp

/-- With a table that has an entry for every level `12..21` the Markov source
never indexes outside a transition matrix. -/
theorem markov_source_total (rho : ℚ) (prob : ProbTable)
    (hp : ∀ level : Int, 12 ≤ level → level < 22 → prob level ≠ none) :
    SourceTotal (markov_source rho prob) := by
  intro g curr prev h1 h2 hprev
  unfold markov_source
  simp only []
  by_cases hp1 : prev = -1
  · rw [if_pos hp1]
    exact ⟨_, rfl⟩
  · rw [if_neg hp1, if_neg (by omega)]
    obtain ⟨p, hpp⟩ := Option.ne_none_iff_exists'.1 (hp curr h1 h2)
    have hT : markov_transitions rho prob curr =
        [markov_row rho [p.1, 1 - p.1 - p.2.2, p.2.2] 0,
         markov_row rho [p.1, 1 - p.1 - p.2.2, p.2.2] 1,
         markov_row rho [p.1, 1 - p.1 - p.2.2, p.2.2] 2] := by
      unfold markov_transitions markov_matrix
      rw [hpp]
      rfl
    rw [hT]
    have hrow : ∀ i : Nat, ∃ a b c : ℚ,
        markov_row rho [p.1, 1 - p.1 - p.2.2, p.2.2] i = [a, b, c] := by
      intro i
      have hl := markov_row_length rho p.1 (1 - p.1 - p.2.2) p.2.2 i
      match hm : markov_row rho [p.1, 1 - p.1 - p.2.2, p.2.2] i, hl with
      | [a, b, c], _ => exact ⟨a, b, c, rfl⟩
    obtain ⟨a0, b0, c0, e0⟩ := hrow 0
    obtain ⟨a1, b1, c1, e1⟩ := hrow 1
    obtain ⟨a2, b2, c2, e2⟩ := hrow 2
    rw [e0, e1, e2]
    rcases hprev with h | h | h | h
    · exact absurd h hp1
    · rw [h]; exact ⟨_, rfl⟩
    · rw [h]; exact ⟨_, rfl⟩
    · rw [h]; exact ⟨_, rfl⟩

/-! ## Interleaved driver -/

theorem user_click_spec (rpu : Int) (u : UserState) (token : Int) (hu : UserInv rpu u)
    (ha : u.runs_done < rpu) :
    (user_click u token).runs_done = u.runs_done ∧
      (user_click u token).clicks = u.clicks + 1 ∧ 0 ≤ (user_click u token).u_curr_len ∧
      streak_total (user_click u token).u_streaks (user_click u token).u_b_streaks +
        (user_click u token).u_curr_len = u.clicks + 1 := by
  obtain ⟨_, _, h3⟩ := hu
  obtain ⟨c0, c1, l0, hb⟩ := h3 ha
  unfold user_click
  refine ⟨rfl, wrap32_id _ (by omega) (by omega), ?_, ?_⟩
  · dsimp only
    split_ifs <;> omega
  · by_cases htc : type_code token = u.u_curr_type
    · simp only [htc, if_true]
      omega
    · simp only [htc, if_false]
      rw [push_streak_total _ _ _ _ l0]
      omega

theorem user_finish_spec (rpu : Int) (u1 : UserState) (h0 : 0 ≤ u1.runs_done)
    (ha : u1.runs_done < rpu) (hc0 : 1 ≤ u1.clicks) (hc1 : u1.clicks ≤ 5000)
    (hl : 0 ≤ u1.u_curr_len)
    (hb : streak_total u1.u_streaks u1.u_b_streaks + u1.u_curr_len = u1.clicks) :
    ResultOk (user_finish rpu u1).1 ∧ UserInv rpu (user_finish rpu u1).2.1 ∧
      (user_finish rpu u1).2.1.runs_done = u1.runs_done + 1 ∧
      (user_finish rpu u1).2.2 = user_active rpu (user_finish rpu u1).2.1 - 1 ∧
      user_budget rpu (user_finish rpu u1).2.1 + 5000 ≤
        ((rpu - u1.runs_done) * 5000).toNat := by
  have hres : streak_total
      (push_streak u1.u_streaks u1.u_b_streaks u1.u_curr_type u1.u_curr_len).1
      (push_streak u1.u_streaks u1.u_b_streaks u1.u_curr_type u1.u_curr_len).2 = u1.clicks := by
    rw [push_streak_total _ _ _ _ hl, hb]
  by_cases hlt : u1.runs_done + 1 < rpu
  · have e : user_finish rpu u1 =
        ({ streaks := (push_streak u1.u_streaks u1.u_b_streaks u1.u_curr_type u1.u_curr_len).1,
           b_streaks := (push_streak u1.u_streaks u1.u_b_streaks u1.u_curr_type u1.u_curr_len).2,
           lvl_stats := u1.lvl_stats, cost := u1.cost, clicks := u1.clicks },
         { UserState.init with runs_done := u1.runs_done + 1 }, 0) := by
      unfold user_finish
      simp only [hlt, if_true]
    rw [e]
    refine ⟨⟨hres, by show 0 ≤ u1.clicks; omega, hc1⟩, ⟨?_, ?_, ?_⟩, rfl, ?_, ?_⟩
    · show 0 ≤ u1.runs_done + 1; omega
    · intro _; show u1.runs_done + 1 ≤ rpu; omega
    · intro _
      simp [UserState.init, streak_total]
    · simp [user_active, UserState.init, hlt]
    · simp only [user_budget, UserState.init, hlt, if_true]
      omega
  · have e : user_finish rpu u1 =
        ({ streaks := (push_streak u1.u_streaks u1.u_b_streaks u1.u_curr_type u1.u_curr_len).1,
           b_streaks := (push_streak u1.u_streaks u1.u_b_streaks u1.u_curr_type u1.u_curr_len).2,
           lvl_stats := u1.lvl_stats, cost := u1.cost, clicks := u1.clicks },
         { u1 with
           u_streaks := (push_streak u1.u_streaks u1.u_b_streaks u1.u_curr_type u1.u_curr_len).1,
           u_b_streaks := (push_streak u1.u_streaks u1.u_b_streaks u1.u_curr_type u1.u_curr_len).2,
           runs_done := u1.runs_done + 1 }, -1) := by
      unfold user_finish
      simp only [hlt, if_false]
    rw [e]
    refine ⟨⟨hres, by show 0 ≤ u1.clicks; omega, hc1⟩, ⟨?_, ?_, ?_⟩, rfl, ?_, ?_⟩
    · show 0 ≤ u1.runs_done + 1; omega
    · intro _; show u1.runs_done + 1 ≤ rpu; omega
    · intro h; exact absurd h hlt
    · simp [user_active, hlt]
    · simp only [user_budget, hlt, if_false]
      omega

/-- One user's turn in a pass of the interleaved loop. -/
theorem inter_user_spec (gen : Seeder) (rpu : Int) (u : UserState) (sh : Shared)
    (hu : UserInv rpu u) :
    UserInv rpu (inter_user gen rpu u sh).1 ∧
      (inter_user gen rpu u sh).2.active - user_active rpu (inter_user gen rpu u sh).1 =
        sh.active - user_active rpu u ∧
      user_budget rpu (inter_user gen rpu u sh).1 ≤ user_budget rpu u - 1 ∧
      ∃ new : List SimResult,
        (inter_user gen rpu u sh).2.all_results = sh.all_results ++ new ∧
        (∀ r ∈ new, ResultOk r) ∧
        (new.length : Int) = (inter_user gen rpu u sh).1.runs_done - u.runs_done := by
  unfold inter_user
  by_cases hdone : u.runs_done ≥ rpu
  · rw [if_pos hdone]
    refine ⟨hu, rfl, ?_, [], by simp, by simp, by simp⟩
    simp [user_budget, not_lt.2 hdone]
  · rw [if_neg hdone]
    have ha : u.runs_done < rpu := by omega
    simp only []
    generalize RunDeckManager.draw gen sh.manager u.curr = d
    obtain ⟨k1, k2, k3, k4⟩ := user_click_spec rpu u d.1 hu ha
    obtain ⟨r0, r1, r2⟩ := hu
    obtain ⟨c0, c1, _, _⟩ := r2 ha
    have hbud : user_budget rpu u = ((rpu - u.runs_done) * 5000 - u.clicks).toNat := by
      simp [user_budget, ha]
    split_ifs with hfin
    · obtain ⟨f1, f2, f3, f4, f5⟩ := user_finish_spec rpu (user_click u d.1) (by omega)
        (by omega) (by omega) (by omega) k3 (by rw [k4, k2])
      refine ⟨f2, ?_, ?_, [(user_finish rpu (user_click u d.1)).1], rfl, ?_, ?_⟩
      · show sh.active + (user_finish rpu (user_click u d.1)).2.2 -
          user_active rpu (user_finish rpu (user_click u d.1)).2.1 = sh.active - user_active rpu u
        rw [f4]
        simp only [user_active, ha, if_true]
        omega
      · rw [hbud]
        rw [k1] at f5
        dsimp only
        omega
      · intro r hr
        rw [List.mem_singleton.1 hr]
        exact f1
      · rw [f3, k1]
        simp
    · simp only [not_or, not_le] at hfin
      refine ⟨⟨by rw [k1]; exact r0, fun h => by rw [k1]; exact r1 h,
          fun _ => ⟨by rw [k2]; omega, hfin.2, k3, by rw [k4, k2]⟩⟩,
        ?_, ?_, [], by simp, by simp, by simp [k1]⟩
      · show sh.active - user_active rpu (user_click u d.1) = sh.active - user_active rpu u
        simp only [user_active, k1]
      · rw [hbud]
        simp only [user_budget, k1, ha, if_true, k2]
        omega

theorem inter_pass_spec (gen : Seeder) (rpu : Int) (us : List UserState) (sh : Shared)
    (h : ∀ u ∈ us, UserInv rpu u) :
    (∀ u ∈ (inter_pass gen rpu us sh).1, UserInv rpu u) ∧
      (inter_pass gen rpu us sh).1.length = us.length ∧
      (inter_pass gen rpu us sh).2.active - active_count rpu (inter_pass gen rpu us sh).1 =
        sh.active - active_count rpu us ∧
      (∀ N : Nat, (∀ u ∈ us, user_budget rpu u ≤ N + 1) →
        ∀ u ∈ (inter_pass gen rpu us sh).1, user_budget rpu u ≤ N) ∧
      ∃ new : List SimResult,
        (inter_pass gen rpu us sh).2.all_results = sh.all_results ++ new ∧
        (∀ r ∈ new, ResultOk r) ∧
        (new.length : Int) = done_sum (inter_pass gen rpu us sh).1 - done_sum us := by
  induction us generalizing sh with
  | nil =>
    unfold inter_pass
    exact ⟨h, rfl, rfl, fun _ _ u hu => absurd hu (List.not_mem_nil u), [], by simp, by simp,
      by simp⟩
  | cons u us ih =>
    obtain ⟨a1, a2, a3, new1, a4, a5, a6⟩ :=
      inter_user_spec gen rpu u sh (h u (List.mem_cons_self _ _))
    obtain ⟨b1, b2, b3, b4, new2, b5, b6, b7⟩ :=
      ih (inter_user gen rpu u sh).2 (fun v hv => h v (List.mem_cons_of_mem _ hv))
    simp only [inter_pass]
    refine ⟨?_, ?_, ?_, ?_, new1 ++ new2, ?_, ?_, ?_⟩
    · intro v hv
      rcases List.mem_cons.1 hv with rfl | hv
      · exact a1
      · exact b1 v hv
    · simp [b2]
    · simp only [active_count, List.map_cons, List.sum_cons] at b3 ⊢
      omega
    · intro N hN v hv
      rcases List.mem_cons.1 hv with rfl | hv
      · have := hN u (List.mem_cons_self _ _)
        omega
      · exact b4 N (fun w hw => hN w (List.mem_cons_of_mem _ hw)) v hv
    · rw [b5, a4, List.append_assoc]
    · intro r hr
      rcases List.mem_append.1 hr with hr | hr
      · exact a5 r hr
      · exact b6 r hr
    · simp only [done_sum, List.map_cons, List.sum_cons, List.length_append, Nat.cast_add] at b7 ⊢
      omega

/-- Every result pushed by the interleaved loop satisfies
`Σ |streaks| + Σ b_streaks = clicks` and `0 ≤ clicks ≤ 5000`. -/
theorem inter_loop_results (gen : Seeder) (rpu : Int) (fuel : Nat) (us : List UserState)
    (sh sh1 : Shared) (h : ∀ u ∈ us, UserInv rpu u) (hr : ∀ r ∈ sh.all_results, ResultOk r)
    (hl : inter_loop gen rpu fuel us sh = .ok sh1) : ∀ r ∈ sh1.all_results, ResultOk r := by
  induction fuel generalizing us sh with
  | zero =>
    unfold inter_loop at hl
    split_ifs at hl
    cases hl
    exact hr
  | succ n ih =>
    unfold inter_loop at hl
    split_ifs at hl with ha
    · obtain ⟨b1, _, _, _, new, b5, b6, _⟩ := inter_pass_spec gen rpu us sh h
      refine ih _ _ b1 ?_ hl
      intro r hr1
      rw [b5] at hr1
      rcases List.mem_append.1 hr1 with hr1 | hr1
      · exact hr r hr1
      · exact b6 r hr1
    · cases hl
      exact hr

theorem user_active_nonneg (rpu : Int) (u : UserState) : 0 ≤ user_active rpu u := by
  unfold user_active
  split_ifs <;> omega

theorem active_count_nonneg (rpu : Int) (us : List UserState) : 0 ≤ active_count rpu us := by
  induction us with
  | nil => simp [active_count]
  | cons u us ih =>
    have := user_active_nonneg rpu u
    simp only [active_count, List.map_cons, List.sum_cons] at ih ⊢
    omega

theorem done_sum_of_inactive (rpu : Int) (us : List UserState) (h : ∀ u ∈ us, UserInv rpu u)
    (hrpu : 0 ≤ rpu) (ha : active_count rpu us ≤ 0) : done_sum us = us.length * rpu := by
  induction us with
  | nil => simp [done_sum]
  | cons u us ih =>
    have h1 := user_active_nonneg rpu u
    have h2 := active_count_nonneg rpu us
    simp only [active_count, List.map_cons, List.sum_cons] at ha h2
    have hu := h u (List.mem_cons_self _ _)
    have hud : u.runs_done = rpu := by
      have := hu.2.1 hrpu
      have hz : user_active rpu u = 0 := by omega
      unfold user_active at hz
      split_ifs at hz with hlt
      · omega
      · omega
    have := ih (fun v hv => h v (List.mem_cons_of_mem _ hv))
      (by simp only [active_count]; omega)
    simp only [done_sum, List.map_cons, List.sum_cons, List.length_cons, Nat.cast_add,
      Nat.cast_one] at this ⊢
    rw [this, hud]
    ring

theorem active_count_of_budget_zero (rpu : Int) (us : List UserState)
    (h : ∀ u ∈ us, UserInv rpu u) (hb : ∀ u ∈ us, user_budget rpu u ≤ 0) :
    active_count rpu us = 0 := by
  induction us with
  | nil => simp [active_count]
  | cons u us ih =>
    have hu := h u (List.mem_cons_self _ _)
    have hbu := hb u (List.mem_cons_self _ _)
    have hz : user_active rpu u = 0 := by
      unfold user_active
      split_ifs with hlt
      · obtain ⟨c0, c1, _, _⟩ := hu.2.2 hlt
        simp only [user_budget, hlt, if_true] at hbu
        omega
      · rfl
    have := ih (fun v hv => h v (List.mem_cons_of_mem _ hv))
      (fun v hv => hb v (List.mem_cons_of_mem _ hv))
    simp only [active_count, List.map_cons, List.sum_cons] at this ⊢
    omega

/-- With `runs_per_user ≥ 0` and fuel for the users' remaining clicks the
interleaved loop ends, having pushed `runs_per_user` results per user. -/
theorem inter_loop_total (gen : Seeder) (rpu : Int) (fuel : Nat) (us : List UserState)
    (sh : Shared) (h : ∀ u ∈ us, UserInv rpu u) (hrpu : 0 ≤ rpu)
    (hbud : ∀ u ∈ us, user_budget rpu u ≤ fuel) (hact : sh.active = active_count rpu us)
    (hlen : (sh.all_results.length : Int) = done_sum us) :
    ∃ sh1, inter_loop gen rpu fuel us sh = .ok sh1 ∧
      (sh1.all_results.length : Int) = us.length * rpu := by
  induction fuel generalizing us sh with
  | zero =>
    have hz := active_count_of_budget_zero rpu us h hbud
    unfold inter_loop
    rw [if_neg (by omega)]
    exact ⟨sh, rfl, by rw [hlen]; exact done_sum_of_inactive rpu us h hrpu (by omega)⟩
  | succ n ih =>
    unfold inter_loop
    split_ifs with ha
    · obtain ⟨b1, b2, b3, b4, new, b5, _, b7⟩ := inter_pass_spec gen rpu us sh h
      simp only []
      obtain ⟨sh1, e1, e2⟩ := ih (inter_pass gen rpu us sh).1 (inter_pass gen rpu us sh).2 b1
        (b4 n hbud) (by omega)
        (by rw [b5, List.length_append, Nat.cast_add]; omega)
      exact ⟨sh1, e1, by rw [e2, b2]⟩
    · exact ⟨sh, rfl, by rw [hlen]; exact done_sum_of_inactive rpu us h hrpu (by omega)⟩

/-! ## The drivers -/

theorem results_of_ok (out : SimOutput) : results_of (.ok out) = out.results := rfl

/-- The reservation does not throw when the product fits an `int` and is not negative. -/
theorem reserve_ok_of_range (users runs_per_user : Int) (h0 : 0 ≤ users * runs_per_user)
    (h1 : users * runs_per_user ≤ 2147483647) : ¬ reserve_throws users runs_per_user := by
  unfold reserve_throws
  rw [wrap32_id _ (by omega) h1]
  omega

theorem fair_ok (gen : Seeder) (users runs_per_user : Int) (prob : ProbTable) (seed : Int)
    (out : SimOutput) (h : simulate_fair_cpp gen users runs_per_user prob seed = .ok out) :
    ¬ reserve_throws users runs_per_user ∧
      ∃ r, seq_users (fair_source prob) runs_per_user.toNat users.toNat
          ([], Mt19937.seeded gen seed) = .ok r ∧
        out = { results := r.1, draws := 0, builds := 0, wraps := 0 } := by
  unfold simulate_fair_cpp at h
  by_cases ht : reserve_throws users runs_per_user
  · rw [if_pos ht] at h
    cases h
  · rw [if_neg ht] at h
    refine ⟨ht, ?_⟩
    cases ho : seq_users (fair_source prob) runs_per_user.toNat users.toNat
        ([], Mt19937.seeded gen seed) with
    | error e => rw [ho] at h; cases h
    | ok o =>
      rw [ho] at h
      cases h
      exact ⟨o, rfl, rfl⟩

theorem markov_ok (gen : Seeder) (users runs_per_user : Int) (prob : ProbTable) (rho : ℚ)
    (seed : Int) (out : SimOutput)
    (h : simulate_markov_cpp gen users runs_per_user prob rho seed = .ok out) :
    ¬ reserve_throws users runs_per_user ∧
      ∃ r, seq_users (markov_source rho prob) runs_per_user.toNat users.toNat
          ([], Mt19937.seeded gen seed) = .ok r ∧
        out = { results := r.1, draws := 0, builds := 0, wraps := 0 } := by
  unfold simulate_markov_cpp at h
  by_cases ht : reserve_throws users runs_per_user
  · rw [if_pos ht] at h
    cases h
  · rw [if_neg ht] at h
    refine ⟨ht, ?_⟩
    cases ho : seq_users (markov_source rho prob) runs_per_user.toNat users.toNat
        ([], Mt19937.seeded gen seed) with
    | error e => rw [ho] at h; cases h
    | ok o =>
      rw [ho] at h
      cases h
      exact ⟨o, rfl, rfl⟩

theorem rigged_seq_ok (gen : Seeder) (fuel : Nat) (users runs_per_user : Int)
    (prob : ProbTable) (config : RunDeckConfig) (start_mode : String) (seed : Int)
    (out : SimOutput)
    (h : simulate_rigged_cpp gen fuel users runs_per_user prob config start_mode seed true =
      .ok out) :
    ¬ reserve_throws users runs_per_user ∧
      ∃ r, seq_users (rigged_source gen) runs_per_user.toNat users.toNat
          ([], RunDeckManager.start_run (RunDeckManager.new gen prob config seed) start_mode) =
            .ok r ∧
        out = { results := r.1, draws := (RunDeckManager.stats r.2).1,
                builds := (RunDeckManager.stats r.2).2.1,
                wraps := (RunDeckManager.stats r.2).2.2 } := by
  unfold simulate_rigged_cpp at h
  by_cases ht : reserve_throws users runs_per_user
  · rw [if_pos ht] at h
    cases h
  · rw [if_neg ht] at h
    simp only [if_true] at h
    refine ⟨ht, ?_⟩
    cases ho : seq_users (rigged_source gen) runs_per_user.toNat users.toNat
        ([], RunDeckManager.start_run (RunDeckManager.new gen prob config seed) start_mode) with
    | error e => rw [ho] at h; cases h
    | ok o =>
      rw [ho] at h
      cases h
      exact ⟨o, rfl, rfl⟩

theorem rigged_inter_ok (gen : Seeder) (fuel : Nat) (users runs_per_user : Int)
    (prob : ProbTable) (config : RunDeckConfig) (start_mode : String) (seed : Int)
    (out : SimOutput)
    (h : simulate_rigged_cpp gen fuel users runs_per_user prob config start_mode seed false =
      .ok out) :
    ¬ reserve_throws users runs_per_user ∧ 0 ≤ users ∧
      ∃ sh, inter_loop gen runs_per_user fuel (List.replicate users.toNat UserState.init)
          { manager :=
              RunDeckManager.start_run (RunDeckManager.new gen prob config seed) start_mode,
            all_results := [], active := users } = .ok sh ∧
        out = { results := sh.all_results, draws := (RunDeckManager.stats sh.manager).1,
                builds := (RunDeckManager.stats sh.manager).2.1,
                wraps := (RunDeckManager.stats sh.manager).2.2 } := by
  unfold simulate_rigged_cpp at h
  by_cases ht : reserve_throws users runs_per_user
  · rw [if_pos ht] at h
    cases h
  · rw [if_neg ht] at h
    simp only [Bool.false_eq_true, if_false] at h
    by_cases hu : users < 0
    · rw [if_pos hu] at h
      cases h
    · rw [if_neg hu] at h
      refine ⟨ht, by omega, ?_⟩
      cases hl : inter_loop gen runs_per_user fuel (List.replicate users.toNat UserState.init)
          { manager :=
              RunDeckManager.start_run (RunDeckManager.new gen prob config seed) start_mode,
            all_results := [], active := users } with
      | error e => rw [hl] at h; cases h
      | ok sh =>
        rw [hl] at h
        cases h
        exact ⟨sh, rfl, rfl⟩

/-- A sequential driver built on a source: if it returns, it returns one result
per user, in each of which `clicks` is the 32-bit value of
`Σ |streaks| + Σ b_streaks ≤ 5000 * runs_per_user`. -/
theorem seq_driver_results {σ : Type} (src : Source σ) (rpu n : Nat) (s0 : σ)
    (out : List SimResult × σ) (h : seq_users src rpu n ([], s0) = .ok out) :
    out.1.length = n ∧ ∀ r ∈ out.1, SeqResultOk rpu r := by
  obtain ⟨h1, h2⟩ := seq_users_spec src rpu n ([], s0) out h
  refine ⟨by simpa using h1, ?_⟩
  intro r hr
  rcases h2 r hr with hm | hq
  · simp at hm
  · exact hq

theorem fair_results (gen : Seeder) (users runs_per_user : Int) (prob : ProbTable) (seed : Int)
    (out : SimOutput) (h : simulate_fair_cpp gen users runs_per_user prob seed = .ok out) :
    out.results.length = users.toNat ∧
      ∀ r ∈ out.results, SeqResultOk runs_per_user.toNat r := by
  obtain ⟨_, o, ho, e⟩ := fair_ok gen users runs_per_user prob seed out h
  rw [e]
  exact seq_driver_results _ _ _ _ _ ho

theorem fair_spec (gen : Seeder) (users runs_per_user : Int) (prob : ProbTable) (seed : Int)
    (hres : ¬ reserve_throws users runs_per_user) :
    ∃ out, simulate_fair_cpp gen users runs_per_user prob seed = .ok out ∧
      out.results.length = users.toNat ∧
      ∀ r ∈ out.results, SeqResultOk runs_per_user.toNat r := by
  obtain ⟨o, ho⟩ := seq_users_total (fair_source prob) (fair_source_total prob)
    runs_per_user.toNat users.toNat ([], Mt19937.seeded gen seed)
  obtain ⟨h1, h2⟩ := seq_driver_results _ _ _ _ _ ho
  refine ⟨{ results := o.1, draws := 0, builds := 0, wraps := 0 }, ?_, h1, h2⟩
  unfold simulate_fair_cpp
  rw [if_neg hres, ho]

theorem markov_spec (gen : Seeder) (users runs_per_user : Int) (prob : ProbTable) (rho : ℚ)
    (seed : Int) (out : SimOutput)
    (h : simulate_markov_cpp gen users runs_per_user prob rho seed = .ok out) :
    out.results.length = users.toNat ∧
      ∀ r ∈ out.results, SeqResultOk runs_per_user.toNat r := by
  obtain ⟨_, o, ho, e⟩ := markov_ok gen users runs_per_user prob rho seed out h
  rw [e]
  exact seq_driver_results _ _ _ _ _ ho

theorem markov_total (gen : Seeder) (users runs_per_user : Int) (prob : ProbTable) (rho : ℚ)
    (seed : Int) (hp : ∀ level : Int, 12 ≤ level → level < 22 → prob level ≠ none)
    (hres : ¬ reserve_throws users runs_per_user) :
    ∃ out, simulate_markov_cpp gen users runs_per_user prob rho seed = .ok out := by
  obtain ⟨o, ho⟩ := seq_users_total (markov_source rho prob) (markov_source_total rho prob hp)
    runs_per_user.toNat users.toNat ([], Mt19937.seeded gen seed)
  unfold simulate_markov_cpp
  rw [if_neg hres, ho]
  exact ⟨_, rfl⟩

theorem rigged_seq_results (gen : Seeder) (fuel : Nat) (users runs_per_user : Int)
    (prob : ProbTable) (config : RunDeckConfig) (start_mode : String) (seed : Int)
    (out : SimOutput)
    (h : simulate_rigged_cpp gen fuel users runs_per_user prob config start_mode seed true =
      .ok out) :
    out.results.length = users.toNat ∧
      ∀ r ∈ out.results, SeqResultOk runs_per_user.toNat r := by
  obtain ⟨_, o, ho, e⟩ := rigged_seq_ok gen fuel users runs_per_user prob config start_mode
    seed out h
  rw [e]
  exact seq_driver_results _ _ _ _ _ ho

theorem rigged_seq_spec (gen : Seeder) (fuel : Nat) (users runs_per_user : Int)
    (prob : ProbTable) (config : RunDeckConfig) (start_mode : String) (seed : Int)
    (hres : ¬ reserve_throws users runs_per_user) :
    ∃ out, simulate_rigged_cpp gen fuel users runs_per_user prob config start_mode seed true =
        .ok out ∧
      out.results.length = users.toNat ∧
      ∀ r ∈ out.results, SeqResultOk runs_per_user.toNat r := by
  obtain ⟨o, ho⟩ := seq_users_total (rigged_source gen) (rigged_source_total gen)
    runs_per_user.toNat users.toNat
    ([], RunDeckManager.start_run (RunDeckManager.new gen prob config seed) start_mode)
  obtain ⟨h1, h2⟩ := seq_driver_results _ _ _ _ _ ho
  refine ⟨{ results := o.1, draws := (RunDeckManager.stats o.2).1,
            builds := (RunDeckManager.stats o.2).2.1, wraps := (RunDeckManager.stats o.2).2.2 },
    ?_, h1, h2⟩
  unfold simulate_rigged_cpp
  rw [if_neg hres]
  simp only [if_true]
  rw [ho]

theorem user_init_inv (rpu : Int) : UserInv rpu UserState.init := by
  refine ⟨le_refl _, fun h => h, fun _ => ?_⟩
  simp [UserState.init, streak_total]

theorem rigged_inter_results (gen : Seeder) (fuel : Nat) (users runs_per_user : Int)
    (prob : ProbTable) (config : RunDeckConfig) (start_mode : String) (seed : Int)
    (out : SimOutput)
    (h : simulate_rigged_cpp gen fuel users runs_per_user prob config start_mode seed false =
      .ok out) : ∀ r ∈ out.results, ResultOk r := by
  obtain ⟨_, _, sh, hl, e⟩ := rigged_inter_ok gen fuel users runs_per_user prob config
    start_mode seed out h
  rw [e]
  refine inter_loop_results gen runs_per_user fuel _ _ sh ?_ ?_ hl
  · intro u hu
    rw [(List.mem_replicate.1 hu).2]
    exact user_init_inv _
  · intro r hr
    simp at hr

theorem rigged_inter_total (gen : Seeder) (fuel : Nat) (users runs_per_user : Int)
    (prob : ProbTable) (config : RunDeckConfig) (start_mode : String) (seed : Int)
    (hu : 0 ≤ users) (hr : 1 ≤ runs_per_user) (hf : 5000 * runs_per_user ≤ fuel)
    (hres : ¬ reserve_throws users runs_per_user) :
    ∃ out, simulate_rigged_cpp gen fuel users runs_per_user prob config start_mode seed false =
        .ok out ∧ (out.results.length : Int) = users * runs_per_user := by
  have hinit : ∀ u ∈ List.replicate users.toNat UserState.init, UserInv runs_per_user u := by
    intro u hu
    rw [(List.mem_replicate.1 hu).2]
    exact user_init_inv _
  have hact : active_count runs_per_user (List.replicate users.toNat UserState.init) = users := by
    have : user_active runs_per_user UserState.init = 1 := by
      simp only [user_active, UserState.init]
      rw [if_pos (by omega)]
    simp only [active_count, List.map_replicate, List.sum_replicate, this, nsmul_eq_mul, mul_one]
    omega
  have hdone : done_sum (List.replicate users.toNat UserState.init) = 0 := by
    simp [done_sum, UserState.init]
  obtain ⟨sh, e1, e2⟩ := inter_loop_total gen runs_per_user fuel
    (List.replicate users.toNat UserState.init)
    { manager := RunDeckManager.start_run (RunDeckManager.new gen prob config seed) start_mode,
      all_results := [], active := users } hinit (by omega)
    (by
      intro u hu
      rw [(List.mem_replicate.1 hu).2]
      simp only [user_budget, UserState.init]
      rw [if_pos (by omega)]
      omega)
    hact.symm (by simp [hdone])
  refine ⟨{ results := sh.all_results, draws := (RunDeckManager.stats sh.manager).1,
            builds := (RunDeckManager.stats sh.manager).2.1,
            wraps := (RunDeckManager.stats sh.manager).2.2 }, ?_, ?_⟩
  · unfold simulate_rigged_cpp
    rw [if_neg hres]
    simp only [Bool.false_eq_true, if_false]
    rw [if_neg (by omega), e1]
  · simp only [e2, List.length_replicate]
    rw [Int.toNat_of_nonneg hu]

/-! ## Runs in which every click fails -/

theorem trial_loop_all_fail {σ : Type} (src : Source σ)
    (hsrc : ∀ s c p, ∃ s1, src s c p = .ok (F, s1)) (fuel : Nat) (st : SeqState σ)
    (hc : st.curr = 12) (hf : st.clicks_run + fuel = 5000) :
    ∃ st1, trial_loop src fuel st = .ok st1 ∧ st1.clicks_run = 5000 ∧
      st1.res.clicks = st.res.clicks := by
  induction fuel generalizing st with
  | zero =>
    unfold trial_loop
    rw [if_neg (by intro hg; simp at hf; omega)]
    exact ⟨st, rfl, by simpa using hf, rfl⟩
  | succ n ih =>
    unfold trial_loop
    rw [if_pos ⟨by omega, by push_cast at hf; omega⟩]
    obtain ⟨s1, hs1⟩ := hsrc st.src st.curr st.prev_token
    rw [hs1]
    simp only []
    obtain ⟨st1, e1, e2, e3⟩ := ih (seq_click st F s1)
      (by simp [seq_click, next_level, hc])
      (by show st.clicks_run + 1 + (n : Int) = 5000; push_cast at hf; omega)
    exact ⟨st1, e1, e2, e3⟩

/-- When every click fails, each run adds 5000 to the streak total of the record,
and `clicks` is the 32-bit value of that total. -/
theorem seq_runs_all_fail {σ : Type} (src : Source σ)
    (hsrc : ∀ s c p, ∃ s1, src s c p = .ok (F, s1)) (n : Nat) (rs : SimResult × σ)
    (hb : rs.1.clicks = wrap32 rs.1.streak_clicks) :
    ∃ rs1, seq_runs src n rs = .ok rs1 ∧
      rs1.1.streak_clicks = rs.1.streak_clicks + 5000 * n ∧
      rs1.1.clicks = wrap32 rs1.1.streak_clicks := by
  induction n generalizing rs with
  | zero => exact ⟨rs, rfl, by simp, hb⟩
  | succ n ih =>
    obtain ⟨st1, e1, e2, _⟩ := trial_loop_all_fail src hsrc 5000
      { res := rs.1, curr := 12, clicks_run := 0, curr_type := -1, curr_len := 0,
        prev_token := -1, src := rs.2 } rfl (by norm_num)
    have hrun : ∃ rs2, seq_run src rs = .ok rs2 := by
      unfold seq_run
      rw [e1]
      exact ⟨_, rfl⟩
    obtain ⟨rs2, hr⟩ := hrun
    obtain ⟨st, f1, _, _, f4, f5⟩ := seq_run_spec src rs rs2 hr
    rw [e1] at f1
    cases f1
    have hb2 : rs2.1.clicks = wrap32 rs2.1.streak_clicks := by
      rw [f5, f4, hb, wrap32_add]
    obtain ⟨rs1, g1, g2, g3⟩ := ih rs2 hb2
    refine ⟨rs1, ?_, ?_, g3⟩
    · unfold seq_runs
      rw [hr]
      exact g1
    · rw [g2, f4, e2]
      push_cast
      ring

theorem fair_source_empty_table (g : Mt19937) (c p : Int) :
    ∃ s1, fair_source (fun _ => none) g c p = .ok (F, s1) := by
  refine ⟨(uniform_real01 g).2, ?_⟩
  unfold fair_source
  simp only [Option.getD_none]
  have h0 := uniform_real01_nonneg g
  have h1 := uniform_real01_lt_one g
  rw [if_neg (not_lt.2 h0), if_pos (by linarith)]

/-- On a table without entries every click of the independent driver fails, so
the record of a single user has a streak total of 5000 per run, and `clicks` is
the 32-bit value of that total. -/
theorem fair_empty_table_record (gen : Seeder) (seed runs_per_user : Int)
    (hres : ¬ reserve_throws 1 runs_per_user) :
    (results_of (simulate_fair_cpp gen 1 runs_per_user (fun _ => none) seed)).map
        (fun r => (r.streak_clicks, r.clicks)) =
      [(5000 * (runs_per_user.toNat : Int), wrap32 (5000 * (runs_per_user.toNat : Int)))] := by
  obtain ⟨rs1, f1, f2, f3⟩ := seq_runs_all_fail (fair_source (fun _ => none))
    fair_source_empty_table runs_per_user.toNat
    ({ streaks := [], b_streaks := [], lvl_stats := lvl_stats_zero, cost := 0, clicks := 0 },
     Mt19937.seeded gen seed) (by simp [SimResult.streak_clicks, streak_total, wrap32])
  have e : simulate_fair_cpp gen 1 runs_per_user (fun _ => none) seed =
      .ok { results := [rs1.1], draws := 0, builds := 0, wraps := 0 } := by
    unfold simulate_fair_cpp
    have h1 : (1 : Int).toNat = 1 := rfl
    rw [if_neg hres, h1, seq_users, f1]
    rfl
  have e0 : SimResult.streak_clicks
      { streaks := [], b_streaks := [], lvl_stats := lvl_stats_zero, cost := 0,
        clicks := 0 } = 0 := by
    simp [SimResult.streak_clicks, streak_total]
  rw [e, results_of_ok]
  simp only [List.map_cons, List.map_nil, f3, f2, e0, zero_add]

/-! ## Claims about the drivers -/

/-- Every result of every driver: `clicks` is the 32-bit value of the streak
total, which is at most `5000 * runs_per_user` for the drivers that keep one
record per user and at most 5000 for the interleaved driver. -/
theorem driver_result_balance (gen : Seeder) (fuel : Nat) (users runs_per_user : Int)
    (prob : ProbTable) (rho : ℚ) (config : RunDeckConfig) (start_mode : String) (seed : Int)
    (sequential : Bool) (r : SimResult)
    (hr : r ∈ results_of (simulate_fair_cpp gen users runs_per_user prob seed) ∨
      r ∈ results_of (simulate_markov_cpp gen users runs_per_user prob rho seed) ∨
      r ∈ results_of
        (simulate_rigged_cpp gen fuel users runs_per_user prob config start_mode seed sequential)) :
    r.clicks = wrap32 r.streak_clicks ∧ 0 ≤ r.streak_clicks ∧
      (r.streak_clicks ≤ 5000 * (runs_per_user.toNat : Int) ∨ r.streak_clicks ≤ 5000) := by
  have hseq : SeqResultOk runs_per_user.toNat r →
      r.clicks = wrap32 r.streak_clicks ∧ 0 ≤ r.streak_clicks ∧
        (r.streak_clicks ≤ 5000 * (runs_per_user.toNat : Int) ∨ r.streak_clicks ≤ 5000) :=
    fun h => ⟨h.1, h.2.1, Or.inl h.2.2⟩
  rcases hr with h | h | h
  · cases e : simulate_fair_cpp gen users runs_per_user prob seed with
    | error f => rw [e] at h; simp [results_of] at h
    | ok out =>
      rw [e] at h
      exact hseq ((fair_results gen users runs_per_user prob seed out e).2 r h)
  · cases e : simulate_markov_cpp gen users runs_per_user prob rho seed with
    | error f => rw [e] at h; simp [results_of] at h
    | ok out =>
      rw [e] at h
      exact hseq ((markov_spec gen users runs_per_user prob rho seed out e).2 r h)
  · cases e : simulate_rigged_cpp gen fuel users runs_per_user prob config start_mode seed
        sequential with
    | error f => rw [e] at h; simp [results_of] at h
    | ok out =>
      rw [e] at h
      cases sequential with
      | true =>
        exact hseq ((rigged_seq_results gen fuel users runs_per_user prob config start_mode
          seed out e).2 r h)
      | false =>
        obtain ⟨a1, a2, a3⟩ := rigged_inter_results gen fuel users runs_per_user prob config
          start_mode seed out e r h
        refine ⟨?_, by rw [a1]; exact a2, Or.inr (by rw [a1]; exact a3)⟩
        rw [a1, wrap32_id _ (by omega) (by omega)]

/-- C4 (code defect): the independent driver run for one user with two runs
returns one record, not `1 * 2`: the runs of a user are added up in one record,
while the driver reserves `users * runs_per_user` records and the interleaved
loop pushes one record per trial. -/
theorem result_count_counterexample :
    ((results_of (simulate_fair_cpp (fun _ _ => 0) 1 2 (fun _ => some (1, 0, 0)) 42)).length : Int)
      = 1 ∧
    ¬ (((results_of (simulate_fair_cpp (fun _ _ => 0) 1 2 (fun _ => some (1, 0, 0)) 42)).length
      : Int) = 1 * 2) := by
  decide!

/-- The interleaved driver returns one record per trial, `users * runs_per_user`
in all, when `users ≥ 0`, `runs_per_user ≥ 1`, the reservation does not throw
and the loop is given fuel for `5000 * runs_per_user` passes. -/
theorem interleaved_result_count (gen : Seeder) (fuel : Nat) (users runs_per_user : Int)
    (prob : ProbTable) (config : RunDeckConfig) (start_mode : String) (seed : Int)
    (hu : 0 ≤ users) (hr : 1 ≤ runs_per_user) (hf : 5000 * runs_per_user ≤ fuel)
    (hres : ¬ reserve_throws users runs_per_user) :
    ∃ out, simulate_rigged_cpp gen fuel users runs_per_user prob config start_mode seed false =
        .ok out ∧ (out.results.length : Int) = users * runs_per_user :=
  rigged_inter_total gen fuel users runs_per_user prob config start_mode seed hu hr hf hres

/-! ### The click cap -/

/-- C5 (code defect): the independent driver run for one user with two runs on a
table without entries (every click fails) returns a record with 10000 clicks:
the cap of 5000 holds per run, and the runs of a user are added up in one record. -/
theorem click_cap_counterexample :
    (results_of (simulate_fair_cpp (fun _ _ => 0) 1 2 (fun _ => none) 42)).map
      (fun r => r.clicks) = [10000] := by
  have h := fair_empty_table_record (fun _ _ => 0) 42 2 (by decide)
  have e : (results_of (simulate_fair_cpp (fun _ _ => 0) 1 2 (fun _ => none) 42)).map
      (fun r => r.clicks) =
      ((results_of (simulate_fair_cpp (fun _ _ => 0) 1 2 (fun _ => none) 42)).map
        (fun r => (r.streak_clicks, r.clicks))).map Prod.snd := by
    rw [List.map_map]
    rfl
  rw [e, h]
  decide

/-- Every record of the interleaved driver, which pushes one record per trial,
has `0 ≤ clicks ≤ 5000`. -/
theorem interleaved_clicks_bounded (gen : Seeder) (fuel : Nat) (users runs_per_user : Int)
    (prob : ProbTable) (config : RunDeckConfig) (start_mode : String) (seed : Int)
    (r : SimResult)
    (hr : r ∈ results_of
      (simulate_rigged_cpp gen fuel users runs_per_user prob config start_mode seed false)) :
    0 ≤ r.clicks ∧ r.clicks ≤ 5000 := by
  cases e : simulate_rigged_cpp gen fuel users runs_per_user prob config start_mode seed
      false with
  | error f => rw [e] at hr; simp [results_of] at hr
  | ok out =>
    rw [e] at hr
    exact (rigged_inter_results gen fuel users runs_per_user prob config start_mode seed
      out e r hr).2

/-! ### Termination of the interleaved loop -/

theorem inter_pass_idle (gen : Seeder) (rpu : Int) (us : List UserState) (sh : Shared)
    (h : ∀ u ∈ us, u.runs_done ≥ rpu) : inter_pass gen rpu us sh = (us, sh) := by
  induction us generalizing sh with
  | nil => rfl
  | cons u us ih =>
    have hu : inter_user gen rpu u sh = (u, sh) := by
      unfold inter_user
      rw [if_pos (h u (List.mem_cons_self _ _))]
    unfold inter_pass
    simp only [hu, ih sh (fun v hv => h v (List.mem_cons_of_mem _ hv))]

/-- When no user has a run left to do while `active` is positive, no number of
passes ends the loop `while (active > 0)`. -/
theorem inter_loop_stuck (gen : Seeder) (rpu : Int) (fuel : Nat) (us : List UserState)
    (sh : Shared) (h : ∀ u ∈ us, u.runs_done ≥ rpu) (ha : sh.active > 0) :
    inter_loop gen rpu fuel us sh = .error .out_of_fuel := by
  induction fuel with
  | zero =>
    unfold inter_loop
    rw [if_pos ha]
  | succ n ih =>
    unfold inter_loop
    rw [if_pos ha]
    simp only [inter_pass_idle gen rpu us sh h]
    exact ih

/-- C9 (code defect): with `users = 1`, `runs_per_user = 0` and
`sequential = false` the loop `while (active > 0)` never ends: `active` stays 1
because the only user is skipped in every pass, so for every bound on the
number of passes the run is still inside the loop. -/
theorem interleaved_zero_runs_never_ends (fuel : Nat) :
    simulate_rigged_cpp (fun _ _ => 0) fuel 1 0 (fun _ => some (1 / 2, 1 / 4, 1 / 4)) {}
      "carry" 42 false = .error .out_of_fuel := by
  unfold simulate_rigged_cpp
  rw [if_neg (by decide)]
  simp only [Bool.false_eq_true, if_false]
  rw [if_neg (by decide), inter_loop_stuck _ _ _ _ _ (by
    intro u hu
    rw [(List.mem_replicate.1 hu).2]
    exact le_refl _) (by decide)]

/-! ## The cost table -/

/-- C16: `get_cost_200` returns the reference cost for each level `12..21` and 0
for every other level. -/
theorem get_cost_200_table (level : Int) (h : level < 12 ∨ 21 < level) :
    get_cost_200 12 = 34300000 ∧ get_cost_200 13 = 55000000 ∧ get_cost_200 14 = 95000000 ∧
      get_cost_200 15 = 72400000 ∧ get_cost_200 16 = 100000000 ∧
      get_cost_200 17 = 130400000 ∧ get_cost_200 18 = 324700000 ∧
      get_cost_200 19 = 584300000 ∧ get_cost_200 20 = 148000000 ∧
      get_cost_200 21 = 272200000 ∧ get_cost_200 level = 0 := by
  refine ⟨rfl, rfl, rfl, rfl, rfl, rfl, rfl, rfl, rfl, rfl, ?_⟩
  unfold get_cost_200
  repeat' split
  all_goals first | rfl | omega

/-- Witness of C16 at level 22. -/
theorem get_cost_200_table_witness :
    get_cost_200 12 = 34300000 ∧ get_cost_200 13 = 55000000 ∧ get_cost_200 14 = 95000000 ∧
      get_cost_200 15 = 72400000 ∧ get_cost_200 16 = 100000000 ∧
      get_cost_200 17 = 130400000 ∧ get_cost_200 18 = 324700000 ∧
      get_cost_200 19 = 584300000 ∧ get_cost_200 20 = 148000000 ∧
      get_cost_200 21 = 272200000 ∧ get_cost_200 22 = 0 :=
  get_cost_200_table 22 (Or.inr (by decide))

/-! ## The Fail row of the Markov matrix -/

/-- For a valid triple and `0 ≤ rho ≤ 1` the rows of the matrix are the blend of
the identity and the stationary triple, with the weight of the Fail row capped. -/
theorem markov_row_eq (rho a b c : ℚ) (i : Nat) (ha : 0 ≤ a) (hb : 0 ≤ b) (hc : 0 ≤ c)
    (hsum : a + b + c = 1) (hr0 : 0 ≤ rho) (hr1 : rho ≤ 1) (hi : i < 3) :
    markov_row rho [a, b, c] i =
      [(1 - (if i = 1 ∧ rho > 4 / 5 then (4 / 5 : ℚ) else rho)) * a +
          (if i = 1 ∧ rho > 4 / 5 then (4 / 5 : ℚ) else rho) * (if i = 0 then 1 else 0),
       (1 - (if i = 1 ∧ rho > 4 / 5 then (4 / 5 : ℚ) else rho)) * b +
          (if i = 1 ∧ rho > 4 / 5 then (4 / 5 : ℚ) else rho) * (if i = 1 then 1 else 0),
       (1 - (if i = 1 ∧ rho > 4 / 5 then (4 / 5 : ℚ) else rho)) * c +
          (if i = 1 ∧ rho > 4 / 5 then (4 / 5 : ℚ) else rho) * (if i = 2 then 1 else 0)] := by
  unfold markov_row
  simp only []
  generalize hr : (if i = 1 ∧ rho > 4 / 5 then (4 / 5 : ℚ) else rho) = r
  have hr0' : 0 ≤ r := by rw [← hr]; split_ifs <;> linarith
  have hr1' : r ≤ 1 := by rw [← hr]; split_ifs <;> linarith
  have e : ∀ (x δ : ℚ), 0 ≤ x → x ≤ 1 → (δ = 0 ∨ δ = 1) →
      clamp01 ((1 - r) * x + r * δ) = (1 - r) * x + r * δ := by
    intro x δ hx0 hx1 hδ
    apply clamp01_id
    · rcases hδ with h | h <;> rw [h] <;> nlinarith
    · rcases hδ with h | h <;> rw [h] <;> nlinarith
  have hvals : (List.range 3).map
      (fun j => clamp01 ((1 - r) * [a, b, c].getD j 0 + r * (if i = j then 1 else 0))) =
      [(1 - r) * a + r * (if i = 0 then 1 else 0), (1 - r) * b + r * (if i = 1 then 1 else 0),
       (1 - r) * c + r * (if i = 2 then 1 else 0)] := by
    simp only [List.range, List.range.loop, List.map_cons, List.map_nil, List.getD_cons_zero,
      List.getD_cons_succ]
    rw [e a _ ha (by linarith) (by split_ifs <;> simp),
      e b _ hb (by linarith) (by split_ifs <;> simp),
      e c _ hc (by linarith) (by split_ifs <;> simp)]
  rw [hvals]
  have hs : ([(1 - r) * a + r * (if i = 0 then 1 else 0), (1 - r) * b + r * (if i = 1 then 1 else 0),
       (1 - r) * c + r * (if i = 2 then 1 else 0)] : List ℚ).sum = 1 := by
    have hd : ((if i = 0 then 1 else 0) + (if i = 1 then 1 else 0) + (if i = 2 then 1 else 0) : ℚ)
        = 1 := by
      interval_cases i <;> simp
    simp only [List.sum_cons, List.sum_nil, add_zero]
    have : (1 - r) * a + r * (if i = 0 then 1 else 0) + ((1 - r) * b + r * (if i = 1 then 1 else 0) +
        ((1 - r) * c + r * (if i = 2 then 1 else 0))) =
        (1 - r) * (a + b + c) + r * ((if i = 0 then 1 else 0) + (if i = 1 then 1 else 0) +
          (if i = 2 then 1 else 0)) := by ring
    rw [this, hd, hsum]
    ring
  rw [hs, if_pos (by norm_num)]
  simp

/-- The Fail-to-Fail entry `T[1][1]` of the matrix built for a triple. -/
theorem markov_fail_entry (rho : ℚ) (p : ℚ × ℚ × ℚ) (hs : 0 ≤ p.1) (hb : 0 ≤ p.2.2)
    (hsb : p.1 + p.2.2 ≤ 1) (hr0 : 0 ≤ rho) (hr1 : rho ≤ 1) :
    cellq (markov_matrix rho p) 1 1 =
      (1 - min rho (4 / 5)) * (1 - p.1 - p.2.2) + min rho (4 / 5) := by
  unfold markov_matrix cellq
  simp only [List.range, List.range.loop, List.map_cons, List.map_nil, List.getD_cons_succ,
    List.getD_cons_zero]
  rw [markov_row_eq rho p.1 (1 - p.1 - p.2.2) p.2.2 1 hs (by linarith) hb (by ring) hr0 hr1
    (by norm_num)]
  simp only [List.getD_cons_succ, List.getD_cons_zero, true_and, if_true, mul_one]
  by_cases h : rho > 4 / 5
  · rw [if_pos h, min_eq_right (le_of_lt h)]
  · rw [if_neg h, min_eq_left (not_lt.1 h)]

/-- C11: for a valid triple and `0 ≤ rho ≤ 1` the Fail-to-Fail entry of the
transition matrix is `(1 - min(rho, 0.8)) * p_fail + min(rho, 0.8)`; it is the
same for every `rho ≥ 0.8` and it is below 1 whenever `p_fail < 1`. -/
theorem markov_fail_row_capped (rho rho2 : ℚ) (p : ℚ × ℚ × ℚ) (hs : 0 ≤ p.1) (hb : 0 ≤ p.2.2)
    (hsb : p.1 + p.2.2 ≤ 1) (hr0 : 0 ≤ rho) (hr1 : rho ≤ 1) :
    cellq (markov_matrix rho p) 1 1 =
        (1 - min rho (4 / 5)) * (1 - p.1 - p.2.2) + min rho (4 / 5) ∧
      (4 / 5 ≤ rho → 4 / 5 ≤ rho2 → rho2 ≤ 1 →
        cellq (markov_matrix rho2 p) 1 1 = cellq (markov_matrix rho p) 1 1) ∧
      (1 - p.1 - p.2.2 < 1 → cellq (markov_matrix rho p) 1 1 < 1) := by
  have e1 := markov_fail_entry rho p hs hb hsb hr0 hr1
  refine ⟨e1, ?_, ?_⟩
  · intro h1 h2 h3
    rw [e1, markov_fail_entry rho2 p hs hb hsb (by linarith) h3, min_eq_right h1,
      min_eq_right h2]
  · intro hpf
    rw [e1]
    have hm : min rho (4 / 5) ≤ 4 / 5 := min_le_right _ _
    nlinarith

/-- Witness of C11: the triple `(1/2, 1/4, 1/4)` with `rho = 9/10` and `rho2 = 1`. -/
theorem markov_fail_row_capped_witness :
    cellq (markov_matrix (9 / 10) (1 / 2, 1 / 4, 1 / 4)) 1 1 =
        (1 - min (9 / 10 : ℚ) (4 / 5)) * (1 - 1 / 2 - 1 / 4) + min (9 / 10 : ℚ) (4 / 5) ∧
      cellq (markov_matrix 1 (1 / 2, 1 / 4, 1 / 4)) 1 1 =
        cellq (markov_matrix (9 / 10) (1 / 2, 1 / 4, 1 / 4)) 1 1 ∧
      cellq (markov_matrix (9 / 10) (1 / 2, 1 / 4, 1 / 4)) 1 1 < 1 :=
  ⟨(markov_fail_row_capped (9 / 10) 1 (1 / 2, 1 / 4, 1 / 4) (by norm_num) (by norm_num)
      (by norm_num) (by norm_num) (by norm_num)).1,
   (markov_fail_row_capped (9 / 10) 1 (1 / 2, 1 / 4, 1 / 4) (by norm_num) (by norm_num)
      (by norm_num) (by norm_num) (by norm_num)).2.1 (by norm_num) (by norm_num) (by norm_num),
   (markov_fail_row_capped (9 / 10) 1 (1 / 2, 1 / 4, 1 / 4) (by norm_num) (by norm_num)
      (by norm_num) (by norm_num) (by norm_num)).2.2 (by norm_num)⟩

/-! ## Deck counts derived by the manager -/

/-- The Success count is the rounded product of the chunk size and the clamped
probability `min(0.99, max(0, p_success + bias))`. -/
theorem deck_counts_success (size : Int) (p : ℚ × ℚ × ℚ) (bias : ℚ) :
    (deck_counts size p bias).1 =
      cround ((size : ℚ) * min (99 / 100) (max 0 (p.1 + bias))) := by
  unfold deck_counts
  simp only []
  congr 2
  rcases le_total (p.1 + bias) 0 with h | h
  · rw [max_eq_left h, min_eq_right (by linarith), min_eq_right (by norm_num),
      max_eq_left (by linarith)]
  · rw [max_eq_right h]
    rcases le_total (p.1 + bias) (99 / 100) with h2 | h2
    · rw [min_eq_right h2, max_eq_right h]
    · rw [min_eq_left h2, max_eq_right (by norm_num)]

/-- From chunk size 51 on, the Success count is strictly below the chunk size. -/
theorem deck_counts_success_lt (size : Int) (p : ℚ × ℚ × ℚ) (bias : ℚ) (hn : 51 ≤ size) :
    (deck_counts size p bias).1 < size := by
  rw [deck_counts_success]
  have hq : (51 : ℚ) ≤ (size : ℚ) := by exact_mod_cast hn
  have hm : min (99 / 100 : ℚ) (max 0 (p.1 + bias)) ≤ 99 / 100 := min_le_left _ _
  have hm0 : 0 ≤ min (99 / 100 : ℚ) (max 0 (p.1 + bias)) := le_min (by norm_num) (le_max_left _ _)
  unfold cround
  rw [if_pos (by positivity)]
  rw [Int.floor_lt]
  nlinarith

/-- C13 (code defect): with chunk size 10 and the triple `(1, 0, 0)` the clamped
probability is 0.99 and the Success count is `round(9.9) = 10`, the whole
chunk: the deck that `get_deck` builds holds ten Success tokens and nothing else. -/
theorem small_chunk_all_success :
    deck_counts 10 (1, 0, 0) 0 = (10, 0, 0) ∧
      (RunDeckManager.get_deck (fun _ _ => 0)
          (RunDeckManager.new (fun _ _ => 0) (fun _ => some (1, 0, 0)) { chunk_size := 10 } 42)
          12).1.map (fun d => expand d.sequence) = some (List.replicate 10 S) := by
  decide!

/-! ## `RunDeckManager::get_deck` -/

theorem decks_find_set_self (level : Int) (d : RunDeck) (l : List (Int × RunDeck)) :
    decks_find level (decks_set level d l) = some d := by
  induction l with
  | nil => simp [decks_set, decks_find]
  | cons kv rest ih =>
    obtain ⟨k, v⟩ := kv
    unfold decks_set
    split_ifs with h1 h2
    · simp [decks_find]
    · simp [decks_find]
    · unfold decks_find
      rw [if_neg h1]
      exact ih

theorem decks_find_set_ne (level other : Int) (d : RunDeck) (l : List (Int × RunDeck))
    (h : other ≠ level) : decks_find other (decks_set level d l) = decks_find other l := by
  induction l with
  | nil => simp [decks_set, decks_find, h]
  | cons kv rest ih =>
    obtain ⟨k, v⟩ := kv
    unfold decks_set
    split_ifs with h1 h2
    · subst h1
      simp [decks_find, h]
    · simp only [decks_find, if_neg h]
    · by_cases hk : other = k
      · simp [decks_find, hk]
      · simp only [decks_find, if_neg hk]
        exact ih

/-- The three cases of `get_deck`: the deck exists, the level is unknown, or the
deck is built and stored. -/
theorem get_deck_cases (gen : Seeder) (m : RunDeckManager) (level : Int) :
    (∃ d, decks_find level m.decks = some d ∧
        RunDeckManager.get_deck gen m level = (some d, m)) ∨
      (decks_find level m.decks = none ∧ m.prob level = none ∧
        RunDeckManager.get_deck gen m level = (none, m)) ∨
      (∃ d, decks_find level m.decks = none ∧ m.prob level ≠ none ∧
        (RunDeckManager.get_deck gen m level).1 = some d ∧
        (RunDeckManager.get_deck gen m level).2.decks = decks_set level d m.decks ∧
        (RunDeckManager.get_deck gen m level).2.prob = m.prob ∧
        (RunDeckManager.get_deck gen m level).2.config = m.config ∧
        (RunDeckManager.get_deck gen m level).2.randomize_on_create = m.randomize_on_create) := by
  unfold RunDeckManager.get_deck
  cases h1 : decks_find level m.decks with
  | some d => exact Or.inl ⟨d, rfl, rfl⟩
  | none =>
    cases h2 : m.prob level with
    | none => exact Or.inr (Or.inl ⟨rfl, rfl, rfl⟩)
    | some p => exact Or.inr (Or.inr ⟨_, rfl, by simp, rfl, rfl, rfl, rfl, rfl⟩)

theorem manager_ok_new (gen : Seeder) (p : ProbTable) (c : RunDeckConfig) (seed : Int) :
    ManagerOk (RunDeckManager.new gen p c seed) := by
  intro level h
  exact absurd rfl h

theorem manager_ok_get_deck (gen : Seeder) (m : RunDeckManager) (level : Int)
    (hm : ManagerOk m) : ManagerOk (RunDeckManager.get_deck gen m level).2 := by
  rcases get_deck_cases gen m level with ⟨d, _, e⟩ | ⟨_, _, e⟩ | ⟨d, h1, h2, _, e2, e3, _⟩
  · rw [e]; exact hm
  · rw [e]; exact hm
  · intro other ho
    rw [e3]
    rw [e2] at ho
    by_cases hk : other = level
    · rw [hk]; exact h2
    · rw [decks_find_set_ne level other d m.decks hk] at ho
      exact hm other ho

/-- C12: on a manager whose decks all belong to levels of the table,
`get_deck(level)` returns no deck if and only if the level is absent from the
table; then the manager is unchanged and `draw(level)` returns the default
token `S`.  For a level of the table a deck is returned, and a second
`get_deck` returns the same deck and leaves the manager as it is. -/
theorem get_deck_lookup (gen : Seeder) (m : RunDeckManager) (level : Int) (hm : ManagerOk m) :
    ((RunDeckManager.get_deck gen m level).1 = none ↔ m.prob level = none) ∧
      (m.prob level = none →
        (RunDeckManager.get_deck gen m level).2 = m ∧
        RunDeckManager.draw gen m level = (S, m)) ∧
      (m.prob level ≠ none →
        ∃ d, (RunDeckManager.get_deck gen m level).1 = some d ∧
          RunDeckManager.get_deck gen (RunDeckManager.get_deck gen m level).2 level =
            (some d, (RunDeckManager.get_deck gen m level).2)) := by
  rcases get_deck_cases gen m level with ⟨d, h1, e⟩ | ⟨h1, h2, e⟩ | ⟨d, h1, h2, e1, e2, _⟩
  · have hp : m.prob level ≠ none := hm level (by rw [h1]; simp)
    refine ⟨?_, fun h => absurd h hp, fun _ => ⟨d, by rw [e], ?_⟩⟩
    · rw [e]
      simp [hp]
    · rw [e, e]
  · refine ⟨?_, fun _ => ⟨by rw [e], ?_⟩, fun h => absurd h2 h⟩
    · rw [e]
      simp [h2]
    · unfold RunDeckManager.draw
      rw [e]
  · refine ⟨?_, fun h => absurd h h2, fun _ => ⟨d, e1, ?_⟩⟩
    · rw [e1]
      simp [h2]
    · have hf : decks_find level (RunDeckManager.get_deck gen m level).2.decks = some d := by
        rw [e2]; exact decks_find_set_self level d m.decks
      rcases get_deck_cases gen (RunDeckManager.get_deck gen m level).2 level with
        ⟨d2, g1, g⟩ | ⟨g1, _, _⟩ | ⟨d2, g1, _⟩
      · rw [hf] at g1
        cases g1
        exact g
      · rw [hf] at g1; cases g1
      · rw [hf] at g1; cases g1

/-- Witness of C12: a fresh manager whose table holds level 12 only. -/
theorem get_deck_lookup_witness :
    ((RunDeckManager.get_deck (fun _ _ => 0) manager_level12 13).1 = none ↔
      manager_level12.prob 13 = none) ∧
    RunDeckManager.draw (fun _ _ => 0) manager_level12 13 = (S, manager_level12) ∧
    ∃ d, (RunDeckManager.get_deck (fun _ _ => 0) manager_level12 12).1 = some d ∧
      RunDeckManager.get_deck (fun _ _ => 0)
        (RunDeckManager.get_deck (fun _ _ => 0) manager_level12 12).2 12 =
        (some d, (RunDeckManager.get_deck (fun _ _ => 0) manager_level12 12).2) :=
  ⟨(get_deck_lookup (fun _ _ => 0) manager_level12 13 (manager_ok_new _ _ _ _)).1,
   ((get_deck_lookup (fun _ _ => 0) manager_level12 13 (manager_ok_new _ _ _ _)).2.1 rfl).2,
   (get_deck_lookup (fun _ _ => 0) manager_level12 12 (manager_ok_new _ _ _ _)).2.2
     (by simp [manager_level12, RunDeckManager.new, table_level12])⟩

/-! ## Negative counts -/

/-- Without segmentation a negative count is built as zero. -/
theorem unsegmented_negative_counts (gen : Seeder) (s f b : Int) (cfg : RunDeckConfig)
    (seed : Int) (hseg : cfg.box_size ≤ 0 ∨ cfg.box_size ≥ s + f + b) :
    type_sum S (RunDeck.new gen s f b cfg seed).sequence = max 0 s ∧
      type_sum F (RunDeck.new gen s f b cfg seed).sequence = max 0 f ∧
      type_sum B (RunDeck.new gen s f b cfg seed).sequence = max 0 b := by
  rw [(new_fields gen s f b cfg seed).1, build_sequence_unsegmented cfg s f b _ hseg]
  exact build_block_type_sum cfg s f b _

/-- C15 (code defect): for `s = 1`, `f = -1`, `b = 3` and `box_size = 1` the build
is segmented (`1 < s + f + b = 3`), `_alloc_block_counts(1, 1, -1, 3)` returns
`(0, 1, 0)` and the deck holds a Fail run: the Fail lengths sum to 1, not to
`max(0, -1) = 0`, and the Boom lengths to 3 only after five tokens in all.
The manager passes these counts for the triple `(1/3, 0, 1)` and chunk size 3. -/
theorem segmented_negative_count_builds_fail :
    _alloc_block_counts 1 1 (-1) 3 = (0, 1, 0) ∧
      (RunDeck.new (fun _ _ => 0) 1 (-1) 3 { box_size := 1 } 42).sequence =
        [(2, 1), (0, 1), (2, 2), (1, 1)] ∧
      type_sum F (RunDeck.new (fun _ _ => 0) 1 (-1) 3 { box_size := 1 } 42).sequence = 1 ∧
      max 0 (-1 : Int) = 0 ∧
      (RunDeckManager.get_deck (fun _ _ => 0)
          (RunDeckManager.new (fun _ _ => 0) (fun _ => some (1 / 3, 0, 1))
            { chunk_size := 3, box_size := 1 } 42) 12).1.map
        (fun d => (d.s_cnt, d.f_cnt, d.b_cnt, type_sum F d.sequence)) = some (1, -1, 3, 1) := by
  decide!

/-! ## `ClusterDeck` -/

theorem cell_bump (stats : List (List Int)) (i j k c : Nat) :
    cell (bump stats i j) k c =
      if k = i ∧ c = j ∧ i < stats.length ∧ j < (stats.getD i []).length then
        wrap32 (cell stats k c + 1)
      else cell stats k c := by
  unfold cell bump
  simp only [List.getD_eq_getElem?_getD, List.getElem?_modify]
  cases hk : stats[k]? with
  | none =>
    have hlen : stats.length ≤ k := List.getElem?_eq_none_iff.1 hk
    have : ¬ (k = i ∧ c = j ∧ i < stats.length ∧
        j < (Option.getD stats[i]? []).length) := by
      rintro ⟨h1, _, h3, _⟩
      omega
    simp [this]
  | some row =>
    by_cases hki : k = i
    · subst hki
      simp only [hk, Option.map_some', if_true, Option.getD_some, Option.map_eq_map,
        List.getElem?_modify, true_and]
      have hlt : k < stats.length := by
        by_contra hn
        have := List.getElem?_eq_none_iff.2 (not_lt.1 hn)
        rw [hk] at this
        cases this
      cases hc : row[c]? with
      | none =>
        have hlen : row.length ≤ c := List.getElem?_eq_none_iff.1 hc
        have : ¬ (c = j ∧ k < stats.length ∧ j < row.length) := by
          rintro ⟨h1, _, h3⟩
          omega
        simp [this]
      | some x =>
        have hcl : c < row.length := by
          by_contra hn
          have := List.getElem?_eq_none_iff.2 (not_lt.1 hn)
          rw [hc] at this
          cases this
        by_cases hcj : c = j
        · subst hcj
          simp [hlt, hcl]
        · have : j ≠ c := fun h => hcj h.symm
          simp [hcj, this]
    · have : i ≠ k := fun h => hki h.symm
      simp [hk, hki, this]

theorem bump_shape (stats : List (List Int)) (i j : Nat) (h : StatsShape stats) :
    StatsShape (bump stats i j) := by
  obtain ⟨h1, h2⟩ := h
  unfold bump
  refine ⟨by simp [h1], ?_⟩
  intro row hrow
  obtain ⟨n, hn, rfl⟩ := List.getElem_of_mem hrow
  rw [List.getElem_modify]
  have hn' : n < stats.length := by simpa using hn
  split_ifs
  · simp [h2 _ (List.getElem_mem hn')]
  · exact h2 _ (List.getElem_mem hn')

theorem shape_row_length (stats : List (List Int)) (h : StatsShape stats) (i : Nat)
    (hi : i < 10) : i < stats.length ∧ (stats.getD i []).length = 4 := by
  obtain ⟨h1, h2⟩ := h
  have hlt : i < stats.length := by omega
  refine ⟨hlt, ?_⟩
  rw [List.getD_eq_getElem _ _ hlt]
  exact h2 _ (List.getElem_mem hlt)

/-- Effect of the per-level update of one click on every entry of the table: the
attempts and the outcome counter of the row of the level are incremented as
`int`s, every other entry is unchanged. -/
theorem lvl_update_cell_wrap (stats : List (List Int)) (curr token : Int)
    (h : StatsShape stats) (h1 : 12 ≤ curr) (h2 : curr ≤ 21) (k c : Nat) :
    cell (lvl_update stats curr token) k c =
      if k = (curr - 12).toNat ∧ (c = 0 ∨ c = token_col token) then
        wrap32 (cell stats k c + 1)
      else cell stats k c := by
  have hi : (curr - 12).toNat < 10 := by omega
  obtain ⟨s1, s2⟩ := shape_row_length stats h _ hi
  have hs1 := bump_shape stats (curr - 12).toNat 0 h
  obtain ⟨t1, t2⟩ := shape_row_length _ hs1 _ hi
  unfold lvl_update token_col
  simp only []
  rw [if_pos ⟨by omega, by omega⟩]
  by_cases hS : token = S
  · simp only [if_pos hS]
    rw [cell_bump, cell_bump]
    simp only [s1, s2, t1, t2, and_true]
    by_cases hk : k = (curr - 12).toNat <;> by_cases hc0 : c = 0 <;> by_cases hc1 : c = 1 <;>
      simp [hk, hc0, hc1]
  · by_cases hF : token = F
    · simp only [if_neg hS, if_pos hF]
      rw [cell_bump, cell_bump]
      simp only [s1, s2, t1, t2, and_true]
      by_cases hk : k = (curr - 12).toNat <;> by_cases hc0 : c = 0 <;> by_cases hc1 : c = 2 <;>
        simp [hk, hc0, hc1]
    · simp only [if_neg hS, if_neg hF]
      rw [cell_bump, cell_bump]
      simp only [s1, s2, t1, t2, and_true]
      by_cases hk : k = (curr - 12).toNat <;> by_cases hc0 : c = 0 <;> by_cases hc1 : c = 3 <;>
        simp [hk, hc0, hc1]

theorem token_col_range (token : Int) :
    token_col token = 1 ∨ token_col token = 2 ∨ token_col token = 3 := by
  unfold token_col
  split_ifs <;> simp

/-- While the entries of the row of the level are below `INT_MAX`, the per-level
update of one click adds one to the attempts and to the outcome counter. -/
theorem lvl_update_cell (stats : List (List Int)) (curr token : Int) (h : StatsShape stats)
    (h1 : 12 ≤ curr) (h2 : curr ≤ 21) (hn : CellsNonneg stats)
    (hb : ∀ c, c < 4 → cell stats (curr - 12).toNat c < 2147483647) (k c : Nat) :
    cell (lvl_update stats curr token) k c =
      cell stats k c +
        (if k = (curr - 12).toNat ∧ (c = 0 ∨ c = token_col token) then 1 else 0) := by
  rw [lvl_update_cell_wrap stats curr token h h1 h2]
  split_ifs with hc
  · have h0 := hn k c
    have hc4 : c < 4 := by
      rcases hc.2 with e | e
      · omega
      · rcases token_col_range token with t | t | t <;> omega
    have hlt := hb c hc4
    rw [← hc.1] at hlt
    rw [wrap32_id _ (by omega) (by omega)]
  · simp

theorem sum_range_add_ite (n i : Nat) (hi : i < n) (f : Nat → Int) (c : Int) :
    ((List.range n).map (fun k => f k + if k = i then c else 0)).sum =
      ((List.range n).map f).sum + c := by
  induction n with
  | zero => omega
  | succ n ih =>
    rw [List.range_succ, List.map_append, List.map_append, List.sum_append, List.sum_append]
    by_cases hin : i = n
    · subst hin
      have hcongr : (List.range i).map (fun k => f k + if k = i then c else 0) =
          (List.range i).map f := by
        apply List.map_congr_left
        intro k hk
        have : k ≠ i := by
          have := List.mem_range.1 hk
          omega
        simp [this]
      rw [hcongr]
      simp
      ring
    · have hlt : i < n := by omega
      rw [ih hlt]
      have : n ≠ i := fun h => hin h.symm
      simp [this]
      ring

theorem lvl_update_shape (stats : List (List Int)) (curr token : Int) (h : StatsShape stats) :
    StatsShape (lvl_update stats curr token) := by
  unfold lvl_update
  simp only []
  split_ifs
  · exact bump_shape _ _ _ (bump_shape _ _ _ h)
  · exact bump_shape _ _ _ (bump_shape _ _ _ h)
  · exact bump_shape _ _ _ (bump_shape _ _ _ h)
  · exact h

/-- One click at a level `12..21` adds the cost of that level to the weighted
attempts of the table. -/
theorem lvl_update_cost (stats : List (List Int)) (curr token : Int) (h : StatsShape stats)
    (h1 : 12 ≤ curr) (h2 : curr ≤ 21) (hn : CellsNonneg stats)
    (hb : ∀ c, c < 4 → cell stats (curr - 12).toNat c < 2147483647) :
    cost_of_stats (lvl_update stats curr token) = cost_of_stats stats + get_cost_200 curr := by
  unfold cost_of_stats
  have hfun : (fun i : Nat => cell (lvl_update stats curr token) i 0 * get_cost_200 (12 + (i : Int))) =
      fun i : Nat => cell stats i 0 * get_cost_200 (12 + (i : Int)) +
        if i = (curr - 12).toNat then get_cost_200 curr else 0 := by
    funext i
    rw [lvl_update_cell stats curr token h h1 h2 hn hb]
    by_cases hi : i = (curr - 12).toNat
    · have e : (12 : Int) + (i : Int) = curr := by omega
      simp only [hi, true_or, and_self, if_true] at e ⊢
      rw [e]
      ring
    · simp [hi]
  rw [hfun, sum_range_add_ite 10 _ (by omega)]

/-- One click at a level `12..21` adds one attempt to the table. -/
theorem lvl_update_attempts (stats : List (List Int)) (curr token : Int) (h : StatsShape stats)
    (h1 : 12 ≤ curr) (h2 : curr ≤ 21) (hn : CellsNonneg stats)
    (hb : ∀ c, c < 4 → cell stats (curr - 12).toNat c < 2147483647) :
    attempts_sum (lvl_update stats curr token) = attempts_sum stats + 1 := by
  unfold attempts_sum
  have hfun : (fun i : Nat => cell (lvl_update stats curr token) i 0) =
      fun i : Nat => cell stats i 0 + if i = (curr - 12).toNat then 1 else 0 := by
    funext i
    rw [lvl_update_cell stats curr token h h1 h2 hn hb]
    simp
  rw [hfun, sum_range_add_ite 10 _ (by omega)]

/-- One click at a level `12..21` keeps every row balanced: it adds one to the
attempts and one to exactly one of the three outcome counters of the row. -/
theorem lvl_update_balanced (stats : List (List Int)) (curr token : Int) (h : StatsShape stats)
    (h1 : 12 ≤ curr) (h2 : curr ≤ 21) (hn : CellsNonneg stats)
    (hlt : ∀ c, c < 4 → cell stats (curr - 12).toNat c < 2147483647) (hb : RowsBalanced stats) :
    RowsBalanced (lvl_update stats curr token) := by
  intro i hi
  have e := hb i hi
  rw [lvl_update_cell stats curr token h h1 h2 hn hlt,
    lvl_update_cell stats curr token h h1 h2 hn hlt,
    lvl_update_cell stats curr token h h1 h2 hn hlt,
    lvl_update_cell stats curr token h h1 h2 hn hlt]
  by_cases hk : i = (curr - 12).toNat
  · rcases token_col_range token with ht | ht | ht <;> simp [hk, ht] <;> rw [hk] at e <;> omega
  · simp [hk]
    exact e

theorem stats_zero_shape : StatsShape lvl_stats_zero := by
  unfold StatsShape lvl_stats_zero
  decide

theorem stats_zero_cost : cost_of_stats lvl_stats_zero = 0 := by decide

theorem stats_zero_attempts : attempts_sum lvl_stats_zero = 0 := by decide

theorem stats_zero_balanced : RowsBalanced lvl_stats_zero := by
  intro i hi
  interval_cases i <;> decide

theorem stats_zero_nonneg : CellsNonneg lvl_stats_zero := by
  intro i j
  have e : lvl_stats_zero = List.replicate 10 [0, 0, 0, 0] := rfl
  unfold cell
  rw [e, List.getD_eq_getElem?_getD, List.getD_eq_getElem?_getD, List.getElem?_replicate]
  split_ifs
  · rw [Option.getD_some]
    rcases j with _ | _ | _ | _ | j <;> simp
  · simp

theorem stats_zero_ok : StatsOk lvl_stats_zero 0 0 :=
  ⟨stats_zero_shape, stats_zero_nonneg, stats_zero_cost.symm, stats_zero_balanced,
    stats_zero_attempts⟩

theorem sum_range_ten (f : Nat → Int) :
    ((List.range 10).map f).sum =
      f 0 + f 1 + f 2 + f 3 + f 4 + f 5 + f 6 + f 7 + f 8 + f 9 := by
  have e : List.range 10 = [0, 1, 2, 3, 4, 5, 6, 7, 8, 9] := by decide
  rw [e]
  simp only [List.map_cons, List.map_nil, List.sum_cons, List.sum_nil]
  ring

theorem attempts_sum_eq (stats : List (List Int)) :
    attempts_sum stats =
      cell stats 0 0 + cell stats 1 0 + cell stats 2 0 + cell stats 3 0 + cell stats 4 0 +
        cell stats 5 0 + cell stats 6 0 + cell stats 7 0 + cell stats 8 0 + cell stats 9 0 := by
  unfold attempts_sum
  rw [sum_range_ten]

theorem cost_of_stats_eq (stats : List (List Int)) :
    cost_of_stats stats =
      cell stats 0 0 * 34300000 + cell stats 1 0 * 55000000 + cell stats 2 0 * 95000000 +
        cell stats 3 0 * 72400000 + cell stats 4 0 * 100000000 + cell stats 5 0 * 130400000 +
        cell stats 6 0 * 324700000 + cell stats 7 0 * 584300000 + cell stats 8 0 * 148000000 +
        cell stats 9 0 * 272200000 := by
  unfold cost_of_stats
  rw [sum_range_ten]
  rfl

/-- In a table that accounts for `n` clicks no entry of the ten rows exceeds `n`,
and the cost is between 0 and `584300000 * n`. -/
theorem stats_ok_bounds (stats : List (List Int)) (cost n : Int) (h : StatsOk stats cost n) :
    (∀ i c, i < 10 → c < 4 → cell stats i c ≤ n) ∧ 0 ≤ cost ∧ cost ≤ 584300000 * n := by
  obtain ⟨_, hn, hc, hb, ha⟩ := h
  rw [attempts_sum_eq] at ha
  rw [cost_of_stats_eq] at hc
  have n0 := hn 0 0
  have n1 := hn 1 0
  have n2 := hn 2 0
  have n3 := hn 3 0
  have n4 := hn 4 0
  have n5 := hn 5 0
  have n6 := hn 6 0
  have n7 := hn 7 0
  have n8 := hn 8 0
  have n9 := hn 9 0
  refine ⟨?_, by omega, by omega⟩
  intro i c hi hc4
  have hrow := hb i hi
  have c1 := hn i 1
  have c2 := hn i 2
  have c3 := hn i 3
  have hi0 : cell stats i 0 ≤ n := by
    interval_cases i <;> omega
  interval_cases c <;> omega

/-- One click at a level `12..21` on a table that accounts for `n < INT_MAX`
clicks: the updated table accounts for `n + 1` clicks and the cost of the level
more, and the `long long` addition of the cost does not overflow. -/
theorem stats_click (stats : List (List Int)) (cost n : Int) (curr token : Int)
    (h : StatsOk stats cost n) (h1 : 12 ≤ curr) (h2 : curr ≤ 21) (hb : n < 2147483647) :
    StatsOk (lvl_update stats curr token) (cost + get_cost_200 curr) (n + 1) ∧
      wrap64 (cost + get_cost_200 curr) = cost + get_cost_200 curr := by
  obtain ⟨b1, b2, b3⟩ := stats_ok_bounds stats cost n h
  obtain ⟨hs, hn, hc, hbal, ha⟩ := h
  have hi : (curr - 12).toNat < 10 := by omega
  have hlt : ∀ c, c < 4 → cell stats (curr - 12).toNat c < 2147483647 := by
    intro c hc4
    have := b1 _ c hi hc4
    omega
  have hg0 : 0 ≤ get_cost_200 curr ∧ get_cost_200 curr ≤ 584300000 := by
    have e : curr = 12 ∨ curr = 13 ∨ curr = 14 ∨ curr = 15 ∨ curr = 16 ∨ curr = 17 ∨
        curr = 18 ∨ curr = 19 ∨ curr = 20 ∨ curr = 21 := by omega
    rcases e with e | e | e | e | e | e | e | e | e | e <;> rw [e] <;> decide
  refine ⟨⟨lvl_update_shape _ _ _ hs, ?_, ?_, lvl_update_balanced _ _ _ hs h1 h2 hn hlt hbal, ?_⟩,
    wrap64_id _ (by omega) (by omega)⟩
  · intro i j
    rw [lvl_update_cell stats curr token hs h1 h2 hn hlt]
    have := hn i j
    split_ifs <;> omega
  · rw [lvl_update_cost _ _ _ hs h1 h2 hn hlt, hc]
  · rw [lvl_update_attempts _ _ _ hs h1 h2 hn hlt, ha]

/-! ## Level range and per-level table along the trial loops -/

theorem next_level_cases (curr token : Int) (h1 : 12 ≤ curr) (h2 : curr ≤ 21) :
    12 ≤ next_level curr token ∧ next_level curr token ≤ 22 ∧
      next_level curr S = curr + 1 ∧ next_level curr B = 12 ∧ next_level curr F = curr := by
  unfold next_level
  refine ⟨?_, ?_, ?_, ?_, ?_⟩
  · split_ifs <;> omega
  · split_ifs <;> omega
  · simp; omega
  · simp [S, B]
  · simp [S, F, B]

theorem stats_ok_res (r : SimResult) (h : StatsOk r.lvl_stats r.cost r.clicks) : ResStat r :=
  ⟨h.1, h.2.2.1, h.2.2.2.1, h.2.2.2.2⟩

theorem user_click_stat (u : UserState) (token : Int) (h1 : 12 ≤ u.curr) (h2 : u.curr ≤ 21)
    (h0 : 0 ≤ u.clicks) (h3 : u.clicks < 2147483647)
    (h4 : StatsOk u.lvl_stats u.cost u.clicks) :
    (user_click u token).runs_done = u.runs_done ∧
      (user_click u token).curr = next_level u.curr token ∧
      (user_click u token).clicks = u.clicks + 1 ∧
      StatsOk (user_click u token).lvl_stats (user_click u token).cost
        (user_click u token).clicks := by
  obtain ⟨k1, k2⟩ := stats_click _ _ _ u.curr token h4 h1 h2 h3
  have k3 : wrap32 (u.clicks + 1) = u.clicks + 1 := wrap32_id _ (by omega) (by omega)
  unfold user_click
  dsimp only
  rw [k2, k3]
  exact ⟨rfl, rfl, rfl, k1⟩

theorem next_level_le (curr token : Int) : next_level curr token ≤ max (curr + 1) 12 := by
  unfold next_level
  have h1 := le_max_left (curr + 1) 12
  have h2 := le_max_right (curr + 1) 12
  split_ifs <;> omega

theorem user_init_stat (rpu d : Int) : UserStat rpu { UserState.init with runs_done := d } := by
  intro _
  exact ⟨by simp [UserState.init], by simp [UserState.init], by simp [UserState.init],
    by simp [UserState.init], stats_zero_ok, by simp [UserState.init]⟩

theorem user_finish_stat (rpu : Int) (u1 : UserState)
    (h : StatsOk u1.lvl_stats u1.cost u1.clicks) (hc : u1.curr - 12 ≤ u1.clicks)
    (hf : u1.curr ≥ 22 ∨ u1.clicks ≥ 5000) :
    (ResStat (user_finish rpu u1).1 ∧ 10 ≤ (user_finish rpu u1).1.clicks) ∧
      UserStat rpu (user_finish rpu u1).2.1 := by
  unfold user_finish
  dsimp only
  split_ifs with hlt
  · exact ⟨⟨stats_ok_res _ h, by show 10 ≤ u1.clicks; omega⟩, user_init_stat rpu _⟩
  · refine ⟨⟨stats_ok_res _ h, by show 10 ≤ u1.clicks; omega⟩, ?_⟩
    intro h
    exact absurd h hlt

/-- One user's turn keeps the level and table invariant of the user, and a
result it pushes has a table that accounts for its cost and its clicks, which
are at least ten. -/
theorem inter_user_stat (gen : Seeder) (rpu : Int) (u : UserState) (sh : Shared)
    (hu : UserStat rpu u) :
    UserStat rpu (inter_user gen rpu u sh).1 ∧
      ∀ r ∈ (inter_user gen rpu u sh).2.all_results,
        r ∈ sh.all_results ∨ (ResStat r ∧ 10 ≤ r.clicks) := by
  unfold inter_user
  by_cases hdone : u.runs_done ≥ rpu
  · rw [if_pos hdone]
    exact ⟨hu, fun r hr => Or.inl hr⟩
  · rw [if_neg hdone]
    have ha : u.runs_done < rpu := by omega
    obtain ⟨h1, h2, h3, h4, h5, h6⟩ := hu ha
    simp only []
    generalize RunDeckManager.draw gen sh.manager u.curr = d
    obtain ⟨k1, k2, k3, k4⟩ := user_click_stat u d.1 h1 h2 h3 (by omega) h5
    obtain ⟨n1, n2, _⟩ := next_level_cases u.curr d.1 h1 h2
    have n3 := next_level_le u.curr d.1
    have n4 : max (u.curr + 1) 12 = u.curr + 1 := max_eq_left (by omega)
    have k5 : (user_click u d.1).curr - 12 ≤ (user_click u d.1).clicks := by
      rw [k2, k3]
      omega
    split_ifs with hfin
    · obtain ⟨f1, f2⟩ := user_finish_stat rpu (user_click u d.1) k4 k5 hfin
      refine ⟨f2, ?_⟩
      intro r hr
      rcases List.mem_append.1 hr with hr | hr
      · exact Or.inl hr
      · rw [List.mem_singleton.1 hr]
        exact Or.inr f1
    · simp only [not_or, not_le] at hfin
      refine ⟨fun _ => ⟨?_, ?_, ?_, ?_, k4, k5⟩, fun r hr => Or.inl hr⟩
      · show 12 ≤ (user_click u d.1).curr
        rw [k2]; exact n1
      · show (user_click u d.1).curr ≤ 21
        omega
      · show 0 ≤ (user_click u d.1).clicks
        omega
      · show (user_click u d.1).clicks < 5000
        omega

theorem inter_pass_stat (gen : Seeder) (rpu : Int) (us : List UserState) (sh : Shared)
    (h : ∀ u ∈ us, UserStat rpu u) :
    (∀ u ∈ (inter_pass gen rpu us sh).1, UserStat rpu u) ∧
      ∀ r ∈ (inter_pass gen rpu us sh).2.all_results,
        r ∈ sh.all_results ∨ (ResStat r ∧ 10 ≤ r.clicks) := by
  induction us generalizing sh with
  | nil =>
    unfold inter_pass
    exact ⟨h, fun r hr => Or.inl hr⟩
  | cons u us ih =>
    obtain ⟨a1, a2⟩ := inter_user_stat gen rpu u sh (h u (List.mem_cons_self _ _))
    obtain ⟨b1, b2⟩ := ih (inter_user gen rpu u sh).2 (fun v hv => h v (List.mem_cons_of_mem _ hv))
    simp only [inter_pass]
    refine ⟨?_, ?_⟩
    · intro v hv
      rcases List.mem_cons.1 hv with rfl | hv
      · exact a1
      · exact b1 v hv
    · intro r hr
      rcases b2 r hr with hr | hr
      · exact a2 r hr
      · exact Or.inr hr

theorem trial_loop_run_inv {σ : Type} (src : Source σ) (P : SeqState σ → Prop)
    (hP : ∀ st r, P st → st.curr < 22 → st.clicks_run < 5000 →
      src st.src st.curr st.prev_token = .ok r → P (seq_click st r.1 r.2))
    (fuel : Nat) (st st1 : SeqState σ) (h0 : P st) (h : trial_loop src fuel st = .ok st1) :
    P st1 ∧ ¬ (st1.curr < 22 ∧ st1.clicks_run < 5000) := by
  induction fuel generalizing st with
  | zero =>
    unfold trial_loop at h
    split_ifs at h with hg
    cases h
    exact ⟨h0, hg⟩
  | succ n ih =>
    unfold trial_loop at h
    split_ifs at h with hg
    · cases hsrc : src st.src st.curr st.prev_token with
      | error e => rw [hsrc] at h; cases h
      | ok r =>
        rw [hsrc] at h
        exact ih _ (hP st r h0 hg.1 hg.2 hsrc) h
    · cases h
      exact ⟨h0, hg⟩

/-- The runs of one user of a sequential driver over a total source return a
record and a source state, and a property that every run carries from the pair
before it to the pair after it holds of that pair. -/
theorem seq_runs_record {σ : Type} (src : Source σ) (hsrc : SourceTotal src)
    (Q : Nat → SimResult × σ → Prop)
    (hQ : ∀ k rs rs1, Q k rs → seq_run src rs = .ok rs1 → Q (k + 1) rs1)
    (n k : Nat) (rs : SimResult × σ) (h0 : Q k rs) :
    ∃ rs1, seq_runs src n rs = .ok rs1 ∧ Q (k + n) rs1 := by
  induction n generalizing k rs with
  | zero => exact ⟨rs, rfl, h0⟩
  | succ n ih =>
    obtain ⟨rs2, hr⟩ := seq_run_total src hsrc rs
    obtain ⟨rs1, g1, g2⟩ := ih (k + 1) rs2 (hQ k rs rs2 h0 hr)
    refine ⟨rs1, ?_, ?_⟩
    · unfold seq_runs
      rw [hr]
      exact g1
    · have e : k + (n + 1) = k + 1 + n := by omega
      rw [e]
      exact g2

theorem level_rule : LevelRule := fun L h1 h2 => (next_level_cases L S h1 h2).2.2

theorem trial_reach_range {σ : Type} (src : Source σ) (st0 st : SeqState σ)
    (h : TrialReach src st0 st)
    (h0 : 12 ≤ st0.curr ∧ st0.curr ≤ 22 ∧ 0 ≤ st0.clicks_run ∧ st0.clicks_run ≤ 5000) :
    12 ≤ st.curr ∧ st.curr ≤ 22 ∧ 0 ≤ st.clicks_run ∧ st.clicks_run ≤ 5000 := by
  induction h with
  | start => exact h0
  | click st r _ hg _ ih =>
    obtain ⟨a1, a2, a3, a4⟩ := ih
    obtain ⟨n1, n2, _⟩ := next_level_cases st.curr r.1 a1 (by omega)
    unfold seq_click
    dsimp only
    exact ⟨n1, n2, by omega, by omega⟩

theorem trial_step_ok {σ : Type} (src : Source σ) (st : SeqState σ)
    (h : 12 ≤ st.curr ∧ st.curr ≤ 22 ∧ 0 ≤ st.clicks_run ∧ st.clicks_run ≤ 5000) :
    TrialStepOk src st := by
  obtain ⟨a1, a2, a3, a4⟩ := h
  refine ⟨a1, a2, a3, a4, ?_, ?_, ?_⟩
  · intro hg
    refine ⟨by omega, ?_, ?_⟩
    · intro tok s1
      obtain ⟨n1, n2, _⟩ := next_level_cases st.curr tok a1 (by omega)
      unfold seq_click
      dsimp only
      exact ⟨rfl, n1, n2, rfl⟩
    · intro fuel r hr
      conv_lhs => unfold trial_loop
      rw [if_pos hg, hr]
  · constructor
    · intro hn
      by_contra hc
      simp only [not_or] at hc
      exact hn ⟨by omega, by omega⟩
    · intro hc hg
      omega
  · intro hc fuel
    have hn : ¬ (st.curr < 22 ∧ st.clicks_run < 5000) := by
      intro hg
      omega
    cases fuel with
    | zero => unfold trial_loop; rw [if_neg hn]
    | succ n => unfold trial_loop; rw [if_neg hn]

/-- The state a trial loop returns is one of the states the trial passes through. -/
theorem trial_loop_reach {σ : Type} (src : Source σ) (st0 : SeqState σ) (fuel : Nat)
    (st st1 : SeqState σ) (h0 : TrialReach src st0 st) (h : trial_loop src fuel st = .ok st1) :
    TrialReach src st0 st1 := by
  induction fuel generalizing st with
  | zero =>
    unfold trial_loop at h
    split_ifs at h
    cases h
    exact h0
  | succ n ih =>
    unfold trial_loop at h
    split_ifs at h with hg
    · cases hsrc : src st.src st.curr st.prev_token with
      | error e => rw [hsrc] at h; cases h
      | ok r =>
        rw [hsrc] at h
        exact ih _ (TrialReach.click st r h0 hg hsrc) h
    · cases h
      exact h0

theorem inter_reach_inv (gen : Seeder) (rpu : Int) (us0 : List UserState) (sh0 : Shared)
    (us : List UserState) (sh : Shared) (h : InterReach gen rpu us0 sh0 us sh)
    (h0 : ∀ u ∈ us0, UserInv rpu u ∧ UserStat rpu u) :
    ∀ u ∈ us, UserInv rpu u ∧ UserStat rpu u := by
  induction h with
  | start => exact h0
  | pass us sh _ _ ih =>
    intro u hu
    exact ⟨(inter_pass_spec gen rpu us sh (fun v hv => (ih v hv).1)).1 u hu,
      (inter_pass_stat gen rpu us sh (fun v hv => (ih v hv).2)).1 u hu⟩

theorem user_step_ok (gen : Seeder) (rpu : Int) (u : UserState) (h1 : UserInv rpu u)
    (h2 : UserStat rpu u) (ha : u.runs_done < rpu) : UserStepOk gen rpu u := by
  obtain ⟨_, _, h3⟩ := h1
  obtain ⟨c0, c1, _, _⟩ := h3 ha
  obtain ⟨l1, l2, _⟩ := h2 ha
  have hclick : ∀ tok, (user_click u tok).curr = next_level u.curr tok ∧
      12 ≤ (user_click u tok).curr ∧ (user_click u tok).curr ≤ 22 ∧
      (user_click u tok).clicks = u.clicks + 1 := by
    intro tok
    obtain ⟨n1, n2, _⟩ := next_level_cases u.curr tok l1 l2
    unfold user_click
    dsimp only
    exact ⟨rfl, n1, n2, wrap32_id _ (by omega) (by omega)⟩
  refine ⟨l1, l2, c0, c1, hclick, ?_⟩
  intro sh
  obtain ⟨_, k2, k3, k4⟩ := hclick (RunDeckManager.draw gen sh.manager u.curr).1
  unfold inter_user
  rw [if_neg (by omega)]
  simp only []
  generalize user_click u (RunDeckManager.draw gen sh.manager u.curr).1 = c at k2 k3 k4 ⊢
  by_cases hfin : c.curr ≥ 22 ∨ c.clicks ≥ 5000
  · rw [if_pos hfin, if_pos (by omega)]
  · rw [if_neg hfin, if_neg (by omega)]

/-- C17: in every state a sequential trial passes through (for any token source,
so for each of the three drivers) and for every user still in rotation in a
state of the interleaved loop, the level is in `12..21` before a click and in
`12..22` after it; a click maps level `L` in `12..21` to `L + 1` on Success, to 12
on Boom and to `L` on Fail; the trial ends exactly when the level is 22 or 5000
clicks have been made. -/
theorem level_range_and_transition {σ : Type} (src : Source σ) (rs : SimResult × σ)
    (st : SeqState σ) (gen : Seeder) (users rpu : Int) (sh0 sh : Shared)
    (us : List UserState) (u : UserState)
    (hst : TrialReach src
      { res := rs.1, curr := 12, clicks_run := 0, curr_type := -1, curr_len := 0,
        prev_token := -1, src := rs.2 } st)
    (hus : InterReach gen rpu (List.replicate users.toNat UserState.init) sh0 us sh)
    (hu : u ∈ us) (ha : u.runs_done < rpu) :
    LevelRule ∧ TrialStepOk src st ∧ UserStepOk gen rpu u := by
  refine ⟨level_rule, ?_, ?_⟩
  · exact trial_step_ok src st
      (trial_reach_range src _ st hst ⟨by norm_num, by norm_num, by norm_num, by norm_num⟩)
  · have hinv := inter_reach_inv gen rpu _ sh0 us sh hus (by
      intro v hv
      rw [(List.mem_replicate.1 hv).2]
      exact ⟨user_init_inv _, user_init_stat rpu 0⟩) u hu
    exact user_step_ok gen rpu u hinv.1 hinv.2 ha

/-- Witness of C17: the first state of a trial of the independent driver and the
single user of an interleaved run before its first pass. -/
theorem level_range_and_transition_witness :
    TrialReach (fair_source table_level12)
      { res := { streaks := [], b_streaks := [], lvl_stats := lvl_stats_zero, cost := 0,
                 clicks := 0 },
        curr := 12, clicks_run := 0, curr_type := -1, curr_len := 0, prev_token := -1,
        src := Mt19937.seeded (fun _ _ => 0) 7 }
      { res := { streaks := [], b_streaks := [], lvl_stats := lvl_stats_zero, cost := 0,
                 clicks := 0 },
        curr := 12, clicks_run := 0, curr_type := -1, curr_len := 0, prev_token := -1,
        src := Mt19937.seeded (fun _ _ => 0) 7 } ∧
    InterReach (fun _ _ => 0) 1 (List.replicate (1 : Int).toNat UserState.init)
      { manager := manager_level12, all_results := [], active := 1 }
      (List.replicate (1 : Int).toNat UserState.init)
      { manager := manager_level12, all_results := [], active := 1 } ∧
    UserState.init ∈ List.replicate (1 : Int).toNat UserState.init ∧
    UserState.init.runs_done < 1 ∧
    (LevelRule ∧
      TrialStepOk (fair_source table_level12)
        { res := { streaks := [], b_streaks := [], lvl_stats := lvl_stats_zero, cost := 0,
                   clicks := 0 },
          curr := 12, clicks_run := 0, curr_type := -1, curr_len := 0, prev_token := -1,
          src := Mt19937.seeded (fun _ _ => 0) 7 } ∧
      UserStepOk (fun _ _ => 0) 1 UserState.init) :=
  ⟨TrialReach.start, InterReach.start, List.mem_replicate.2 ⟨by decide, rfl⟩, by decide,
   level_range_and_transition (fair_source table_level12)
     ({ streaks := [], b_streaks := [], lvl_stats := lvl_stats_zero, cost := 0, clicks := 0 },
      Mt19937.seeded (fun _ _ => 0) 7) _ (fun _ _ => 0) 1 1
     { manager := manager_level12, all_results := [], active := 1 }
     { manager := manager_level12, all_results := [], active := 1 }
     (List.replicate (1 : Int).toNat UserState.init) UserState.init
     TrialReach.start InterReach.start (List.mem_replicate.2 ⟨by decide, rfl⟩) (by decide)⟩


/-! ## The draws statistic of the manager -/

theorem decks_set_mem (level : Int) (d : RunDeck) (l : List (Int × RunDeck))
    (kv : Int × RunDeck) (h : kv ∈ decks_set level d l) : kv = (level, d) ∨ kv ∈ l := by
  induction l with
  | nil =>
    simp only [decks_set, List.mem_singleton] at h
    exact Or.inl h
  | cons a rest ih =>
    obtain ⟨k, v⟩ := a
    unfold decks_set at h
    split_ifs at h with h1 h2
    · rcases List.mem_cons.1 h with h | h
      · exact Or.inl h
      · exact Or.inr (List.mem_cons_of_mem _ h)
    · rcases List.mem_cons.1 h with h | h
      · exact Or.inl h
      · exact Or.inr h
    · rcases List.mem_cons.1 h with h | h
      · exact Or.inr (h ▸ List.mem_cons_self _ _)
      · rcases ih h with h | h
        · exact Or.inl h
        · exact Or.inr (List.mem_cons_of_mem _ h)

theorem decks_set_sorted (level : Int) (d : RunDeck) (l : List (Int × RunDeck))
    (h : DecksSorted l) : DecksSorted (decks_set level d l) := by
  induction l with
  | nil => simp [decks_set, DecksSorted]
  | cons a rest ih =>
    obtain ⟨k, v⟩ := a
    unfold DecksSorted at h ih ⊢
    rw [List.pairwise_cons] at h
    unfold decks_set
    split_ifs with h1 h2
    · rw [List.pairwise_cons]
      refine ⟨?_, h.2⟩
      intro b hb
      have := h.1 b hb
      simpa [h1] using this
    · rw [List.pairwise_cons]
      refine ⟨?_, List.pairwise_cons.2 h⟩
      intro b hb
      rcases List.mem_cons.1 hb with hb | hb
      · rw [hb]; exact h2
      · have := h.1 b hb
        dsimp only at this ⊢
        omega
    · rw [List.pairwise_cons]
      refine ⟨?_, ih h.2⟩
      intro b hb
      rcases decks_set_mem level d rest b hb with hb | hb
      · rw [hb]
        dsimp only
        omega
      · exact h.1 b hb

theorem decks_find_none (level : Int) (l : List (Int × RunDeck))
    (h : ∀ kv ∈ l, kv.1 ≠ level) : decks_find level l = none := by
  induction l with
  | nil => rfl
  | cons a rest ih =>
    obtain ⟨k, v⟩ := a
    unfold decks_find
    rw [if_neg (fun e => h (k, v) (List.mem_cons_self _ _) e.symm)]
    exact ih (fun kv hkv => h kv (List.mem_cons_of_mem _ hkv))

theorem decks_find_mem (level : Int) (l : List (Int × RunDeck)) (d : RunDeck)
    (h : decks_find level l = some d) : (level, d) ∈ l := by
  induction l with
  | nil => simp [decks_find] at h
  | cons a rest ih =>
    obtain ⟨k, v⟩ := a
    unfold decks_find at h
    split_ifs at h with h1
    · cases h
      rw [h1]
      exact List.mem_cons_self _ _
    · exact List.mem_cons_of_mem _ (ih h)

/-- Storing a deck under a level changes the summed draws by the draws of the
stored deck minus those of the deck it replaces. -/
theorem decks_set_draws (level : Int) (d : RunDeck) (l : List (Int × RunDeck))
    (h : DecksSorted l) :
    draws_sum (decks_set level d l) =
      draws_sum l - (match decks_find level l with
        | some e => e.draws
        | none => 0) + d.draws := by
  induction l with
  | nil => simp [decks_set, decks_find, draws_sum]
  | cons a rest ih =>
    obtain ⟨k, v⟩ := a
    unfold DecksSorted at h ih
    rw [List.pairwise_cons] at h
    unfold decks_set decks_find
    split_ifs with h1 h2
    · simp only [draws_sum, List.map_cons, List.sum_cons]
      omega
    · have hn : decks_find level rest = none := by
        apply decks_find_none
        intro kv hkv
        have := h.1 kv hkv
        dsimp only at this
        omega
      rw [hn]
      simp only [draws_sum, List.map_cons, List.sum_cons]
      omega
    · have := ih h.2
      simp only [draws_sum, List.map_cons, List.sum_cons] at this ⊢
      rw [this]
      omega

theorem jump_random_keeps (d : RunDeck) :
    (RunDeck.jump_random d).sequence = d.sequence ∧ (RunDeck.jump_random d).draws = d.draws := by
  unfold RunDeck.jump_random
  split_ifs
  · exact ⟨rfl, rfl⟩
  · exact ⟨rfl, rfl⟩

theorem wrap_keeps (d : RunDeck) :
    (RunDeck.wrap d).sequence = d.sequence ∧ (RunDeck.wrap d).draws = d.draws := by
  unfold RunDeck.wrap
  split_ifs
  · exact jump_random_keeps _
  · exact ⟨rfl, rfl⟩
  · exact ⟨rfl, rfl⟩

/-- A draw from a non-empty deck adds one to its `draws` and keeps its sequence. -/
theorem draw_counts (d : RunDeck) (h : d.sequence ≠ []) :
    (RunDeck.draw d).2.draws = d.draws + 1 ∧ (RunDeck.draw d).2.sequence = d.sequence := by
  obtain ⟨w1, w2⟩ := wrap_keeps d
  unfold RunDeck.draw
  rw [if_neg h]
  simp only []
  split_ifs
  · exact ⟨by show (RunDeck.wrap d).draws + 1 = d.draws + 1; rw [w2], w1⟩
  · exact ⟨by show (RunDeck.wrap d).draws + 1 = d.draws + 1; rw [w2], w1⟩

theorem new_draws (gen : Seeder) (s f b : Int) (cfg : RunDeckConfig) (seed : Int) :
    (RunDeck.new gen s f b cfg seed).draws = 0 := rfl

theorem get_deck_built (gen : Seeder) (m : RunDeckManager) (level : Int)
    (h1 : decks_find level m.decks = none) :
    (RunDeckManager.get_deck gen m level).1 =
        (RunDeckManager.get_deck gen
          { prob := m.prob, config := m.config, rng := m.rng, decks := [],
            randomize_on_create := m.randomize_on_create } level).1 ∧
      ∀ d, (RunDeckManager.get_deck gen m level).1 = some d →
        d.draws = 0 ∧
        (RunDeckManager.get_deck gen m level).2.decks = decks_set level d m.decks ∧
        (RunDeckManager.get_deck gen m level).2.prob = m.prob ∧
        (RunDeckManager.get_deck gen m level).2.config = m.config := by
  unfold RunDeckManager.get_deck
  rw [h1]
  simp only [decks_find]
  cases h2 : m.prob level with
  | none =>
    refine ⟨rfl, ?_⟩
    intro d hd
    cases hd
  | some p =>
    refine ⟨rfl, ?_⟩
    intro d hd
    simp only [Option.some.injEq] at hd
    subst hd
    refine ⟨?_, rfl, rfl, rfl⟩
    split_ifs
    · rw [(jump_random_keeps _).2]
      rfl
    · rfl

/-- For a level `12..21` of a complete table, `get_deck` returns a non-empty deck
that the manager then holds under that level, and the summed draws are unchanged. -/
theorem get_deck_for_draw (gen : Seeder) (prob : ProbTable) (config : RunDeckConfig)
    (m : RunDeckManager) (level : Int) (hm : ManagerInv prob config m)
    (ht : TableComplete prob) (hd : DecksNonEmpty gen prob config)
    (h1 : 12 ≤ level) (h2 : level ≤ 21) :
    ∃ d, (RunDeckManager.get_deck gen m level).1 = some d ∧ d.sequence ≠ [] ∧
      ManagerInv prob config (RunDeckManager.get_deck gen m level).2 ∧
      decks_find level (RunDeckManager.get_deck gen m level).2.decks = some d ∧
      draws_sum (RunDeckManager.get_deck gen m level).2.decks = draws_sum m.decks := by
  obtain ⟨m1, m2, m3, m4⟩ := hm
  rcases get_deck_cases gen m level with ⟨d, f, e⟩ | ⟨_, f, _⟩ | ⟨d, f, _, e1, _⟩
  · rw [e]
    exact ⟨d, rfl, m4 _ (decks_find_mem level m.decks d f), ⟨m1, m2, m3, m4⟩, f, rfl⟩
  · rw [m1] at f
    exact absurd f (ht level h1 h2)
  · obtain ⟨g1, g2⟩ := get_deck_built gen m level f
    obtain ⟨g3, g4, g5, g6⟩ := g2 d e1
    have hne : d.sequence ≠ [] := by
      rw [g1, m1, m2] at e1
      exact hd m.rng m.randomize_on_create level d h1 h2 e1
    refine ⟨d, e1, hne, ⟨by rw [g5, m1], by rw [g6, m2], ?_, ?_⟩, ?_, ?_⟩
    · rw [g4]
      exact decks_set_sorted level d m.decks m3
    · intro kv hkv
      rw [g4] at hkv
      rcases decks_set_mem level d m.decks kv hkv with h | h
      · rw [h]; exact hne
      · exact m4 kv h
    · rw [g4]
      exact decks_find_set_self level d m.decks
    · rw [g4, decks_set_draws level d m.decks m3, f, g3]
      simp

/-- For a level `12..21` of a complete table with non-empty decks, `manager.draw`
raises the summed draws by exactly one. -/
theorem manager_draw_counts (gen : Seeder) (prob : ProbTable) (config : RunDeckConfig)
    (m : RunDeckManager) (level : Int) (hm : ManagerInv prob config m)
    (ht : TableComplete prob) (hd : DecksNonEmpty gen prob config)
    (h1 : 12 ≤ level) (h2 : level ≤ 21) :
    ManagerInv prob config (RunDeckManager.draw gen m level).2 ∧
      draws_sum (RunDeckManager.draw gen m level).2.decks = draws_sum m.decks + 1 := by
  obtain ⟨d, e1, hne, ⟨n1, n2, n3, n4⟩, hf, hs⟩ :=
    get_deck_for_draw gen prob config m level hm ht hd h1 h2
  obtain ⟨c1, c2⟩ := draw_counts d hne
  unfold RunDeckManager.draw
  simp only []
  generalize RunDeckManager.get_deck gen m level = r at e1 n1 n2 n3 n4 hf hs
  obtain ⟨r1, r2⟩ := r
  simp only [] at e1 n1 n2 n3 n4 hf hs
  subst e1
  simp only []
  refine ⟨⟨n1, n2, decks_set_sorted _ _ _ n3, ?_⟩, ?_⟩
  · intro kv hkv
    rcases decks_set_mem _ _ _ kv hkv with h | h
    · rw [h]
      show (RunDeck.draw d).2.sequence ≠ []
      rw [c2]
      exact hne
    · exact n4 kv h
  · show draws_sum (decks_set level (RunDeck.draw d).2 r2.decks) = draws_sum m.decks + 1
    rw [decks_set_draws _ _ _ n3, hf, c1, hs]
    simp only []
    omega

/-- One run of the sequential deck-backed driver adds as many draws to the
manager as clicks to the streaks of the result. -/
theorem seq_run_draws (gen : Seeder) (prob : ProbTable) (config : RunDeckConfig)
    (ht : TableComplete prob) (hd : DecksNonEmpty gen prob config)
    (rs rs1 : SimResult × RunDeckManager) (h : seq_run (rigged_source gen) rs = .ok rs1)
    (hm : ManagerInv prob config rs.2) :
    ManagerInv prob config rs1.2 ∧
      draws_sum rs1.2.decks - rs1.1.streak_clicks =
        draws_sum rs.2.decks - rs.1.streak_clicks := by
  obtain ⟨st, hl, _, _, hs, _⟩ := seq_run_spec _ rs rs1 h
  have hinv : 12 ≤ st.curr ∧ st.curr ≤ 22 ∧ ManagerInv prob config st.src ∧
      draws_sum st.src.decks = draws_sum rs.2.decks + st.clicks_run := by
    refine (trial_loop_run_inv (rigged_source gen)
      (fun st => 12 ≤ st.curr ∧ st.curr ≤ 22 ∧ ManagerInv prob config st.src ∧
        draws_sum st.src.decks = draws_sum rs.2.decks + st.clicks_run) ?_ 5000 _ st ?_ hl).1
    · intro st r hst hlt _ hsrc
      obtain ⟨a1, a2, a3, a4⟩ := hst
      have hr : r = RunDeckManager.draw gen st.src st.curr := by
        simp only [rigged_source, Except.ok.injEq] at hsrc
        exact hsrc.symm
      obtain ⟨d1, d2⟩ := manager_draw_counts gen prob config st.src st.curr a3 ht hd a1
        (by omega)
      obtain ⟨n1, n2, _⟩ := next_level_cases st.curr r.1 a1 (by omega)
      rw [← hr] at d1 d2
      unfold seq_click
      dsimp only
      exact ⟨n1, n2, d1, by rw [d2, a4]; ring⟩
    · exact ⟨by norm_num, by norm_num, hm, by simp⟩
  obtain ⟨_, _, h3, h4⟩ := hinv
  unfold seq_run at h
  rw [hl] at h
  simp only [] at h
  have e : rs1.2 = st.src := by
    cases h
    rfl
  rw [e, hs, h4]
  exact ⟨h3, by ring⟩

theorem seq_runs_draws (gen : Seeder) (prob : ProbTable) (config : RunDeckConfig)
    (ht : TableComplete prob) (hd : DecksNonEmpty gen prob config) (n : Nat)
    (rs rs1 : SimResult × RunDeckManager) (h : seq_runs (rigged_source gen) n rs = .ok rs1)
    (hm : ManagerInv prob config rs.2) :
    ManagerInv prob config rs1.2 ∧
      draws_sum rs1.2.decks - rs1.1.streak_clicks =
        draws_sum rs.2.decks - rs.1.streak_clicks := by
  induction n generalizing rs with
  | zero =>
    unfold seq_runs at h
    cases h
    exact ⟨hm, rfl⟩
  | succ n ih =>
    unfold seq_runs at h
    cases hr : seq_run (rigged_source gen) rs with
    | error e => rw [hr] at h; cases h
    | ok rs2 =>
      rw [hr] at h
      obtain ⟨a1, a2⟩ := seq_run_draws gen prob config ht hd rs rs2 hr hm
      obtain ⟨b1, b2⟩ := ih rs2 h a1
      exact ⟨b1, by rw [b2, a2]⟩

theorem seq_users_draws (gen : Seeder) (prob : ProbTable) (config : RunDeckConfig)
    (ht : TableComplete prob) (hd : DecksNonEmpty gen prob config) (rpu n : Nat)
    (acc out : List SimResult × RunDeckManager)
    (h : seq_users (rigged_source gen) rpu n acc = .ok out)
    (hm : ManagerInv prob config acc.2) :
    ManagerInv prob config out.2 ∧
      draws_sum out.2.decks - streak_sum out.1 = draws_sum acc.2.decks - streak_sum acc.1 := by
  induction n generalizing acc with
  | zero =>
    unfold seq_users at h
    cases h
    exact ⟨hm, rfl⟩
  | succ n ih =>
    unfold seq_users at h
    cases hr : seq_runs (rigged_source gen) rpu
        ({ streaks := [], b_streaks := [], lvl_stats := lvl_stats_zero, cost := 0, clicks := 0 },
         acc.2) with
    | error e => rw [hr] at h; cases h
    | ok rs =>
      rw [hr] at h
      obtain ⟨a1, a2⟩ := seq_runs_draws gen prob config ht hd rpu _ rs hr hm
      obtain ⟨b1, b2⟩ := ih _ h a1
      refine ⟨b1, ?_⟩
      rw [b2]
      have e0 : SimResult.streak_clicks
          { streaks := [], b_streaks := [], lvl_stats := lvl_stats_zero, cost := 0,
            clicks := 0 } = 0 := by
        simp [SimResult.streak_clicks, streak_total]
      simp only [e0] at a2
      simp only [streak_sum, List.map_append, List.sum_append, List.map_cons, List.map_nil,
        List.sum_cons, List.sum_nil] at a2 ⊢
      omega

theorem user_finish_clicks (rpu : Int) (c : UserState) :
    (user_finish rpu c).1.clicks = c.clicks ∧ act_clicks rpu (user_finish rpu c).2.1 = 0 := by
  unfold user_finish
  dsimp only
  split_ifs with hlt
  · exact ⟨rfl, by simp [act_clicks, UserState.init]⟩
  · refine ⟨rfl, ?_⟩
    unfold act_clicks
    dsimp only
    rw [if_neg hlt]

/-- One user's turn of the interleaved loop adds as many draws to the manager as
clicks to the results and the trials in progress. -/
theorem inter_user_draws (gen : Seeder) (prob : ProbTable) (config : RunDeckConfig)
    (ht : TableComplete prob) (hd : DecksNonEmpty gen prob config) (rpu : Int)
    (u : UserState) (sh : Shared) (hs : UserStat rpu u)
    (hm : ManagerInv prob config sh.manager) :
    ManagerInv prob config (inter_user gen rpu u sh).2.manager ∧
      draws_sum (inter_user gen rpu u sh).2.manager.decks -
          clicks_sum (inter_user gen rpu u sh).2.all_results -
          act_clicks rpu (inter_user gen rpu u sh).1 =
        draws_sum sh.manager.decks - clicks_sum sh.all_results - act_clicks rpu u := by
  unfold inter_user
  by_cases hdone : u.runs_done ≥ rpu
  · rw [if_pos hdone]
    exact ⟨hm, rfl⟩
  · rw [if_neg hdone]
    have ha : u.runs_done < rpu := by omega
    obtain ⟨l1, l2, l3, l4, _⟩ := hs ha
    obtain ⟨d1, d2⟩ := manager_draw_counts gen prob config sh.manager u.curr hm ht hd l1 l2
    have hact : act_clicks rpu u = u.clicks := by
      unfold act_clicks
      rw [if_pos ha]
    simp only []
    generalize RunDeckManager.draw gen sh.manager u.curr = d at d1 d2
    have k1 : (user_click u d.1).runs_done = u.runs_done := rfl
    have k2 : (user_click u d.1).clicks = u.clicks + 1 :=
      wrap32_id _ (by omega) (by omega)
    split_ifs with hfin
    · obtain ⟨f1, f2⟩ := user_finish_clicks rpu (user_click u d.1)
      refine ⟨d1, ?_⟩
      dsimp only
      rw [f2, hact, d2]
      simp only [clicks_sum, List.map_append, List.sum_append, List.map_cons, List.map_nil,
        List.sum_cons, List.sum_nil, f1, k2]
      omega
    · refine ⟨d1, ?_⟩
      have hact1 : act_clicks rpu (user_click u d.1) = u.clicks + 1 := by
        unfold act_clicks
        rw [k1, if_pos ha, k2]
      dsimp only
      rw [hact1, hact, d2]
      omega

theorem inter_pass_draws (gen : Seeder) (prob : ProbTable) (config : RunDeckConfig)
    (ht : TableComplete prob) (hd : DecksNonEmpty gen prob config) (rpu : Int)
    (us : List UserState) (sh : Shared) (hs : ∀ u ∈ us, UserStat rpu u)
    (hm : ManagerInv prob config sh.manager) :
    ManagerInv prob config (inter_pass gen rpu us sh).2.manager ∧
      draws_sum (inter_pass gen rpu us sh).2.manager.decks -
          clicks_sum (inter_pass gen rpu us sh).2.all_results -
          act_sum rpu (inter_pass gen rpu us sh).1 =
        draws_sum sh.manager.decks - clicks_sum sh.all_results - act_sum rpu us := by
  induction us generalizing sh with
  | nil =>
    unfold inter_pass
    exact ⟨hm, rfl⟩
  | cons u us ih =>
    obtain ⟨a1, a2⟩ := inter_user_draws gen prob config ht hd rpu u sh
      (hs u (List.mem_cons_self _ _)) hm
    obtain ⟨b1, b2⟩ := ih (inter_user gen rpu u sh).2
      (fun v hv => hs v (List.mem_cons_of_mem _ hv)) a1
    simp only [inter_pass]
    refine ⟨b1, ?_⟩
    simp only [act_sum, List.map_cons, List.sum_cons] at b2 ⊢
    omega

theorem act_sum_of_inactive (rpu : Int) (us : List UserState)
    (h : active_count rpu us ≤ 0) : act_sum rpu us = 0 := by
  induction us with
  | nil => rfl
  | cons u us ih =>
    simp only [active_count, List.map_cons, List.sum_cons] at h
    have h1 := user_active_nonneg rpu u
    have h2 := active_count_nonneg rpu us
    unfold active_count at h2 ih
    have hu : user_active rpu u = 0 := by omega
    have hact : act_clicks rpu u = 0 := by
      unfold user_active at hu
      unfold act_clicks
      split_ifs at hu ⊢
      · omega
      · rfl
    simp only [act_sum, List.map_cons, List.sum_cons, hact] at ih ⊢
    rw [ih (by omega)]
    rfl

/-- When the interleaved loop ends, the summed draws of the manager are the
summed clicks of the results. -/
theorem inter_loop_draws (gen : Seeder) (prob : ProbTable) (config : RunDeckConfig)
    (ht : TableComplete prob) (hd : DecksNonEmpty gen prob config) (rpu : Int) (fuel : Nat)
    (us : List UserState) (sh sh1 : Shared)
    (h : ∀ u ∈ us, UserInv rpu u ∧ UserStat rpu u)
    (hm : ManagerInv prob config sh.manager)
    (hc : active_count rpu us ≤ max sh.active 0)
    (he : draws_sum sh.manager.decks = clicks_sum sh.all_results + act_sum rpu us)
    (hl : inter_loop gen rpu fuel us sh = .ok sh1) :
    draws_sum sh1.manager.decks = clicks_sum sh1.all_results := by
  have hexit : ¬ sh.active > 0 → draws_sum sh.manager.decks = clicks_sum sh.all_results := by
    intro ha
    have hz : max sh.active 0 = 0 := max_eq_right (by omega)
    rw [he, act_sum_of_inactive rpu us (by omega)]
    ring
  induction fuel generalizing us sh with
  | zero =>
    unfold inter_loop at hl
    split_ifs at hl with ha
    cases hl
    exact hexit ha
  | succ n ih =>
    unfold inter_loop at hl
    split_ifs at hl with ha
    · obtain ⟨b1, _, b3, _⟩ := inter_pass_spec gen rpu us sh (fun v hv => (h v hv).1)
      obtain ⟨c1, _⟩ := inter_pass_stat gen rpu us sh (fun v hv => (h v hv).2)
      obtain ⟨e1, e2⟩ := inter_pass_draws gen prob config ht hd rpu us sh
        (fun v hv => (h v hv).2) hm
      have hmax : max sh.active 0 = sh.active := max_eq_left (by omega)
      have hc1 : active_count rpu (inter_pass gen rpu us sh).1 ≤
          max (inter_pass gen rpu us sh).2.active 0 := by
        have := le_max_left (inter_pass gen rpu us sh).2.active 0
        omega
      have he1 : draws_sum (inter_pass gen rpu us sh).2.manager.decks =
          clicks_sum (inter_pass gen rpu us sh).2.all_results +
            act_sum rpu (inter_pass gen rpu us sh).1 := by
        omega
      refine ih _ _ (fun v hv => ⟨b1 v hv, c1 v hv⟩) e1 hc1 he1 hl ?_
      intro ha1
      have hz : max (inter_pass gen rpu us sh).2.active 0 = 0 := max_eq_right (by omega)
      rw [he1, act_sum_of_inactive rpu _ (by omega)]
      ring
    · cases hl
      exact hexit ha

theorem active_count_le_length (rpu : Int) (us : List UserState) :
    active_count rpu us ≤ us.length := by
  induction us with
  | nil => simp [active_count]
  | cons u us ih =>
    simp only [active_count, List.map_cons, List.sum_cons, List.length_cons] at ih ⊢
    have : user_active rpu u ≤ 1 := by
      unfold user_active
      split_ifs <;> omega
    push_cast
    omega

theorem act_sum_init (rpu : Int) (n : Nat) : act_sum rpu (List.replicate n UserState.init) = 0 := by
  have : act_clicks rpu UserState.init = 0 := by
    unfold act_clicks
    split_ifs <;> rfl
  simp [act_sum, this]

theorem manager_inv_start (gen : Seeder) (prob : ProbTable) (config : RunDeckConfig)
    (start_mode : String) (seed : Int) :
    ManagerInv prob config
        (RunDeckManager.start_run (RunDeckManager.new gen prob config seed) start_mode) ∧
      draws_sum
        (RunDeckManager.start_run (RunDeckManager.new gen prob config seed) start_mode).decks =
        0 := by
  unfold RunDeckManager.start_run RunDeckManager.new
  split_ifs
  · exact ⟨⟨rfl, rfl, by simp [DecksSorted], by simp⟩, by simp [draws_sum]⟩
  · exact ⟨⟨rfl, rfl, by simp [DecksSorted], by simp⟩, by simp [draws_sum]⟩

theorem streak_sum_of_result_ok (rs : List SimResult) (h : ∀ r ∈ rs, ResultOk r) :
    streak_sum rs = clicks_sum rs := by
  induction rs with
  | nil => rfl
  | cons r rs ih =>
    have h1 := (h r (List.mem_cons_self _ _)).1
    have h2 := ih (fun x hx => h x (List.mem_cons_of_mem _ hx))
    simp only [streak_sum, clicks_sum, List.map_cons, List.sum_cons] at h2 ⊢
    rw [h1, h2]

theorem wrap32_range (x : Int) : -2147483648 ≤ wrap32 x ∧ wrap32 x ≤ 2147483647 := by
  unfold wrap32
  omega

/-- When every record of a list has `clicks` equal to the 32-bit value of its
non-negative click total and the totals add up to at most `INT_MAX`, the `clicks`
fields add up to the same number. -/
theorem clicks_sum_of_fit (rs : List SimResult)
    (h : ∀ r ∈ rs, r.clicks = wrap32 r.streak_clicks ∧ 0 ≤ r.streak_clicks)
    (hb : streak_sum rs ≤ 2147483647) : clicks_sum rs = streak_sum rs ∧ 0 ≤ streak_sum rs := by
  induction rs with
  | nil => exact ⟨rfl, le_refl _⟩
  | cons r rs ih =>
    obtain ⟨h1, h2⟩ := h r (List.mem_cons_self _ _)
    have hnn : 0 ≤ streak_sum rs := by
      unfold streak_sum
      apply List.sum_nonneg
      intro x hx
      obtain ⟨y, hy, rfl⟩ := List.mem_map.1 hx
      exact (h y (List.mem_cons_of_mem _ hy)).2
    simp only [streak_sum, clicks_sum, List.map_cons, List.sum_cons] at hb hnn ih ⊢
    obtain ⟨i1, _⟩ := ih (fun x hx => h x (List.mem_cons_of_mem _ hx)) (by omega)
    rw [h1, wrap32_id _ (by omega) (by omega), i1]
    exact ⟨rfl, by omega⟩

/-- If the deck-backed driver returns, over a complete table with non-empty decks,
the draws it reports are the 32-bit value of the clicks its results account for. -/
theorem rigged_draws (gen : Seeder) (fuel : Nat) (users runs_per_user : Int)
    (prob : ProbTable) (config : RunDeckConfig) (start_mode : String) (seed : Int)
    (sequential : Bool) (ht : TableComplete prob) (hd : DecksNonEmpty gen prob config)
    (out : SimOutput)
    (h : simulate_rigged_cpp gen fuel users runs_per_user prob config start_mode seed
      sequential = .ok out) :
    out.draws = wrap32 (streak_sum out.results) := by
  obtain ⟨hm, h0⟩ := manager_inv_start gen prob config start_mode seed
  cases sequential with
  | true =>
    obtain ⟨_, r, e, eo⟩ := rigged_seq_ok gen fuel users runs_per_user prob config start_mode
      seed out h
    obtain ⟨_, a2⟩ := seq_users_draws gen prob config ht hd _ _ _ r e hm
    rw [eo]
    show wrap32 (draws_sum r.2.decks) = wrap32 (streak_sum r.1)
    simp only [streak_sum, List.map_nil, List.sum_nil] at a2 ⊢
    congr 1
    omega
  | false =>
    obtain ⟨_, _, sh, e, eo⟩ := rigged_inter_ok gen fuel users runs_per_user prob config
      start_mode seed out h
    have hok := rigged_inter_results gen fuel users runs_per_user prob config start_mode seed
      out h
    rw [streak_sum_of_result_ok _ hok, eo]
    show wrap32 (draws_sum sh.manager.decks) = wrap32 (clicks_sum sh.all_results)
    congr 1
    refine inter_loop_draws gen prob config ht hd runs_per_user fuel _ _ sh ?_ hm ?_ ?_ e
    · intro u hu
      rw [(List.mem_replicate.1 hu).2]
      exact ⟨user_init_inv _, user_init_stat runs_per_user 0⟩
    · have := active_count_le_length runs_per_user (List.replicate users.toNat UserState.init)
      rw [List.length_replicate] at this
      have hmax := le_max_left users 0
      have hmax0 := le_max_right users 0
      show _ ≤ max users 0
      omega
    · rw [act_sum_init]
      simp only [clicks_sum, List.map_nil, List.sum_nil]
      omega

theorem decks_nonempty_all_success :
    DecksNonEmpty (fun _ _ => 0) table_all_success { chunk_size := 10 } := by
  intro rng roc level d _ _ hget
  unfold RunDeckManager.get_deck at hget
  simp only [decks_find, table_all_success, Option.some.injEq] at hget
  subst hget
  have hseq : ∀ seed : Int,
      (RunDeck.new (fun _ _ => 0) (deck_counts 10 (1, 0, 0) 0).1 (deck_counts 10 (1, 0, 0) 0).2.1
        (deck_counts 10 (1, 0, 0) 0).2.2 { chunk_size := 10 } seed).sequence ≠ [] := by
    intro seed
    have e : RunDeck.new (fun _ _ => 0) (deck_counts 10 (1, 0, 0) 0).1
        (deck_counts 10 (1, 0, 0) 0).2.1 (deck_counts 10 (1, 0, 0) 0).2.2 { chunk_size := 10 }
        seed =
      RunDeck.new (fun _ _ => 0) (deck_counts 10 (1, 0, 0) 0).1
        (deck_counts 10 (1, 0, 0) 0).2.1 (deck_counts 10 (1, 0, 0) 0).2.2 { chunk_size := 10 }
        0 := rfl
    rw [e]
    decide!
  cases roc with
  | true =>
    simp only [if_true]
    rw [(jump_random_keeps _).1]
    exact hseq _
  | false =>
    simp only [Bool.false_eq_true, if_false]
    exact hseq _

/-! ## Draws over the table of sure successes -/

theorem draw_all_success (d : RunDeck) (h : ∀ p ∈ d.sequence, p.1 = S) :
    (RunDeck.draw d).1 = S ∧ ∀ p ∈ (RunDeck.draw d).2.sequence, p.1 = S := by
  by_cases he : d.sequence = []
  · unfold RunDeck.draw
    rw [if_pos he]
    exact ⟨rfl, h⟩
  · obtain ⟨_, c2⟩ := draw_counts d he
    rw [c2]
    refine ⟨?_, h⟩
    obtain ⟨w1, _⟩ := wrap_keeps d
    have htok : ((RunDeck.wrap d).sequence.getD (RunDeck.wrap d).idx (0, 0)).1 = S := by
      rw [w1, List.getD_eq_getElem?_getD]
      cases hg : d.sequence[(RunDeck.wrap d).idx]? with
      | none => rfl
      | some p => exact h p (List.getElem?_mem hg)
    unfold RunDeck.draw
    rw [if_neg he]
    simp only []
    split_ifs
    · exact htok
    · exact htok

theorem built_all_success (rng : Mt19937) (roc : Bool) (level : Int) (d : RunDeck)
    (hget : (RunDeckManager.get_deck (fun _ _ => 0)
      { prob := table_all_success, config := { chunk_size := 10 }, rng := rng, decks := [],
        randomize_on_create := roc } level).1 = some d) :
    ∀ p ∈ d.sequence, p.1 = S := by
  unfold RunDeckManager.get_deck at hget
  simp only [decks_find, table_all_success, Option.some.injEq] at hget
  subst hget
  have hseq : ∀ seed : Int, ∀ p ∈
      (RunDeck.new (fun _ _ => 0) (deck_counts 10 (1, 0, 0) 0).1 (deck_counts 10 (1, 0, 0) 0).2.1
        (deck_counts 10 (1, 0, 0) 0).2.2 { chunk_size := 10 } seed).sequence, p.1 = S := by
    intro seed
    have e : RunDeck.new (fun _ _ => 0) (deck_counts 10 (1, 0, 0) 0).1
        (deck_counts 10 (1, 0, 0) 0).2.1 (deck_counts 10 (1, 0, 0) 0).2.2 { chunk_size := 10 }
        seed =
      RunDeck.new (fun _ _ => 0) (deck_counts 10 (1, 0, 0) 0).1
        (deck_counts 10 (1, 0, 0) 0).2.1 (deck_counts 10 (1, 0, 0) 0).2.2 { chunk_size := 10 }
        0 := rfl
    rw [e]
    decide!
  cases roc with
  | true =>
    simp only [if_true]
    rw [(jump_random_keeps _).1]
    exact hseq _
  | false =>
    simp only [Bool.false_eq_true, if_false]
    exact hseq _

/-- Over the table of sure successes every draw of the manager returns `S`. -/
theorem manager_draw_all_success (m : RunDeckManager) (level : Int) (hm : AllSuccess m) :
    (RunDeckManager.draw (fun _ _ => 0) m level).1 = S ∧
      AllSuccess (RunDeckManager.draw (fun _ _ => 0) m level).2 := by
  obtain ⟨m1, m2, m3⟩ := hm
  have hdeck : ∃ d, (RunDeckManager.get_deck (fun _ _ => 0) m level).1 = some d ∧
      (∀ p ∈ d.sequence, p.1 = S) ∧
      AllSuccess (RunDeckManager.get_deck (fun _ _ => 0) m level).2 := by
    rcases get_deck_cases (fun _ _ => 0) m level with ⟨d, f, e⟩ | ⟨_, f, _⟩ | ⟨d, f, _, e1, e2, e3, e4, _⟩
    · rw [e]
      exact ⟨d, rfl, m3 _ (decks_find_mem level m.decks d f), m1, m2, m3⟩
    · rw [m1] at f
      simp [table_all_success] at f
    · obtain ⟨g1, _⟩ := get_deck_built (fun _ _ => 0) m level f
      have hs : ∀ p ∈ d.sequence, p.1 = S := by
        rw [g1, m1, m2] at e1
        exact built_all_success m.rng m.randomize_on_create level d e1
      refine ⟨d, e1, hs, by rw [e3, m1], by rw [e4, m2], ?_⟩
      intro kv hkv
      rw [e2] at hkv
      rcases decks_set_mem level d m.decks kv hkv with h | h
      · rw [h]; exact hs
      · exact m3 kv h
  obtain ⟨d, e1, hs, n1, n2, n3⟩ := hdeck
  obtain ⟨c1, c2⟩ := draw_all_success d hs
  unfold RunDeckManager.draw
  simp only []
  generalize RunDeckManager.get_deck (fun _ _ => 0) m level = r at e1 n1 n2 n3
  obtain ⟨r1, r2⟩ := r
  simp only [] at e1 n1 n2 n3
  subst e1
  simp only []
  refine ⟨c1, n1, n2, ?_⟩
  intro kv hkv
  rcases decks_set_mem _ _ _ kv hkv with h | h
  · rw [h]
    exact c2
  · exact n3 kv h

/-- One run of the sequential deck-backed driver over the table of sure successes
makes ten clicks. -/
theorem seq_run_all_success (rs rs1 : SimResult × RunDeckManager)
    (h : seq_run (rigged_source (fun _ _ => 0)) rs = .ok rs1) (hm : AllSuccess rs.2) :
    AllSuccess rs1.2 ∧ rs1.1.streak_clicks = rs.1.streak_clicks + 10 ∧
      rs1.1.clicks = wrap32 (rs.1.clicks + 10) := by
  obtain ⟨st, hl, _, _, hs, hc⟩ := seq_run_spec _ rs rs1 h
  obtain ⟨⟨p1, p2, p3⟩, hg⟩ := trial_loop_run_inv (rigged_source (fun _ _ => 0))
    (fun st => AllSuccess st.src ∧ st.curr = 12 + st.clicks_run ∧ st.clicks_run ≤ 10)
    (by
      intro st r ⟨a1, a2, a3⟩ hlt _ hr
      have hr1 : r = RunDeckManager.draw (fun _ _ => 0) st.src st.curr := by
        simp only [rigged_source, Except.ok.injEq] at hr
        exact hr.symm
      obtain ⟨d1, d2⟩ := manager_draw_all_success st.src st.curr a1
      rw [← hr1] at d1 d2
      rw [d1]
      unfold seq_click
      dsimp only
      refine ⟨d2, ?_, by omega⟩
      unfold next_level
      rw [if_pos rfl, if_pos hlt]
      omega)
    5000 _ st ⟨hm, rfl, by norm_num⟩ hl
  have hk : st.clicks_run = 10 := by
    by_contra hne
    exact hg ⟨by omega, by omega⟩
  rw [hk] at hs hc
  refine ⟨?_, hs, hc⟩
  unfold seq_run at h
  rw [hl] at h
  simp only [] at h
  cases h
  exact p1

/-- The record of one user of the sequential deck-backed driver over the table of
sure successes: ten clicks per run, and `clicks` is their 32-bit value. -/
theorem seq_runs_all_success (n : Nat) (m : RunDeckManager) (hm : AllSuccess m) :
    ∃ rs1, seq_runs (rigged_source (fun _ _ => 0)) n
        ({ streaks := [], b_streaks := [], lvl_stats := lvl_stats_zero, cost := 0, clicks := 0 },
         m) = .ok rs1 ∧
      AllSuccess rs1.2 ∧ rs1.1.streak_clicks = 10 * (n : Int) ∧
      rs1.1.clicks = wrap32 (10 * (n : Int)) := by
  obtain ⟨rs1, f1, f2, f3, f4⟩ := seq_runs_record (rigged_source (fun _ _ => 0))
    (rigged_source_total _)
    (fun k rs => AllSuccess rs.2 ∧ rs.1.streak_clicks = 10 * (k : Int) ∧
      rs.1.clicks = wrap32 (10 * (k : Int)))
    (by
      intro k rs rs1 ⟨a1, a2, a3⟩ hr
      obtain ⟨b1, b2, b3⟩ := seq_run_all_success rs rs1 hr a1
      have e : 10 * (k : Int) + 10 = 10 * ((k + 1 : Nat) : Int) := by push_cast; ring
      rw [a2, e] at b2
      rw [a3, wrap32_add, e] at b3
      exact ⟨b1, b2, b3⟩)
    n 0
    ({ streaks := [], b_streaks := [], lvl_stats := lvl_stats_zero, cost := 0, clicks := 0 }, m)
    ⟨hm, by simp [SimResult.streak_clicks, streak_total], rfl⟩
  rw [Nat.zero_add] at f3 f4
  exact ⟨rs1, f1, f2, f3, f4⟩

theorem all_success_start (start_mode : String) (seed : Int) :
    AllSuccess (RunDeckManager.start_run
      (RunDeckManager.new (fun _ _ => 0) table_all_success { chunk_size := 10 } seed)
      start_mode) := by
  unfold RunDeckManager.start_run RunDeckManager.new
  split_ifs
  · exact ⟨rfl, rfl, by simp⟩
  · exact ⟨rfl, rfl, by simp⟩

theorem table_all_success_complete : TableComplete table_all_success :=
  fun _ _ _ => by simp [table_all_success]

/-- The sequential deck-backed driver called for two users over the table of sure
successes returns two records of ten clicks per run, with `clicks` their 32-bit
value, and reports the 32-bit value of all these clicks as draws. -/
theorem rigged_all_success_two_users (fuel : Nat) (runs_per_user : Int) (start_mode : String)
    (seed : Int) (hres : ¬ reserve_throws 2 runs_per_user) :
    ∃ out, simulate_rigged_cpp (fun _ _ => 0) fuel 2 runs_per_user table_all_success
        { chunk_size := 10 } start_mode seed true = .ok out ∧
      out.results.map (fun r => r.clicks) =
        [wrap32 (10 * (runs_per_user.toNat : Int)), wrap32 (10 * (runs_per_user.toNat : Int))] ∧
      out.draws = wrap32 (20 * (runs_per_user.toNat : Int)) := by
  obtain ⟨ra, a1, a2, a3, a4⟩ := seq_runs_all_success runs_per_user.toNat _
    (all_success_start start_mode seed)
  obtain ⟨rb, b1, _, b3, b4⟩ := seq_runs_all_success runs_per_user.toNat ra.2 a2
  have e : simulate_rigged_cpp (fun _ _ => 0) fuel 2 runs_per_user table_all_success
      { chunk_size := 10 } start_mode seed true =
      .ok { results := [ra.1, rb.1], draws := (RunDeckManager.stats rb.2).1,
            builds := (RunDeckManager.stats rb.2).2.1,
            wraps := (RunDeckManager.stats rb.2).2.2 } := by
    unfold simulate_rigged_cpp
    have h2 : (2 : Int).toNat = 2 := rfl
    rw [if_neg hres]
    simp only [if_true]
    rw [h2, seq_users, a1]
    simp only []
    rw [seq_users, b1]
    rfl
  refine ⟨_, e, ?_, ?_⟩
  · simp only [List.map_cons, List.map_nil, a4, b4]
  · rw [rigged_draws (fun _ _ => 0) fuel 2 runs_per_user table_all_success { chunk_size := 10 }
      start_mode seed true table_all_success_complete decks_nonempty_all_success _ e]
    simp only [streak_sum, List.map_cons, List.map_nil, List.sum_cons, List.sum_nil, a3, b3]
    congr 1
    ring

/-! ## The draws statistic -/

/-- C20 (counterexample): the sequential deck-backed driver run for two users with
200000000 runs each over the table that gives every level the triple `(1, 0, 0)`
(every click succeeds, ten clicks per run) returns two records of 2000000000
clicks each, 4000000000 in all, while the `int` total of the draws it reports
holds -294967296. -/
theorem draws_wrap_counterexample :
    TableComplete table_all_success ∧
    DecksNonEmpty (fun _ _ => 0) table_all_success { chunk_size := 10 } ∧
    ∃ out, simulate_rigged_cpp (fun _ _ => 0) 0 2 200000000 table_all_success
        { chunk_size := 10 } "carry" 42 true = .ok out ∧
      out.results.map (fun r => r.clicks) = [2000000000, 2000000000] ∧
      out.draws = -294967296 := by
  obtain ⟨out, e, h1, h2⟩ := rigged_all_success_two_users 0 200000000 "carry" 42 (by decide)
  refine ⟨table_all_success_complete, decks_nonempty_all_success, out, e, ?_, ?_⟩
  · rw [h1]
    decide
  · rw [h2]
    decide

/-- C20 (amended): when the probability table has an entry for every level
`12..21` and every deck built for such a level is non-empty, the draws that
`simulate_rigged_cpp` returns are, in the sequential and in the interleaved
order, the 32-bit value of the number of clicks its results account for, the sum
over the results of `Σ |streaks| + Σ b_streaks`; whenever that number is at most
`INT_MAX = 2147483647` they equal the sum of `clicks` over the results.  The
sequential order returns whenever the reservation of `users * runs_per_user`
records does not throw, the interleaved one then for `users ≥ 0` and
`runs_per_user ≥ 1`. -/
theorem draws_equal_clicks (gen : Seeder) (fuel : Nat) (users runs_per_user : Int)
    (prob : ProbTable) (config : RunDeckConfig) (start_mode : String) (seed : Int)
    (ht : TableComplete prob) (hd : DecksNonEmpty gen prob config) :
    (∀ sequential out,
      simulate_rigged_cpp gen fuel users runs_per_user prob config start_mode seed sequential =
        .ok out →
      out.draws =
          wrap32 (out.results.map
            (fun r => (r.streaks.map (fun x => |x|)).sum + r.b_streaks.sum)).sum ∧
        ((out.results.map
            (fun r => (r.streaks.map (fun x => |x|)).sum + r.b_streaks.sum)).sum ≤ 2147483647 →
          out.draws = (out.results.map (fun r => r.clicks)).sum)) ∧
    (¬ reserve_throws users runs_per_user →
      ∃ out, simulate_rigged_cpp gen fuel users runs_per_user prob config start_mode seed true =
        .ok out) ∧
    (0 ≤ users → 1 ≤ runs_per_user → 5000 * runs_per_user ≤ fuel →
      ¬ reserve_throws users runs_per_user →
      ∃ out, simulate_rigged_cpp gen fuel users runs_per_user prob config start_mode seed false =
        .ok out) := by
  refine ⟨?_, ?_, ?_⟩
  · intro sequential out h
    have hd1 := rigged_draws gen fuel users runs_per_user prob config start_mode seed sequential
      ht hd out h
    have hbal : ∀ r ∈ out.results, r.clicks = wrap32 r.streak_clicks ∧ 0 ≤ r.streak_clicks := by
      intro r hr
      obtain ⟨g1, g2, _⟩ := driver_result_balance gen fuel users runs_per_user prob 0 config
        start_mode seed sequential r (Or.inr (Or.inr (by rw [h]; exact hr)))
      exact ⟨g1, g2⟩
    refine ⟨hd1, ?_⟩
    intro hle
    have hle1 : streak_sum out.results ≤ 2147483647 := hle
    obtain ⟨c1, c2⟩ := clicks_sum_of_fit out.results hbal hle1
    rw [hd1, wrap32_id _ (by omega) hle1]
    exact c1.symm
  · intro hres
    obtain ⟨out, e, _⟩ := rigged_seq_spec gen fuel users runs_per_user prob config start_mode
      seed hres
    exact ⟨out, e⟩
  · intro hu hr hf hres
    obtain ⟨out, e, _⟩ := rigged_inter_total gen fuel users runs_per_user prob config start_mode
      seed hu hr hf hres
    exact ⟨out, e⟩

/-- Witness of C20 (amended): one user with one run over the table that gives
every level the triple `(1, 0, 0)`, with decks of ten tokens. -/
theorem draws_equal_clicks_witness :
    TableComplete table_all_success ∧
    DecksNonEmpty (fun _ _ => 0) table_all_success { chunk_size := 10 } ∧
    ((∀ sequential out,
      simulate_rigged_cpp (fun _ _ => 0) 5000 1 1 table_all_success { chunk_size := 10 }
        "carry" 42 sequential = .ok out →
      out.draws =
          wrap32 (out.results.map
            (fun r => (r.streaks.map (fun x => |x|)).sum + r.b_streaks.sum)).sum ∧
        ((out.results.map
            (fun r => (r.streaks.map (fun x => |x|)).sum + r.b_streaks.sum)).sum ≤ 2147483647 →
          out.draws = (out.results.map (fun r => r.clicks)).sum)) ∧
    (¬ reserve_throws 1 1 →
      ∃ out, simulate_rigged_cpp (fun _ _ => 0) 5000 1 1 table_all_success { chunk_size := 10 }
        "carry" 42 true = .ok out) ∧
    ((0 : Int) ≤ 1 → (1 : Int) ≤ 1 → 5000 * (1 : Int) ≤ (5000 : Nat) →
      ¬ reserve_throws 1 1 →
      ∃ out, simulate_rigged_cpp (fun _ _ => 0) 5000 1 1 table_all_success { chunk_size := 10 }
        "carry" 42 false = .ok out)) :=
  ⟨table_all_success_complete, decks_nonempty_all_success,
   draws_equal_clicks (fun _ _ => 0) 5000 1 1 table_all_success { chunk_size := 10 } "carry" 42
     table_all_success_complete decks_nonempty_all_success⟩

/-! # Run lengths, blocks and table lookups -/

/-! ## `_sample_run_lengths` returns positive lengths that sum to the count -/

/-- On a table without entry for level 12 the first click of a trial fails (the
triple read by `prob[curr]` is zero) and the second click indexes row 1 of the
empty `transitions[12]`. -/
theorem markov_trial_missing_start (rho : ℚ) (prob : ProbTable) (h12 : prob 12 = none)
    (res : SimResult) (g : Mt19937) :
    trial_loop (markov_source rho prob) 5000
      { res := res, curr := 12, clicks_run := 0, curr_type := -1, curr_len := 0,
        prev_token := -1, src := g } = .error .undefined_behaviour := by
  have e1 : markov_source rho prob g 12 (-1) = .ok (F, (uniform_real01 g).2) := by
    have h0 := uniform_real01_nonneg g
    have h1 := uniform_real01_lt_one g
    unfold markov_source
    simp only [h12, Option.getD_none, if_true]
    rw [if_neg (not_lt.2 h0), if_pos (by linarith)]
  have e2 : ∀ g1, markov_source rho prob g1 12 1 = .error .undefined_behaviour := by
    intro g1
    unfold markov_source markov_transitions
    simp [h12]
  have hfuel : (5000 : Nat) = 4998 + 1 + 1 := rfl
  rw [hfuel, trial_loop]
  rw [if_pos ⟨by norm_num, by norm_num⟩]
  simp only []
  rw [e1]
  simp only []
  rw [trial_loop]
  have hc : (seq_click
      ({ res := res, curr := 12, clicks_run := 0, curr_type := -1, curr_len := 0,
         prev_token := -1, src := g } : SeqState Mt19937) F (uniform_real01 g).2).curr = 12 := by
    simp [seq_click, next_level, S, F, B]
  have hp : (seq_click
      ({ res := res, curr := 12, clicks_run := 0, curr_type := -1, curr_len := 0,
         prev_token := -1, src := g } : SeqState Mt19937) F (uniform_real01 g).2).prev_token = 1 := by
    simp [seq_click, type_code, S, F]
  have hk : (seq_click
      ({ res := res, curr := 12, clicks_run := 0, curr_type := -1, curr_len := 0,
         prev_token := -1, src := g } : SeqState Mt19937) F (uniform_real01 g).2).clicks_run = 1 := by
    simp [seq_click]
  rw [if_pos ⟨by rw [hc]; norm_num, by rw [hk]; norm_num⟩, hc, hp, e2]

/-- On a table without entry for level 12 every run of `simulate_markov_cpp` with
at least one user and one run per user, whose reservation does not throw, reads
outside `transitions[12]`. -/
theorem markov_missing_level_fault (gen : Seeder) (users runs_per_user : Int)
    (prob : ProbTable) (rho : ℚ) (seed : Int) (h12 : prob 12 = none) (hu : 1 ≤ users)
    (hr : 1 ≤ runs_per_user) (hres : ¬ reserve_throws users runs_per_user) :
    simulate_markov_cpp gen users runs_per_user prob rho seed = .error .undefined_behaviour := by
  obtain ⟨n, hn⟩ : ∃ n, users.toNat = n + 1 := ⟨users.toNat - 1, by omega⟩
  obtain ⟨m, hm⟩ : ∃ m, runs_per_user.toNat = m + 1 := ⟨runs_per_user.toNat - 1, by omega⟩
  unfold simulate_markov_cpp
  rw [if_neg hres, hn, hm, seq_users, seq_runs, seq_run,
    markov_trial_missing_start rho prob h12]

/-- C27 (code defect): on the table that has an entry for every level except 12,
`transitions[12]` is the empty vector, the lookup `T[prev_token]` after a Fail
has no row to address, and `simulate_markov_cpp` for one user and one run makes
that lookup at its second click, for every `rho` and every random stream.  The
independent driver returns a result on the same input. -/
theorem markov_lookup_out_of_bounds (gen : Seeder) (rho : ℚ) (seed : Int) (g : Mt19937) :
    markov_transitions rho table_without_12 12 = [] ∧
      markov_source rho table_without_12 g 12 1 = .error .undefined_behaviour ∧
      simulate_markov_cpp gen 1 1 table_without_12 rho seed = .error .undefined_behaviour ∧
      ∃ out, simulate_fair_cpp gen 1 1 table_without_12 seed = .ok out := by
  refine ⟨by simp [markov_transitions, table_without_12], ?_, ?_, ?_⟩
  · unfold markov_source markov_transitions
    simp [table_without_12]
  · exact markov_missing_level_fault gen 1 1 table_without_12 rho seed
      (by simp [table_without_12]) (by norm_num) (by norm_num) (by decide)
  · obtain ⟨out, e, _⟩ := fair_spec gen 1 1 table_without_12 seed (by decide)
    exact ⟨out, e⟩

/-! ## `_alloc_block_counts` -/

theorem cround_bounds (x : ℚ) (hx : 0 ≤ x) :
    ((cround x : Int) : ℚ) ≤ x + 1 / 2 ∧ x - 1 / 2 < ((cround x : Int) : ℚ) ∧ 0 ≤ cround x := by
  unfold cround
  rw [if_pos hx]
  refine ⟨Int.floor_le _, ?_, Int.floor_nonneg.2 (by linarith)⟩
  have := Int.lt_floor_add_one (x + 1 / 2)
  linarith

/-- For non-negative remaining counts and `1 ≤ size ≤ rem_s + rem_f + rem_b` the
allocation sums to `size`, the Success and Boom shares are within their
remaining counts, and the Fail share is at most `rem_f` and at least `-1`; it
is non-negative as soon as a Fail token remains. -/
theorem alloc_block_counts_bounds (size rem_s rem_f rem_b : Int) (hs : 0 ≤ rem_s)
    (hf : 0 ≤ rem_f) (hb : 0 ≤ rem_b) (h1 : 1 ≤ size) (h2 : size ≤ rem_s + rem_f + rem_b) :
    (_alloc_block_counts size rem_s rem_f rem_b).1 +
        (_alloc_block_counts size rem_s rem_f rem_b).2.1 +
        (_alloc_block_counts size rem_s rem_f rem_b).2.2 = size ∧
      0 ≤ (_alloc_block_counts size rem_s rem_f rem_b).1 ∧
      (_alloc_block_counts size rem_s rem_f rem_b).1 ≤ rem_s ∧
      0 ≤ (_alloc_block_counts size rem_s rem_f rem_b).2.2 ∧
      (_alloc_block_counts size rem_s rem_f rem_b).2.2 ≤ rem_b ∧
      -1 ≤ (_alloc_block_counts size rem_s rem_f rem_b).2.1 ∧
      (_alloc_block_counts size rem_s rem_f rem_b).2.1 ≤ rem_f ∧
      (1 ≤ rem_f → 0 ≤ (_alloc_block_counts size rem_s rem_f rem_b).2.1) := by
  have htot : (0 : ℚ) < ((rem_s + rem_f + rem_b : Int) : ℚ) := by
    exact_mod_cast (show (0 : Int) < rem_s + rem_f + rem_b by omega)
  have hsq : (0 : ℚ) ≤ (rem_s : ℚ) := by exact_mod_cast hs
  have hfq : (0 : ℚ) ≤ (rem_f : ℚ) := by exact_mod_cast hf
  have hbq : (0 : ℚ) ≤ (rem_b : ℚ) := by exact_mod_cast hb
  have h1q : (1 : ℚ) ≤ (size : ℚ) := by exact_mod_cast h1
  have h2q : (size : ℚ) ≤ ((rem_s + rem_f + rem_b : Int) : ℚ) := by exact_mod_cast h2
  have hsum : ((rem_s + rem_f + rem_b : Int) : ℚ) = (rem_s : ℚ) + rem_f + rem_b := by push_cast; ring
  -- the three exact shares
  have xs0 : (0 : ℚ) ≤ (size : ℚ) * rem_s / ((rem_s + rem_f + rem_b : Int) : ℚ) := by positivity
  have xb0 : (0 : ℚ) ≤ (size : ℚ) * rem_b / ((rem_s + rem_f + rem_b : Int) : ℚ) := by positivity
  have xs1 : (size : ℚ) * rem_s / ((rem_s + rem_f + rem_b : Int) : ℚ) ≤ rem_s := by
    rw [div_le_iff₀ htot]
    nlinarith
  have xb1 : (size : ℚ) * rem_b / ((rem_s + rem_f + rem_b : Int) : ℚ) ≤ rem_b := by
    rw [div_le_iff₀ htot]
    nlinarith
  have xf1 : (size : ℚ) * rem_f / ((rem_s + rem_f + rem_b : Int) : ℚ) ≤ rem_f := by
    rw [div_le_iff₀ htot]
    nlinarith
  have xf0 : (0 : ℚ) ≤ (size : ℚ) * rem_f / ((rem_s + rem_f + rem_b : Int) : ℚ) := by positivity
  have xfpos : 1 ≤ rem_f → (0 : ℚ) < (size : ℚ) * rem_f / ((rem_s + rem_f + rem_b : Int) : ℚ) := by
    intro h
    have : (1 : ℚ) ≤ (rem_f : ℚ) := by exact_mod_cast h
    positivity
  have hshare : (size : ℚ) * rem_s / ((rem_s + rem_f + rem_b : Int) : ℚ) +
      (size : ℚ) * rem_f / ((rem_s + rem_f + rem_b : Int) : ℚ) +
      (size : ℚ) * rem_b / ((rem_s + rem_f + rem_b : Int) : ℚ) = size := by
    rw [← add_div, ← add_div, div_eq_iff (ne_of_gt htot)]
    push_cast
    ring
  obtain ⟨a1, a2, a3⟩ := cround_bounds _ xs0
  obtain ⟨b1, b2, b3⟩ := cround_bounds _ xb0
  generalize hos : cround ((size : ℚ) * rem_s / ((rem_s + rem_f + rem_b : Int) : ℚ)) = os
    at a1 a2 a3
  generalize hob : cround ((size : ℚ) * rem_b / ((rem_s + rem_f + rem_b : Int) : ℚ)) = ob
    at b1 b2 b3
  have os_le : os ≤ rem_s := by
    have : (os : ℚ) < (rem_s : ℚ) + 1 := by linarith
    have : os < rem_s + 1 := by exact_mod_cast this
    omega
  have ob_le : ob ≤ rem_b := by
    have : (ob : ℚ) < (rem_b : ℚ) + 1 := by linarith
    have : ob < rem_b + 1 := by exact_mod_cast this
    omega
  have of_le : size - os - ob ≤ rem_f := by
    have : ((size - os - ob : Int) : ℚ) < (rem_f : ℚ) + 1 := by push_cast; linarith
    have : size - os - ob < rem_f + 1 := by exact_mod_cast this
    omega
  have of_ge : -1 ≤ size - os - ob := by
    have : ((-1 : Int) : ℚ) ≤ ((size - os - ob : Int) : ℚ) := by push_cast; linarith
    exact_mod_cast this
  have of_pos : 1 ≤ rem_f → 0 ≤ size - os - ob := by
    intro h
    have hp := xfpos h
    have : ((-1 : Int) : ℚ) < ((size - os - ob : Int) : ℚ) := by push_cast; linarith
    have : -1 < size - os - ob := by exact_mod_cast this
    omega
  have e : _alloc_block_counts size rem_s rem_f rem_b = (os, size - os - ob, ob) := by
    unfold _alloc_block_counts
    simp only []
    rw [if_neg (by omega), hos, hob, if_neg (by omega), if_neg (by omega), if_neg (by omega)]
  rw [e]
  exact ⟨by ring, a3, os_le, b3, ob_le, of_ge, of_le, of_pos⟩

/-- C25 (code defect): with one Success and one Boom token remaining and no Fail
token, a block of size 1 is allocated `(1, -1, 1)`: both shares `1/2` are rounded
up and the Fail share is the negative remainder.  The same holds for size 3 with
three tokens of each of the two types.  The inputs satisfy `1 ≤ size ≤ total`
with non-negative counts. -/
theorem alloc_block_counts_negative_share :
    _alloc_block_counts 1 1 0 1 = (1, -1, 1) ∧ _alloc_block_counts 3 3 0 3 = (2, -1, 2) ∧
      ((1 : Int) ≤ 1 ∧ (1 : Int) ≤ 1 + 0 + 1) ∧ ((1 : Int) ≤ 3 ∧ (3 : Int) ≤ 3 + 0 + 3) := by
  decide!

/-! ## The counts derived by `get_deck` -/

theorem deck_counts_sum (size : Int) (p : ℚ × ℚ × ℚ) (bias : ℚ) :
    (deck_counts size p bias).1 + (deck_counts size p bias).2.1 + (deck_counts size p bias).2.2 =
      size := by
  unfold deck_counts
  dsimp only
  split_ifs <;> omega

/-- For a valid triple and a chunk size `n ≥ 0` the Success and Boom counts are
non-negative and the Fail count is at least `-1`. -/
theorem deck_counts_bounds (size : Int) (p : ℚ × ℚ × ℚ) (bias : ℚ) (hn : 0 ≤ size)
    (hs : 0 ≤ p.1) (hb : 0 ≤ p.2.2) (hsb : p.1 + p.2.2 ≤ 1) (hbias : bias = 0) :
    0 ≤ (deck_counts size p bias).1 ∧ 0 ≤ (deck_counts size p bias).2.2 ∧
      -1 ≤ (deck_counts size p bias).2.1 := by
  have hsum := deck_counts_sum size p bias
  have hnq : (0 : ℚ) ≤ (size : ℚ) := by exact_mod_cast hn
  have e1 := deck_counts_success size p bias
  have e3 : (deck_counts size p bias).2.2 = cround ((size : ℚ) * p.2.2) := rfl
  subst hbias
  have hm0 : 0 ≤ min (99 / 100 : ℚ) (max 0 (p.1 + 0)) := le_min (by norm_num) (le_max_left _ _)
  have hm1 : min (99 / 100 : ℚ) (max 0 (p.1 + 0)) ≤ p.1 := by
    rw [add_zero, max_eq_right hs]
    exact min_le_right _ _
  obtain ⟨a1, _, a3⟩ := cround_bounds ((size : ℚ) * min (99 / 100) (max 0 (p.1 + 0)))
    (by positivity)
  obtain ⟨b1, _, b3⟩ := cround_bounds ((size : ℚ) * p.2.2) (by positivity)
  rw [← e1] at a1 a3
  rw [← e3] at b1 b3
  refine ⟨a3, b3, ?_⟩
  have hprod : (size : ℚ) * min (99 / 100) (max 0 (p.1 + 0)) + (size : ℚ) * p.2.2 ≤ size := by
    nlinarith
  have : ((-1 : Int) : ℚ) ≤ (((deck_counts size p 0).2.1 : Int) : ℚ) := by
    have hq : (((deck_counts size p 0).2.1 : Int) : ℚ) =
        (size : ℚ) - ((deck_counts size p 0).1 : ℚ) - ((deck_counts size p 0).2.2 : ℚ) := by
      have : (deck_counts size p 0).2.1 =
          size - (deck_counts size p 0).1 - (deck_counts size p 0).2.2 := by omega
      rw [this]
      push_cast
      ring
    rw [hq]
    push_cast
    linarith
  exact_mod_cast this

/-- The total length of a deck built without segmentation is the sum of the
counts, negative counts taken as zero. -/
theorem unsegmented_total_len (gen : Seeder) (s f b : Int) (cfg : RunDeckConfig) (seed : Int)
    (hseg : cfg.box_size ≤ 0 ∨ cfg.box_size ≥ s + f + b) :
    (RunDeck.new gen s f b cfg seed).total_len = max 0 s + max 0 f + max 0 b := by
  obtain ⟨t1, t2, t3⟩ := unsegmented_negative_counts gen s f b cfg seed hseg
  have hb := (new_fields gen s f b cfg seed).2.2.2.2.2.2.2
  rw [hb.2, map_snd_sum_eq _ (new_runs_pos gen s f b cfg seed).2, t1, t2, t3]

/-- C26 (code defect): for the valid triple `(1/2, 0, 1/2)`, bias 0 and chunk size 1
(no segmentation) both `round(0.5)` give 1, so `get_deck` derives the counts
`(1, -1, 1)`: the Fail count is negative, and the deck it builds holds one
Success and one Boom token, total length 2 instead of 1.  With chunk size 3 the
counts are `(2, -1, 2)` and the deck has total length 4. -/
theorem get_deck_negative_fail_count :
    deck_counts 1 (1 / 2, 0, 1 / 2) 0 = (1, -1, 1) ∧
      deck_counts 3 (1 / 2, 0, 1 / 2) 0 = (2, -1, 2) ∧
      (RunDeckManager.get_deck (fun _ _ => 0)
          (RunDeckManager.new (fun _ _ => 0) (fun _ => some (1 / 2, 0, 1 / 2))
            { chunk_size := 1 } 42) 12).1.map
        (fun d => (d.s_cnt, d.f_cnt, d.b_cnt, d.total_len)) = some (1, -1, 1, 2) ∧
      (RunDeckManager.get_deck (fun _ _ => 0)
          (RunDeckManager.new (fun _ _ => 0) (fun _ => some (1 / 2, 0, 1 / 2))
            { chunk_size := 3 } 42) 12).1.map
        (fun d => (d.s_cnt, d.f_cnt, d.b_cnt, d.total_len)) = some (2, -1, 2, 4) := by
  decide!

/-! ## The run-length cap -/

theorem sample_loop_forall (cfg : RunDeckConfig) (mean_len tail_strength : ℚ) (cap : Int)
    (P : Int → Prop)
    (hP : ∀ remaining g, 0 < remaining →
      P (sample_step cfg mean_len tail_strength cap remaining g).1)
    (fuel : Nat) (remaining : Int) (runs : List Int) (g : Mt19937) (hruns : ∀ x ∈ runs, P x) :
    ∀ x ∈ (sample_loop cfg mean_len tail_strength cap fuel remaining runs g).1, P x := by
  induction fuel generalizing remaining runs g with
  | zero => simpa [sample_loop] using hruns
  | succ n ih =>
    unfold sample_loop
    split_ifs with hr
    · apply ih
      intro x hx
      rcases List.mem_append.1 hx with hx | hx
      · exact hruns x hx
      · rw [List.mem_singleton.1 hx]
        exact hP remaining g hr
    · exact hruns

theorem sample_run_lengths_forall (cfg : RunDeckConfig) (count : Int)
    (mean_len tail_strength : ℚ) (cap : Int) (P : Int → Prop)
    (hP : ∀ remaining g, 0 < remaining →
      P (sample_step cfg mean_len tail_strength cap remaining g).1)
    (g : Mt19937) :
    ∀ x ∈ (_sample_run_lengths cfg count mean_len tail_strength cap g).1, P x := by
  unfold _sample_run_lengths
  split_ifs with hc
  · simp
  · intro x hx
    have hp := (shuffle_perm _ _).mem_iff.1 hx
    exact sample_loop_forall cfg mean_len tail_strength cap P hP _ _ [] g (by simp) x hp

/-- The cap is kept whenever the cap of a mixed iteration does not round to zero:
with `cap > 0`, `0 ≤ mix_cap_mult ≤ 1` and `round(cap * mix_cap_mult) ≥ 1` (or
mixing switched off) every returned length is at most `cap`. -/
theorem sample_run_lengths_le_cap (cfg : RunDeckConfig) (count : Int)
    (mean_len tail_strength : ℚ) (cap : Int) (g : Mt19937) (hcap : 0 < cap)
    (hm1 : cfg.mix_cap_mult ≤ 1)
    (hround : cfg.mix_rate ≤ 0 ∨ 1 ≤ cround ((cap : ℚ) * cfg.mix_cap_mult)) :
    ∀ x ∈ (_sample_run_lengths cfg count mean_len tail_strength cap g).1, x ≤ cap := by
  apply sample_run_lengths_forall
  intro remaining g1 _
  have hcq : (0 : ℚ) < (cap : ℚ) := by exact_mod_cast hcap
  have hcu : 0 < cap_used_of cfg cap (use_mix_draw cfg g1).1 ∧
      cap_used_of cfg cap (use_mix_draw cfg g1).1 ≤ cap := by
    unfold cap_used_of
    split_ifs with hc
    · have hmix : ¬ cfg.mix_rate ≤ 0 := by
        intro hle
        have hfalse : (use_mix_draw cfg g1).1 = false := by
          unfold use_mix_draw
          rw [if_neg (not_lt.2 hle)]
        rw [hfalse] at hc
        exact absurd hc.2 (by simp)
      have h1 : 1 ≤ cround ((cap : ℚ) * cfg.mix_cap_mult) := by
        rcases hround with h | h
        · exact absurd h hmix
        · exact h
      refine ⟨by omega, ?_⟩
      have hle : ((cround ((cap : ℚ) * cfg.mix_cap_mult) : Int) : ℚ) < (cap : ℚ) + 1 := by
        unfold cround at h1 ⊢
        split_ifs at h1 ⊢ with hx
        · have := Int.floor_le ((cap : ℚ) * cfg.mix_cap_mult + 1 / 2)
          nlinarith
        · have hneg : (cap : ℚ) * cfg.mix_cap_mult - 1 / 2 ≤ 0 := by linarith
          have : ⌈(cap : ℚ) * cfg.mix_cap_mult - 1 / 2⌉ ≤ 0 := Int.ceil_le.2 (by simpa using hneg)
          omega
      have : cround ((cap : ℚ) * cfg.mix_cap_mult) < cap + 1 := by exact_mod_cast hle
      omega
    · exact ⟨hcap, le_refl _⟩
  unfold sample_step
  simp only []
  generalize cap_used_of cfg cap (use_mix_draw cfg g1).1 = cu at hcu
  generalize sample_len cfg _ _ cu _ = r
  rw [if_pos hcu.1]
  have := min_le_right r.1 cu
  split_ifs <;> omega

/-- C23 (code defect): with `cap = 1` and `mix_cap_mult = 2/5` the cap of a mixed
iteration is `round(0.4) = 0`, which the clamp `if (cap_used > 0)` reads as "no
cap": `_sample_run_lengths(12, 12.0, 0.0, 1)` returns the single run length 12,
and the deck built for twelve Success tokens with `cap_s = 1` is one run of
length 12. -/
theorem mixed_cap_rounds_to_zero :
    cap_used_of { mix_rate := 1 / 2, mix_cap_mult := 2 / 5 } 1 true = 0 ∧
      (_sample_run_lengths { mix_rate := 1 / 2, mix_cap_mult := 2 / 5 } 12 12 0 1
        ⟨fun _ => 0, 0⟩).1 = [12] ∧
      (RunDeck.new (fun _ _ => 0) 12 0 0
        { cap_s := 1, tail_strength_s := 0, mix_rate := 1 / 2, mix_cap_mult := 2 / 5 }
        42).sequence = [(S, 12)] := by
  decide!

/-! ## Anti-cluster mode of `_build_block_runs` -/

theorem block_candidates_mem (s_runs f_runs b_runs : List Int) (st : BlockState) (c : Int) :
    c ∈ block_candidates s_runs f_runs b_runs st ↔
      (c = S ∧ st.idx_s < s_runs.length) ∨ (c = F ∧ st.idx_f < f_runs.length) ∨
        (c = B ∧ st.idx_b < b_runs.length) := by
  unfold block_candidates
  split_ifs <;> simp [*]

theorem block_candidates_nodup (s_runs f_runs b_runs : List Int) (st : BlockState) :
    (block_candidates s_runs f_runs b_runs st).Nodup := by
  unfold block_candidates
  split_ifs <;> decide

/-- What one iteration of the interleaving loop does: it appends one run whose
type is the new `prev_type`, chosen among the filtered candidates, and moves no
index back. -/
theorem block_step_shape (cfg : RunDeckConfig) (s_runs f_runs b_runs : List Int)
    (st st1 : BlockState) (h : block_step cfg s_runs f_runs b_runs st = some st1) :
    (∃ len, st1.all_runs = st.all_runs ++ [(st1.prev_type, len)]) ∧
      st1.prev_type ∈ block_filter cfg st.prev_type (block_candidates s_runs f_runs b_runs st) ∧
      st.idx_s ≤ st1.idx_s ∧ st.idx_f ≤ st1.idx_f ∧ st.idx_b ≤ st1.idx_b := by
  unfold block_step at h
  simp only [] at h
  by_cases hc : block_candidates s_runs f_runs b_runs st = []
  · simp [hc] at h
  rw [if_neg hc] at h
  have hflt := block_filter_ok cfg _ st.prev_type hc
  have hmem := block_choose_mem _ st hflt.1
  generalize block_choose (block_filter cfg st.prev_type
    (block_candidates s_runs f_runs b_runs st)) st = ch at h hmem
  split_ifs at h with hS hF
  · simp only [Option.some.injEq] at h
    subst h
    exact ⟨⟨_, rfl⟩, hmem, Nat.le_succ _, le_refl _, le_refl _⟩
  · simp only [Option.some.injEq] at h
    subst h
    exact ⟨⟨_, rfl⟩, hmem, le_refl _, Nat.le_succ _, le_refl _⟩
  · simp only [Option.some.injEq] at h
    subst h
    exact ⟨⟨_, rfl⟩, hmem, le_refl _, le_refl _, Nat.le_succ _⟩

/-- In anti-cluster mode the type of the previous run is chosen again only when
it is the only candidate: no other type has runs left. -/
theorem block_step_repeat (cfg : RunDeckConfig) (hanti : cfg.anti_cluster_mode = true)
    (s_runs f_runs b_runs : List Int) (st st1 : BlockState)
    (h : block_step cfg s_runs f_runs b_runs st = some st1)
    (hrep : st1.prev_type = st.prev_type) :
    ∀ c ∈ block_candidates s_runs f_runs b_runs st, c = st1.prev_type := by
  obtain ⟨_, hmem, _⟩ := block_step_shape cfg s_runs f_runs b_runs st st1 h
  have hnd := block_candidates_nodup s_runs f_runs b_runs st
  have hty := block_candidates_typed s_runs f_runs b_runs st
  generalize block_candidates s_runs f_runs b_runs st = c0 at hmem hnd hty
  unfold block_filter at hmem
  split_ifs at hmem with hc
  · rw [hrep] at hmem
    exact absurd hmem (List.Nodup.not_mem_erase hnd)
  · have hne : st.prev_type ≠ -1 := by
      rw [← hrep]
      rcases hty _ hmem with e | e | e <;> rw [e] <;> decide
    have hlen : c0.length ≤ 1 := by
      by_contra hgt
      exact hc ⟨hanti, hne, by omega⟩
    intro c hcm
    match c0, hlen, hmem, hcm with
    | [x], _, hm, hcm =>
      rw [List.mem_singleton.1 hm, List.mem_singleton.1 hcm]

theorem append_single_split {α : Type} (l l1 l2 : List α) (x p q : α)
    (h : l ++ [x] = l1 ++ p :: q :: l2) :
    (l2 = [] ∧ q = x ∧ l = l1 ++ [p]) ∨ ∃ l3, l2 = l3 ++ [x] ∧ l = l1 ++ p :: q :: l3 := by
  rcases List.eq_nil_or_concat l2 with e | ⟨l3, y, e⟩
  · left
    subst e
    have h1 : l ++ [x] = (l1 ++ [p]) ++ [q] := by simpa using h
    obtain ⟨a, b⟩ := List.append_inj' h1 rfl
    exact ⟨rfl, (List.singleton_inj.1 b).symm, a⟩
  · right
    subst e
    have h1 : l ++ [x] = (l1 ++ p :: q :: l3) ++ [y] := by simpa using h
    obtain ⟨a, b⟩ := List.append_inj' h1 rfl
    exact ⟨l3, by rw [List.singleton_inj.1 b, List.concat_eq_append], a⟩

theorem block_candidates_mono (s_runs f_runs b_runs : List Int) (st st1 : BlockState)
    (hs : st.idx_s ≤ st1.idx_s) (hf : st.idx_f ≤ st1.idx_f) (hb : st.idx_b ≤ st1.idx_b)
    (c : Int) (h : c ∈ block_candidates s_runs f_runs b_runs st1) :
    c ∈ block_candidates s_runs f_runs b_runs st := by
  rw [block_candidates_mem] at h ⊢
  rcases h with ⟨e, h⟩ | ⟨e, h⟩ | ⟨e, h⟩
  · exact Or.inl ⟨e, by omega⟩
  · exact Or.inr (Or.inl ⟨e, by omega⟩)
  · exact Or.inr (Or.inr ⟨e, by omega⟩)

theorem block_step_anti (cfg : RunDeckConfig) (hanti : cfg.anti_cluster_mode = true)
    (s_runs f_runs b_runs : List Int) (st st1 : BlockState)
    (hl : LastInv st) (hc : ClusterInv s_runs f_runs b_runs st)
    (h : block_step cfg s_runs f_runs b_runs st = some st1) :
    LastInv st1 ∧ ClusterInv s_runs f_runs b_runs st1 := by
  obtain ⟨⟨len, hruns⟩, hmem, i1, i2, i3⟩ := block_step_shape cfg s_runs f_runs b_runs st st1 h
  have hsub := (block_filter_ok cfg (block_candidates s_runs f_runs b_runs st) st.prev_type
    (by
      intro he
      rw [he] at hmem
      unfold block_filter at hmem
      split_ifs at hmem <;> simp at hmem)).2
  have hmem0 := hsub hmem
  have hmono := block_candidates_mono s_runs f_runs b_runs st st1 i1 i2 i3
  refine ⟨Or.inr ⟨st.all_runs, (st1.prev_type, len), hruns, rfl⟩, ?_⟩
  intro l1 p q l2 hdec hpq
  rw [hruns] at hdec
  rcases append_single_split _ _ _ _ _ _ hdec with ⟨e2, eq, el⟩ | ⟨l3, e2, el⟩
  · subst e2
    refine ⟨by simp, ?_⟩
    have hq : q.1 = st1.prev_type := by rw [eq]
    have hp : p.1 = st.prev_type := by
      rcases hl with ⟨_, hnil⟩ | ⟨l, p0, hl1, hl2⟩
      · rw [hnil] at el
        simp at el
      · rw [hl1] at el
        obtain ⟨_, b⟩ := List.append_inj' el rfl
        rw [← List.singleton_inj.1 b]
        exact hl2
    have hrep : st1.prev_type = st.prev_type := by rw [← hq, ← hp, hpq]
    intro c hcm
    rw [hq]
    exact block_step_repeat cfg hanti s_runs f_runs b_runs st st1 h hrep c (hmono c hcm)
  · obtain ⟨a1, a2⟩ := hc l1 p q l3 el hpq
    have hch : st1.prev_type = q.1 := a2 _ hmem0
    refine ⟨?_, fun c hcm => a2 c (hmono c hcm)⟩
    intro r hr
    rw [e2] at hr
    rcases List.mem_append.1 hr with hr | hr
    · exact a1 r hr
    · rw [List.mem_singleton.1 hr]
      exact hch

theorem block_loop_anti (cfg : RunDeckConfig) (hanti : cfg.anti_cluster_mode = true)
    (s_runs f_runs b_runs : List Int) (n : Nat) (st : BlockState)
    (hl : LastInv st) (hc : ClusterInv s_runs f_runs b_runs st) :
    LastInv (block_loop cfg s_runs f_runs b_runs n st) ∧
      ClusterInv s_runs f_runs b_runs (block_loop cfg s_runs f_runs b_runs n st) := by
  induction n generalizing st with
  | zero => exact ⟨hl, hc⟩
  | succ n ih =>
    unfold block_loop
    cases hstep : block_step cfg s_runs f_runs b_runs st with
    | none => exact ⟨hl, hc⟩
    | some st1 =>
      obtain ⟨h1, h2⟩ := block_step_anti cfg hanti s_runs f_runs b_runs st st1 hl hc hstep
      exact ih st1 h1 h2

/-- The block returned by `_build_block_runs` holds, for each type, exactly the
pre-sampled runs of that type, in their order. -/
theorem build_block_runs_of (cfg : RunDeckConfig) (s f b : Int) (cs cf cb ts tf tb : ℚ)
    (caps capf capb : Int) (g : Mt19937) :
    runs_of S (_build_block_runs cfg s f b cs cf cb ts tf tb caps capf capb g).1 =
        (_sample_run_lengths cfg s cs ts caps g).1 ∧
      runs_of F (_build_block_runs cfg s f b cs cf cb ts tf tb caps capf capb g).1 =
        (_sample_run_lengths cfg f cf tf capf (_sample_run_lengths cfg s cs ts caps g).2).1 ∧
      runs_of B (_build_block_runs cfg s f b cs cf cb ts tf tb caps capf capb g).1 =
        (_sample_run_lengths cfg b cb tb capb
          (_sample_run_lengths cfg f cf tf capf (_sample_run_lengths cfg s cs ts caps g).2).2).1 ∧
      RunsTyped (_build_block_runs cfg s f b cs cf cb ts tf tb caps capf capb g).1 := by
  unfold _build_block_runs
  simp only []
  generalize _sample_run_lengths cfg s cs ts caps g = rs
  generalize _sample_run_lengths cfg f cf tf capf rs.2 = rf
  generalize _sample_run_lengths cfg b cb tb capb rf.2 = rb
  have hinv0 : BlockInv rs.1 rf.1 rb.1
      { r_s := s, r_f := f, r_b := b, idx_s := 0, idx_f := 0, idx_b := 0,
        prev_type := -1, all_runs := [], rng := rb.2 } := by
    refine ⟨Nat.zero_le _, Nat.zero_le _, Nat.zero_le _, ?_, ?_, ?_, ?_⟩ <;>
      simp [runs_of, RunsTyped]
  obtain ⟨⟨i1, i2, i3, h1, h2, h3, h4⟩, hrem⟩ := block_loop_spec cfg rs.1 rf.1 rb.1
    (rs.1.length + rf.1.length + rb.1.length) _ hinv0 (by unfold block_rem; simp only []; omega)
  unfold block_rem at hrem
  refine ⟨?_, ?_, ?_, h4⟩
  · rw [h1, List.take_of_length_le (by omega)]
  · rw [h2, List.take_of_length_le (by omega)]
  · rw [h3, List.take_of_length_le (by omega)]

theorem build_block_runs_no_cluster (cfg : RunDeckConfig)
    (hanti : cfg.anti_cluster_mode = true) (s f b : Int) (cs cf cb ts tf tb : ℚ)
    (caps capf capb : Int) (g : Mt19937) :
    NoCluster (_build_block_runs cfg s f b cs cf cb ts tf tb caps capf capb g).1 := by
  unfold _build_block_runs
  simp only []
  generalize _sample_run_lengths cfg s cs ts caps g = rs
  generalize _sample_run_lengths cfg f cf tf capf rs.2 = rf
  generalize _sample_run_lengths cfg b cb tb capb rf.2 = rb
  obtain ⟨_, hc⟩ := block_loop_anti cfg hanti rs.1 rf.1 rb.1
    (rs.1.length + rf.1.length + rb.1.length)
    { r_s := s, r_f := f, r_b := b, idx_s := 0, idx_f := 0, idx_b := 0,
      prev_type := -1, all_runs := [], rng := rb.2 }
    (Or.inl ⟨rfl, rfl⟩)
    (by
      intro l1 p q l2 hdec
      simp at hdec)
  intro l1 p q l2 hdec hpq
  exact (hc l1 p q l2 hdec hpq).1

/-- C24: with `anti_cluster_mode` on, an iteration of `_build_block_runs` chooses
the type of the previous run again only when every candidate is that type (no
other type has runs left); so in the returned block two consecutive runs of one
type are followed by runs of that type only.  The block holds, for each type,
exactly the pre-sampled runs of that type. -/
theorem anti_cluster_blocks (cfg : RunDeckConfig) (s f b : Int) (cs cf cb ts tf tb : ℚ)
    (caps capf capb : Int) (g : Mt19937) (hanti : cfg.anti_cluster_mode = true) :
    (∀ (s_runs f_runs b_runs : List Int) (st st1 : BlockState),
      block_step cfg s_runs f_runs b_runs st = some st1 → st1.prev_type = st.prev_type →
      ∀ c ∈ block_candidates s_runs f_runs b_runs st, c = st1.prev_type) ∧
    NoCluster (_build_block_runs cfg s f b cs cf cb ts tf tb caps capf capb g).1 ∧
    runs_of S (_build_block_runs cfg s f b cs cf cb ts tf tb caps capf capb g).1 =
      (_sample_run_lengths cfg s cs ts caps g).1 ∧
    runs_of F (_build_block_runs cfg s f b cs cf cb ts tf tb caps capf capb g).1 =
      (_sample_run_lengths cfg f cf tf capf (_sample_run_lengths cfg s cs ts caps g).2).1 ∧
    runs_of B (_build_block_runs cfg s f b cs cf cb ts tf tb caps capf capb g).1 =
      (_sample_run_lengths cfg b cb tb capb
        (_sample_run_lengths cfg f cf tf capf (_sample_run_lengths cfg s cs ts caps g).2).2).1 ∧
    RunsTyped (_build_block_runs cfg s f b cs cf cb ts tf tb caps capf capb g).1 :=
  ⟨fun s_runs f_runs b_runs st st1 h hrep =>
      block_step_repeat cfg hanti s_runs f_runs b_runs st st1 h hrep,
    build_block_runs_no_cluster cfg hanti s f b cs cf cb ts tf tb caps capf capb g,
    build_block_runs_of cfg s f b cs cf cb ts tf tb caps capf capb g⟩

/-- Witness of C24: a block of three Success tokens and one Fail token with mean
run length 1; the two Success runs left after the Fail run stand at the end. -/
theorem anti_cluster_blocks_witness :
    ({ anti_cluster_mode := true } : RunDeckConfig).anti_cluster_mode = true ∧
      (_build_block_runs { anti_cluster_mode := true } 3 1 0 1 1 1 0 0 0 0 0 0
        ⟨fun _ => 0, 0⟩).1 = [(S, 1), (F, 1), (S, 1), (S, 1)] ∧
      NoCluster (_build_block_runs { anti_cluster_mode := true } 3 1 0 1 1 1 0 0 0 0 0 0
        ⟨fun _ => 0, 0⟩).1 :=
  ⟨rfl, by decide!,
   (anti_cluster_blocks { anti_cluster_mode := true } 3 1 0 1 1 1 0 0 0 0 0 0
     ⟨fun _ => 0, 0⟩ rfl).2.1⟩

/-! ## Fixed-length mode -/

/-- With mixing off, tail strength 0, fixed-length mode, no cap and an integer
mean `1 ≤ m ≤ INT_MAX`, one iteration pushes `min(m, remaining)` and reads no
random number. -/
theorem sample_step_fixed (cfg : RunDeckConfig) (m : Nat) (hm : 1 ≤ m)
    (hmax : m ≤ 2147483647) (remaining : Int)
    (g : Mt19937) (hmix : cfg.mix_rate ≤ 0) (hfix : cfg.fixed_length_mode = true) :
    sample_step cfg (m : ℚ) 0 0 remaining g = (min (m : Int) remaining, g) := by
  have hmq : (1 : ℚ) ≤ (m : ℚ) := by exact_mod_cast hm
  have hu : use_mix_draw cfg g = (false, g) := by
    unfold use_mix_draw
    rw [if_neg (not_lt.2 hmix)]
  have hcap : cap_used_of cfg 0 false = 0 := by
    unfold cap_used_of
    rw [if_neg (by simp)]
  have hmean : max (1 : ℚ) ((m : ℚ) * 1) = (m : ℚ) := by
    rw [mul_one, max_eq_right hmq]
  have htail : min (1 : ℚ) (max 0 (0 * 1)) = 0 := by norm_num
  have hlen : sample_len cfg (m : ℚ) 0 0 g = ((m : Int), g) := by
    unfold sample_len
    rw [if_pos (le_refl _), if_pos hfix]
    simp only [gt_iff_lt, lt_self_iff_false, if_false]
    have hfl : (⌊(m : ℚ)⌋ : Int) = (m : Int) := by
      have : ((m : ℚ)) = (((m : Int) : ℤ) : ℚ) := by push_cast; rfl
      rw [this, Int.floor_intCast]
    have hce : (⌈(m : ℚ)⌉ : Int) = (m : Int) := by
      have : ((m : ℚ)) = (((m : Int) : ℤ) : ℚ) := by push_cast; rfl
      rw [this, Int.ceil_intCast]
    rw [hfl, hce]
    have hci : cint (m : Int) = (m : Int) := by
      unfold cint
      rw [if_pos ⟨by omega, by omega⟩]
    have h1 : max (1 : Int) (m : Int) = (m : Int) := max_eq_right (by exact_mod_cast hm)
    rw [hci, h1, if_pos (le_refl _)]
  unfold sample_step
  simp only [hu, Bool.false_eq_true, if_false, hcap, hmean, htail, hlen, gt_iff_lt,
    lt_self_iff_false]
  split_ifs with h
  · rw [min_eq_right (le_of_lt h)]
  · rw [min_eq_left (not_lt.1 h)]

/-- The loop of `_sample_run_lengths` in fixed-length mode: `q` runs of length `m`,
then one run for the rest `r < m` if it is not zero. -/
theorem sample_loop_fixed (cfg : RunDeckConfig) (m : Nat) (hm : 1 ≤ m)
    (hmax : m ≤ 2147483647) (hmix : cfg.mix_rate ≤ 0) (hfix : cfg.fixed_length_mode = true) (q : Nat) (r : Int)
    (hr0 : 0 ≤ r) (hr1 : r < m) (fuel : Nat) (runs : List Int) (g : Mt19937)
    (hf : (q : Int) * m + r ≤ fuel) :
    sample_loop cfg (m : ℚ) 0 0 fuel ((q : Int) * m + r) runs g =
      (runs ++ List.replicate q (m : Int) ++ (if r = 0 then [] else [r]), g) := by
  induction q generalizing fuel runs with
  | zero =>
    simp only [Nat.cast_zero, zero_mul, zero_add, List.replicate_zero, List.append_nil] at hf ⊢
    cases fuel with
    | zero =>
      have : r = 0 := by simp at hf; omega
      simp [sample_loop, this]
    | succ n =>
      unfold sample_loop
      by_cases hz : r = 0
      · rw [if_neg (by omega), if_pos hz]
        simp
      · rw [if_pos (by omega), if_neg hz, sample_step_fixed cfg m hm hmax r g hmix hfix]
        simp only []
        rw [min_eq_right (by omega), sub_self]
        cases n with
        | zero => rfl
        | succ k =>
          unfold sample_loop
          rw [if_neg (by omega)]
  | succ q ih =>
    have hmpos : (1 : Int) ≤ (m : Int) := by exact_mod_cast hm
    have hqm : (0 : Int) ≤ (q : Int) * m := by positivity
    have hexp : ((q + 1 : Nat) : Int) * m + r = (q : Int) * m + r + m := by push_cast; ring
    rw [hexp] at hf ⊢
    cases fuel with
    | zero => simp at hf; omega
    | succ n =>
      unfold sample_loop
      rw [if_pos (by omega), sample_step_fixed cfg m hm hmax _ g hmix hfix]
      simp only []
      rw [min_eq_left (by omega)]
      have hsub : (q : Int) * m + r + m - m = (q : Int) * m + r := by ring
      rw [hsub, ih n (runs ++ [(m : Int)]) (by push_cast at hf; omega)]
      simp [List.replicate_succ]

/-- The runs returned in fixed-length mode for a mean `1 ≤ m ≤ INT_MAX` are, up
to order, `⌊c / m⌋` runs of length `m` and one run of length `c mod m` when `m`
does not divide `c`. -/
theorem sample_run_lengths_fixed (cfg : RunDeckConfig) (m : Nat) (hm : 1 ≤ m)
    (hmax : m ≤ 2147483647) (c : Int)
    (hc : 0 ≤ c) (g : Mt19937) (hmix : cfg.mix_rate ≤ 0)
    (hfix : cfg.fixed_length_mode = true) :
    (_sample_run_lengths cfg c (m : ℚ) 0 0 g).1.Perm
      (List.replicate (c / (m : Int)).toNat (m : Int) ++
        (if c % (m : Int) = 0 then [] else [c % (m : Int)])) := by
  have hmpos : (0 : Int) < (m : Int) := by exact_mod_cast hm
  have hq0 : 0 ≤ c / (m : Int) := Int.ediv_nonneg hc (le_of_lt hmpos)
  have hr0 : 0 ≤ c % (m : Int) := Int.emod_nonneg _ (ne_of_gt hmpos)
  have hr1 : c % (m : Int) < (m : Int) := Int.emod_lt_of_pos _ hmpos
  have hdec : (((c / (m : Int)).toNat : Nat) : Int) * m + c % (m : Int) = c := by
    rw [Int.toNat_of_nonneg hq0, mul_comm]
    exact Int.ediv_add_emod c m
  unfold _sample_run_lengths
  by_cases hle : c ≤ 0
  · have hc0 : c = 0 := by omega
    subst hc0
    simp
  · rw [if_neg hle]
    simp only []
    have hloop := sample_loop_fixed cfg m hm hmax hmix hfix (c / (m : Int)).toNat (c % (m : Int))
      hr0 hr1 c.toNat [] g (by rw [hdec]; omega)
    rw [hdec] at hloop
    rw [hloop]
    simpa using shuffle_perm _ _

theorem typed_perm (seq : List (Int × Int)) (h : RunsTyped seq) :
    seq.Perm ((runs_of S seq).map (fun x => (S, x)) ++ (runs_of F seq).map (fun x => (F, x)) ++
      (runs_of B seq).map (fun x => (B, x))) := by
  induction seq with
  | nil => simp [runs_of]
  | cons p rest ih =>
    have hr : RunsTyped rest := fun q hq => h q (List.mem_cons_of_mem _ hq)
    have ih1 := ih hr
    obtain ⟨t, x⟩ := p
    rcases h (t, x) (List.mem_cons_self _ _) with e | e | e
    · simp only [] at e
      subst e
      have e1 : runs_of S ((S, x) :: rest) = x :: runs_of S rest := by simp [runs_of]
      have e2 : runs_of F ((S, x) :: rest) = runs_of F rest := by simp [runs_of, S, F]
      have e3 : runs_of B ((S, x) :: rest) = runs_of B rest := by simp [runs_of, S, B]
      rw [e1, e2, e3]
      simpa using ih1
    · simp only [] at e
      subst e
      have e1 : runs_of S ((F, x) :: rest) = runs_of S rest := by simp [runs_of, S, F]
      have e2 : runs_of F ((F, x) :: rest) = x :: runs_of F rest := by simp [runs_of]
      have e3 : runs_of B ((F, x) :: rest) = runs_of B rest := by simp [runs_of, F, B]
      rw [e1, e2, e3]
      simp only [List.map_cons, List.append_assoc, List.cons_append]
      exact (List.Perm.cons _ (by simpa using ih1)).trans List.perm_middle.symm
    · simp only [] at e
      subst e
      have e1 : runs_of S ((B, x) :: rest) = runs_of S rest := by simp [runs_of, S, B]
      have e2 : runs_of F ((B, x) :: rest) = runs_of F rest := by simp [runs_of, F, B]
      have e3 : runs_of B ((B, x) :: rest) = x :: runs_of B rest := by simp [runs_of]
      rw [e1, e2, e3]
      simp only [List.map_cons]
      exact (List.Perm.cons _ ih1).trans List.perm_middle.symm

/-- With mean 1 in fixed-length mode every returned run has length 1. -/
theorem sample_run_lengths_singletons (cfg : RunDeckConfig) (c : Int) (hc : 0 ≤ c)
    (g : Mt19937) (hmix : cfg.mix_rate ≤ 0) (hfix : cfg.fixed_length_mode = true) :
    (_sample_run_lengths cfg c 1 0 0 g).1 = List.replicate c.toNat 1 := by
  have h := sample_run_lengths_fixed cfg 1 (le_refl _) (by norm_num) c hc g hmix hfix
  simp only [Nat.cast_one, Int.ediv_one, Int.emod_one, if_true, List.append_nil] at h
  exact List.perm_replicate.1 h

/-- The scenario of the specification: tail strength 0, fixed-length mode, mean
length 1, no cap, no mixing, no segmentation, `s = 3`, `f = 3`, `b = 0`. -/
theorem deck_of_singletons (gen : Seeder) (cfg : RunDeckConfig) (seed : Int)
    (hmix : cfg.mix_rate ≤ 0) (hfix : cfg.fixed_length_mode = true)
    (hcs : cfg.corr_length_s = 1) (hcf : cfg.corr_length_f = 1)
    (hts : cfg.tail_strength_s = 0) (htf : cfg.tail_strength_f = 0)
    (hcaps : cfg.cap_s = 0) (hcapf : cfg.cap_f = 0)
    (hseg : cfg.box_size ≤ 0 ∨ cfg.box_size ≥ 6) :
    (RunDeck.new gen 3 3 0 cfg seed).sequence.Perm
      [(S, 1), (S, 1), (S, 1), (F, 1), (F, 1), (F, 1)] := by
  rw [(new_fields gen 3 3 0 cfg seed).1, build_sequence_unsegmented cfg 3 3 0 _ (by omega)]
  unfold build_block
  rw [hcs, hcf, hts, htf, hcaps, hcapf]
  obtain ⟨e1, e2, e3, hty⟩ := build_block_runs_of cfg 3 3 0 1 1
    cfg.corr_length_b 0 0 cfg.tail_strength_b 0 0 cfg.cap_b (Mt19937.seeded gen seed)
  have hp := typed_perm _ hty
  have hb : ∀ g1, (_sample_run_lengths cfg 0 cfg.corr_length_b cfg.tail_strength_b cfg.cap_b
      g1).1 = [] := by
    intro g1
    unfold _sample_run_lengths
    rw [if_pos (le_refl _)]
  rw [e1, e2, e3, sample_run_lengths_singletons cfg 3 (by norm_num) _ hmix hfix,
    sample_run_lengths_singletons cfg 3 (by norm_num) _ hmix hfix, hb] at hp
  simpa using hp

/-- C22 (counterexample): with tail strength 0, fixed-length mode on, mix rate 0
and no cap, five tokens with the integer mean `2147483648` come back as five
runs of length 1, not as the one run of length `5 mod 2147483648 = 5`: the
conversion `(int)std::floor(mean_used)` is out of the range of `int` and
`std::max(1, ...)` then gives the base length 1. -/
theorem fixed_length_runs_counterexample :
    ({ corr_length_s := 1, corr_length_f := 1, tail_strength_s := 0,
       tail_strength_f := 0 } : RunDeckConfig).mix_rate = 0 ∧
    ({ corr_length_s := 1, corr_length_f := 1, tail_strength_s := 0,
       tail_strength_f := 0 } : RunDeckConfig).fixed_length_mode = true ∧
    (_sample_run_lengths
        { corr_length_s := 1, corr_length_f := 1, tail_strength_s := 0, tail_strength_f := 0 }
        5 ((2147483648 : Nat) : ℚ) 0 0 ⟨fun _ => 0, 0⟩).1 = [1, 1, 1, 1, 1] ∧
    List.replicate ((5 : Int) / ((2147483648 : Nat) : Int)).toNat ((2147483648 : Nat) : Int) ++
        (if (5 : Int) % ((2147483648 : Nat) : Int) = 0 then []
          else [(5 : Int) % ((2147483648 : Nat) : Int)]) = [5] ∧
    ¬ ([1, 1, 1, 1, 1] : List Int).Perm [5] := by
  refine ⟨rfl, rfl, by decide!, by decide, ?_⟩
  intro h
  have := h.length_eq
  simp at this

/-- C22 (amended): with tail strength 0, fixed-length mode on, mix rate 0, no cap
and an integer mean `1 ≤ m ≤ INT_MAX = 2147483647`,
`_sample_run_lengths(c, m, 0, 0)` returns, up to order, `⌊c / m⌋` runs of length
`m` and one run of length `c mod m` when `m` does not divide `c`; with mean 1
every run has length 1, and a deck built without segmentation for `s = 3`,
`f = 3`, `b = 0` with mean 1 for both outcomes consists of three Success and
three Fail runs of length 1. -/
theorem fixed_length_runs (gen : Seeder) (cfg : RunDeckConfig) (m : Nat) (c : Int)
    (g : Mt19937) (seed : Int) (hm : 1 ≤ m) (hmax : m ≤ 2147483647) (hc : 0 ≤ c)
    (hmix : cfg.mix_rate = 0) (hfix : cfg.fixed_length_mode = true) :
    (_sample_run_lengths cfg c (m : ℚ) 0 0 g).1.Perm
        (List.replicate (c / (m : Int)).toNat (m : Int) ++
          (if c % (m : Int) = 0 then [] else [c % (m : Int)])) ∧
      (_sample_run_lengths cfg c 1 0 0 g).1 = List.replicate c.toNat 1 ∧
      (cfg.corr_length_s = 1 → cfg.corr_length_f = 1 → cfg.tail_strength_s = 0 →
        cfg.tail_strength_f = 0 → cfg.cap_s = 0 → cfg.cap_f = 0 →
        (cfg.box_size ≤ 0 ∨ cfg.box_size ≥ 6) →
        (RunDeck.new gen 3 3 0 cfg seed).sequence.Perm
          [(S, 1), (S, 1), (S, 1), (F, 1), (F, 1), (F, 1)]) :=
  ⟨sample_run_lengths_fixed cfg m hm hmax c hc g (le_of_eq hmix) hfix,
   sample_run_lengths_singletons cfg c hc g (le_of_eq hmix) hfix,
   fun hcs hcf hts htf hcaps hcapf hseg =>
     deck_of_singletons gen cfg seed (le_of_eq hmix) hfix hcs hcf hts htf hcaps hcapf hseg⟩

/-- Witness of C22 (amended): five tokens with mean 2 give the runs 2, 2, 1; the
deck of the scenario has six runs of length 1. -/
theorem fixed_length_runs_witness :
    1 ≤ 2 ∧ 2 ≤ 2147483647 ∧ (0 : Int) ≤ 5 ∧
      ({ corr_length_s := 1, corr_length_f := 1, tail_strength_s := 0,
         tail_strength_f := 0 } : RunDeckConfig).mix_rate = 0 ∧
      ({ corr_length_s := 1, corr_length_f := 1, tail_strength_s := 0,
         tail_strength_f := 0 } : RunDeckConfig).fixed_length_mode = true ∧
      (_sample_run_lengths
          { corr_length_s := 1, corr_length_f := 1, tail_strength_s := 0, tail_strength_f := 0 }
          5 ((2 : Nat) : ℚ) 0 0 ⟨fun _ => 0, 0⟩).1.Perm
        (List.replicate ((5 : Int) / ((2 : Nat) : Int)).toNat ((2 : Nat) : Int) ++
          (if (5 : Int) % ((2 : Nat) : Int) = 0 then [] else [(5 : Int) % ((2 : Nat) : Int)])) ∧
      (RunDeck.new (fun _ _ => 0) 3 3 0
          { corr_length_s := 1, corr_length_f := 1, tail_strength_s := 0, tail_strength_f := 0 }
          42).sequence.Perm [(S, 1), (S, 1), (S, 1), (F, 1), (F, 1), (F, 1)] :=
  ⟨by decide, by decide, by decide, rfl, rfl,
   (fixed_length_runs (fun _ _ => 0)
     { corr_length_s := 1, corr_length_f := 1, tail_strength_s := 0, tail_strength_f := 0 }
     2 5 ⟨fun _ => 0, 0⟩ 42 (by decide) (by decide) (by decide) rfl rfl).1,
   (fixed_length_runs (fun _ _ => 0)
     { corr_length_s := 1, corr_length_f := 1, tail_strength_s := 0, tail_strength_f := 0 }
     2 5 ⟨fun _ => 0, 0⟩ 42 (by decide) (by decide) (by decide) rfl rfl).2.2 rfl rfl rfl rfl
     rfl rfl (Or.inl (by decide))⟩

end Starforce
